import Mathlib

/-! # The spreadsheet engine: cells, dependency graph, cycle detection, caches

A shallow embedding of `cell.cpp`, `sheet.cpp` and `formula.cpp`.

* A `Cell*` is modelled by the position of the cell inside the sheet: the
  sheet owns every cell through a `unique_ptr` stored under its position, and a
  cell never moves, so the position identifies the object.  A null pointer is
  `none`.
* `std::unordered_set<Cell*>` is a list of positions; `insert` keeps it free of
  duplicates and `erase` removes every occurrence.
* `std::unordered_map<Position, std::unique_ptr<Cell>>` is an association
  list.  An entry can hold a null `unique_ptr` (`ClearCell` resets the pointer
  and keeps the entry), so an entry is an `Option (Cell D)`.
* `double` is a type parameter `D`; the arithmetic, the parser and the
  conversion of a number inside `in >> result` are fields of `Externals D`.
  The whitespace skip before that conversion and the test `in.eof()` after it
  are part of the model.
* Recursion and loops whose termination depends on the state take fuel.
-/

namespace Spreadsheet

/-! ## Values of `common.h` -/

/-- Grid coordinates, `struct Position { int row; int col; }`. -/
structure Position where
  row : Int
  col : Int
deriving DecidableEq, Repr

/-- Modelled from the spec: `common.h` is not among the sources; the bound on
rows of a valid position. -/
def MAX_ROWS : Int := 16384

/-- Modelled from the spec: `common.h` is not among the sources; the bound on
columns of a valid position. -/
def MAX_COLS : Int := 16384

/-- Modelled from the spec: `Position::IsValid`, both coordinates lie within
`0 ≤ row < MAX_ROWS`, `0 ≤ col < MAX_COLS`. -/
def Position.IsValid (p : Position) : Bool :=
  decide (0 ≤ p.row) && decide (0 ≤ p.col) && decide (p.row < MAX_ROWS) && decide (p.col < MAX_COLS)

/-- Dimensions of the printable region, `struct Size { int rows; int cols; }`. -/
structure Size where
  rows : Int
  cols : Int
deriving DecidableEq, Repr

/-- Categories of `FormulaError`. -/
inductive Category where
  | Ref
  | Value
  | Arithmetic
deriving DecidableEq, Repr

/-- Everything the engine throws.  `FormulaError` is thrown by the lookup and
caught inside `Formula::Evaluate`; the others reach the caller. -/
inductive Exception where
  | InvalidPositionException
  | FormulaException
  | CircularDependencyException
  | FormulaError (c : Category)
  | logic_error
  | bad_variant_access
deriving DecidableEq, Repr

/-- Modelled from the spec: `FORMULA_SIGN` of `common.h`, the character `=`. -/
def FORMULA_SIGN : Char := '='

/-- Modelled from the spec: `ESCAPE_SIGN` of `common.h`, the apostrophe (0x27). -/
def ESCAPE_SIGN : Char := Char.ofNat 39

/-- How a call ends: it returns `a` leaving the state `s`; an exception
propagates out of it with the state as it is at the throw; it dereferences a
null `unique_ptr` (undefined behaviour, no state afterwards); or the model ran
out of fuel. -/
inductive Outcome (σ α : Type) where
  | ok (a : α) (s : σ)
  | throws (e : Exception) (s : σ)
  | nullDeref
  | outOfFuel
deriving DecidableEq, Repr

deriving instance DecidableEq for Except

/-- Sequencing of two calls: the second runs only when the first returns. -/
def Outcome.bind {σ α β : Type} (o : Outcome σ α) (k : α → σ → Outcome σ β) : Outcome σ β :=
  match o with
  | .ok a s => k a s
  | .throws e s => .throws e s
  | .nullDeref => .nullDeref
  | .outOfFuel => .outOfFuel

/-! ## The parsed formula (`FormulaAST.h`, external) -/

/-- Binary operators of the expression grammar. -/
inductive BinOp where
  | Add
  | Sub
  | Mul
  | Div
deriving DecidableEq, Repr

/-- Unary operators of the expression grammar. -/
inductive UnOp where
  | Plus
  | Minus
deriving DecidableEq, Repr

/-- Modelled from the spec: the expression tree of `FormulaAST`, an expression
grammar with numeric literals, arithmetic operators and cell-position
references. -/
inductive Expr (D : Type) where
  | number (d : D)
  | cell (p : Position)
  | unary (op : UnOp) (e : Expr D)
  | binary (op : BinOp) (l r : Expr D)
deriving DecidableEq, Repr

/-- Modelled from the spec: the object `ParseFormulaAST` returns.  `cells` is
what `GetCells()` lists, in the order and multiplicity the AST keeps them;
`printed` is what `PrintFormula` writes. -/
structure FormulaAST (D : Type) where
  root : Expr D
  cells : List Position
  printed : String
deriving DecidableEq, Repr

/-- The positions that occur in an expression, left to right. -/
def Expr.positions {D : Type} : Expr D → List Position
  | .number _ => []
  | .cell p => [p]
  | .unary _ e => e.positions
  | .binary _ l r => l.positions ++ r.positions

/-- The external collaborators of the engine: the formula parser, `double`
arithmetic and the conversion of a `double` inside the stream input. -/
structure Externals (D : Type) where
  /-- `ParseFormulaAST(expression)`; `none` when it throws. -/
  ParseFormulaAST : String → Option (FormulaAST D)
  /-- The literal `0.0`. -/
  zero : D
  /-- Arithmetic of a binary operator on two doubles. -/
  binary : BinOp → D → D → D
  /-- Arithmetic of a unary operator. -/
  unary : UnOp → D → D
  /-- The test `std::isinf`. -/
  isinf : D → Bool
  /-- The conversion inside `in >> result` (`num_get` for `double`) on the
  characters that follow the skipped whitespace: the number read and the
  characters it did not consume; `none` when no number can be read. -/
  extractDouble : List Char → Option (D × List Char)

/-- The test `std::isspace` of the classic locale: space, tab, line feed,
vertical tab, form feed and carriage return. -/
def isSpace (c : Char) : Bool :=
  c = ' ' || c = '\t' || c = '\n' || c = Char.ofNat 11 || c = Char.ofNat 12 || c = '\r'

/-- The start of the formatted input `in >> result`: leading whitespace is
skipped. -/
def skipSpace : List Char → List Char
  | [] => []
  | c :: rest => if isSpace c then skipSpace rest else c :: rest

/-- The statements `std::istringstream in(value); double result;` and the test
`!(in >> result) || !in.eof()` of `ExtractValueFromCell`: the number read when
the test is false, `none` when it is true.  The input fails when only
whitespace is left or when no number can be read; `in.eof()` holds after a
successful read exactly when the read consumed every character. -/
def Externals.readDouble {D : Type} (X : Externals D) (value : String) : Option D :=
  match skipSpace value.data with
  | [] => none
  | c :: rest =>
    match X.extractDouble (c :: rest) with
    | some (result, left) => if left.isEmpty then some result else none
    | none => none

/-! ## Cells and the sheet -/

/-- The type `FormulaInterface::Value`, `std::variant<double, FormulaError>`. -/
inductive FormulaValue (D : Type) where
  | number (d : D)
  | error (c : Category)
deriving DecidableEq, Repr

/-- The type `CellInterface::Value`, `std::variant<std::string, double, FormulaError>`. -/
inductive CellValue (D : Type) where
  | text (s : String)
  | number (d : D)
  | error (c : Category)
deriving DecidableEq, Repr

/-- The three bodies `Cell::EmptyImpl`, `Cell::TextImpl`, `Cell::FormulaImpl`. -/
inductive Impl (D : Type) where
  | EmptyImpl
  | TextImpl (text_ : String)
  | FormulaImpl (formula_ptr_ : FormulaAST D) (cache_ : Option (FormulaValue D))
deriving DecidableEq, Repr

/-- The data members of `class Cell`. -/
structure Cell (D : Type) where
  impl_ : Impl D
  dependent_cells_ : List Position
  referenced_cells_ : List Position
deriving DecidableEq, Repr

/-- The data member `cells_` of `class Sheet`. -/
structure Sheet (D : Type) where
  cells_ : List (Position × Option (Cell D))
deriving DecidableEq, Repr

/-- `Formula::GetReferencedCells`: the cells of the AST with `std::unique`
applied, which drops an element equal to the one right before it. -/
def uniqueAdjacent : List Position → List Position
  | [] => []
  | [a] => [a]
  | a :: b :: rest => if a = b then uniqueAdjacent (b :: rest) else a :: uniqueAdjacent (b :: rest)

/-- `Formula::GetReferencedCells`. -/
def FormulaAST.GetReferencedCells {D : Type} (f : FormulaAST D) : List Position :=
  uniqueAdjacent f.cells

/-- `Formula::GetExpression`. -/
def FormulaAST.GetExpression {D : Type} (f : FormulaAST D) : String :=
  f.printed

/-- `Impl::GetReferencedCells`, empty unless the body is a formula. -/
def Impl.GetReferencedCells {D : Type} : Impl D → List Position
  | .EmptyImpl => []
  | .TextImpl _ => []
  | .FormulaImpl f _ => f.GetReferencedCells

/-- `Impl::HasCache`, `true` unless the body is a formula. -/
def Impl.HasCache {D : Type} : Impl D → Bool
  | .EmptyImpl => true
  | .TextImpl _ => true
  | .FormulaImpl _ cache_ => cache_.isSome

/-- `Impl::InvalidateCache`, a no-op unless the body is a formula. -/
def Impl.InvalidateCache {D : Type} : Impl D → Impl D
  | .EmptyImpl => .EmptyImpl
  | .TextImpl t => .TextImpl t
  | .FormulaImpl f _ => .FormulaImpl f none

/-- `Impl::GetText`. -/
def Impl.GetText {D : Type} : Impl D → String
  | .EmptyImpl => ""
  | .TextImpl t => t
  | .FormulaImpl f _ => String.mk (FORMULA_SIGN :: f.GetExpression.data)

/-- The constructor `Cell::Cell(Sheet&)`: an empty body and no edges. -/
def Cell.new {D : Type} : Cell D :=
  { impl_ := .EmptyImpl, dependent_cells_ := [], referenced_cells_ := [] }

/-- `cells_.find(pos)`: `none` is `end()`, `some none` an entry holding a null
pointer, `some (some c)` an entry holding the cell `c`. -/
def findEntry {D : Type} : List (Position × Option (Cell D)) → Position → Option (Option (Cell D))
  | [], _ => none
  | (q, c) :: rest, p => if q = p then some c else findEntry rest p

/-- `Sheet::find`, the entry of a position. -/
def Sheet.find {D : Type} (s : Sheet D) (pos : Position) : Option (Option (Cell D)) :=
  findEntry s.cells_ pos

/-- The cell a pointer to position `pos` points at; `none` for a null pointer
or a position without an entry. -/
def Sheet.cellAt {D : Type} (s : Sheet D) (pos : Position) : Option (Cell D) :=
  (s.find pos).join

/-- Overwrite the pointer stored under `pos` (first entry with that key). -/
def setEntry {D : Type} : List (Position × Option (Cell D)) → Position → Option (Cell D) →
    List (Position × Option (Cell D))
  | [], _, _ => []
  | (q, c) :: rest, p, v => if q = p then (q, v) :: rest else (q, c) :: setEntry rest p v

/-- Write through a pointer: replace the cell stored under `pos`. -/
def Sheet.store {D : Type} (s : Sheet D) (pos : Position) (c : Cell D) : Sheet D :=
  { cells_ := setEntry s.cells_ pos (some c) }

/-- Apply `f` to the cell under `pos`, when there is one. -/
def Sheet.modify {D : Type} (s : Sheet D) (pos : Position) (f : Cell D → Cell D) : Sheet D :=
  match s.cellAt pos with
  | some c => s.store pos (f c)
  | none => s

/-- `cells_.emplace(pos, std::make_unique<Cell>(*this))`, called when `pos` has no entry. -/
def Sheet.emplace {D : Type} (s : Sheet D) (pos : Position) : Sheet D :=
  { cells_ := (pos, some Cell.new) :: s.cells_ }

/-- `cell->second.reset()`: the entry stays, its pointer becomes null. -/
def Sheet.reset {D : Type} (s : Sheet D) (pos : Position) : Sheet D :=
  { cells_ := setEntry s.cells_ pos none }

/-- The sheet `CreateSheet()` returns. -/
def Sheet.empty {D : Type} : Sheet D :=
  { cells_ := [] }

/-- `unordered_set::insert`. -/
def setInsert (x : Position) (l : List Position) : List Position :=
  if x ∈ l then l else x :: l

/-- `unordered_set::erase`. -/
def setErase (x : Position) (l : List Position) : List Position :=
  l.filter (fun y => decide (y ≠ x))

/-- `Sheet::GetCellPtr`: throws on an invalid position, else the pointer stored
under `pos` (null when there is no entry). A non-null pointer is the position. -/
def Sheet.GetCellPtr {D : Type} (s : Sheet D) (pos : Position) : Except Exception (Option Position) :=
  if !pos.IsValid then .error .InvalidPositionException
  else match s.cellAt pos with
    | some _ => .ok (some pos)
    | none => .ok none

/-- `Sheet::GetCell`: the cell view, null when absent. -/
def Sheet.GetCell {D : Type} (s : Sheet D) (pos : Position) : Except Exception (Option (Cell D)) :=
  if !pos.IsValid then .error .InvalidPositionException
  else .ok (s.cellAt pos)

/-- The dependent set read through a pointer to the cell at `p`. -/
def Sheet.dependents {D : Type} (s : Sheet D) (p : Position) : List Position :=
  match s.cellAt p with
  | some c => c.dependent_cells_
  | none => []

/-- The reference set read through a pointer to the cell at `p`. -/
def Sheet.references {D : Type} (s : Sheet D) (p : Position) : List Position :=
  match s.cellAt p with
  | some c => c.referenced_cells_
  | none => []

/-! ## Cycle detection (`cell.cpp`) -/

/-- The loop of `Cell::HasCycle`.  `to_visit` is the stack, its head the top;
`referenced` holds the pointers `GetCellPtr` returned, null ones included.
Returns the answer with the final `visited`; `none` when the fuel is spent. -/
def HasCycle {D : Type} (s : Sheet D) :
    Nat → List (Option Position) → List Position → List Position → Option (Bool × List Position)
  | 0, _, _, _ => none
  | fuel + 1, referenced, visited, to_visit =>
    match to_visit with
    | [] => some (false, visited)
    | current :: rest =>
      let visited1 := setInsert current visited
      if some current ∈ referenced then some (true, visited1)
      else
        let to_visit1 := (s.dependents current).foldl
          (fun st incoming => if incoming ∈ visited1 then st else incoming :: st) rest
        HasCycle s fuel referenced visited1 to_visit1

/-- The loop of `CheckCyclicDependency` that fills `referenced` with
`sheet_.GetCellPtr(pos)`; the first invalid position throws. -/
def collectReferenced {D : Type} (s : Sheet D) : List Position → Except Exception (List (Option Position))
  | [] => .ok []
  | pos :: rest =>
    match s.GetCellPtr pos with
    | .error e => .error e
    | .ok ptr =>
      match collectReferenced s rest with
      | .error e => .error e
      | .ok l => .ok (ptr :: l)

/-- Number of dependent edges stored in the sheet. -/
def edgeCount {D : Type} : List (Position × Option (Cell D)) → Nat
  | [] => 0
  | (_, some c) :: rest => c.dependent_cells_.length + edgeCount rest
  | (_, none) :: rest => edgeCount rest

/-- Fuel that lets the loop of `HasCycle` started on a one-element stack run to
its end on any sheet. -/
def hasCycleFuel {D : Type} (s : Sheet D) : Nat :=
  (2 * edgeCount s.cells_ + 1) * (edgeCount s.cells_ + 1) + edgeCount s.cells_ + 2

/-- `Cell::CheckCyclicDependency`, a `const` method of the cell at `self`. -/
def Cell.CheckCyclicDependency {D : Type} (s : Sheet D) (self : Position) (new_impl : Impl D) :
    Outcome (Sheet D) Bool :=
  if new_impl.GetReferencedCells.isEmpty then .ok false s
  else
    match collectReferenced s new_impl.GetReferencedCells with
    | .error e => .throws e s
    | .ok referenced =>
      match HasCycle s (hasCycleFuel s) referenced [] [self] with
      | some (b, _) => .ok b s
      | none => .outOfFuel

/-! ## Cache invalidation and rewiring (`cell.cpp`) -/

/-- `Cell::UpdateDependencies(force)` on the cell at `self`; the fuel bounds the
depth of the recursion, `none` when it is spent. -/
def UpdateDependencies {D : Type} : Nat → Sheet D → Position → Bool → Option (Sheet D)
  | 0, _, _, _ => none
  | fuel + 1, s, self, force =>
    match s.cellAt self with
    | none => some s
    | some c =>
      if c.impl_.HasCache || force then
        let s1 := s.store self { c with impl_ := c.impl_.InvalidateCache }
        c.dependent_cells_.foldlM (fun st incoming => UpdateDependencies fuel st incoming false) s1
      else some s

/-- Depth that `UpdateDependencies` never exceeds on a sheet whose dependents
are formula cells. -/
def updateFuel {D : Type} (s : Sheet D) : Nat :=
  s.cells_.length + 2

/-- The second loop of `Cell::UpdateReferences`: for each referenced position,
create the cell when `GetCellPtr` is null, then insert the two edges. -/
def linkReferences {D : Type} (setCell : Sheet D → Position → String → Outcome (Sheet D) Unit)
    (self : Position) : List Position → Sheet D → Outcome (Sheet D) Unit
  | [], s => .ok () s
  | pos :: rest, s =>
    match s.GetCellPtr pos with
    | .error e => .throws e s
    | .ok ptr =>
      let found : Outcome (Sheet D) (Option Position) :=
        match ptr with
        | some q => .ok (some q) s
        | none =>
          (setCell s pos "").bind (fun _ s1 =>
            match s1.GetCellPtr pos with
            | .error e => .throws e s1
            | .ok ptr1 => .ok ptr1 s1)
      found.bind (fun outgoing s1 =>
        match outgoing with
        | none => .nullDeref
        | some q =>
          let s2 := s1.modify self (fun c => { c with referenced_cells_ := setInsert q c.referenced_cells_ })
          let s3 := s2.modify q (fun oc => { oc with dependent_cells_ := setInsert self oc.dependent_cells_ })
          linkReferences setCell self rest s3)

/-- The first loop of `Cell::UpdateReferences`: erase `self` from the dependent
set of every cell it referenced. -/
def unlinkReferences {D : Type} (self : Position) (old : List Position) (s : Sheet D) : Sheet D :=
  old.foldl (fun st outgoing =>
    st.modify outgoing (fun oc => { oc with dependent_cells_ := setErase self oc.dependent_cells_ })) s

/-- `Cell::UpdateReferences(new_impl)` on the cell at `self`; `setCell` is
`sheet_.SetCell`, which the method re-enters to create a missing cell. -/
def Cell.UpdateReferences {D : Type} (setCell : Sheet D → Position → String → Outcome (Sheet D) Unit)
    (s : Sheet D) (self : Position) (new_impl : Impl D) : Outcome (Sheet D) Unit :=
  match s.cellAt self with
  | none => .nullDeref
  | some c =>
    let s1 := unlinkReferences self c.referenced_cells_ s
    let s2 := s1.modify self (fun c1 => { c1 with referenced_cells_ := [], impl_ := new_impl })
    linkReferences setCell self new_impl.GetReferencedCells s2

/-- `ParseFormula`: the constructor of `Formula` turns any exception of
`ParseFormulaAST` into `FormulaException`. -/
def ParseFormula {D : Type} (X : Externals D) (expression : String) : Except Exception (FormulaAST D) :=
  match X.ParseFormulaAST expression with
  | some ast => .ok ast
  | none => .error .FormulaException

/-- The constructor of `Cell::TextImpl`. -/
def TextImpl.new {D : Type} (text : String) : Except Exception (Impl D) :=
  if text.data.isEmpty then .error .logic_error else .ok (.TextImpl text)

/-- The constructor of `Cell::FormulaImpl`: the formula is parsed from the
expression without its first character, the cache starts empty. -/
def FormulaImpl.new {D : Type} (X : Externals D) (expression : String) : Except Exception (Impl D) :=
  match expression.data with
  | [] => .error .logic_error
  | c :: rest =>
    if c ≠ FORMULA_SIGN then .error .logic_error
    else
      match ParseFormula X (String.mk rest) with
      | .error e => .error e
      | .ok f => .ok (.FormulaImpl f none)

/-- The first statement of `Cell::Set`: the candidate body built from the text. -/
def buildImpl {D : Type} (X : Externals D) (text : String) : Except Exception (Impl D) :=
  match text.data with
  | [] => .ok .EmptyImpl
  | c :: rest =>
    if decide (rest.length + 1 > 1) && decide (c = FORMULA_SIGN) then FormulaImpl.new X text
    else TextImpl.new text

/-- `Cell::Set(text)` on the cell at `self`. -/
def Cell.Set {D : Type} (X : Externals D)
    (setCell : Sheet D → Position → String → Outcome (Sheet D) Unit)
    (s : Sheet D) (self : Position) (text : String) : Outcome (Sheet D) Unit :=
  match buildImpl X text with
  | .error e => .throws e s
  | .ok impl =>
    (Cell.CheckCyclicDependency s self impl).bind (fun cyclic s1 =>
      if cyclic then .throws .CircularDependencyException s1
      else
        (Cell.UpdateReferences setCell s1 self impl).bind (fun _ s2 =>
          match UpdateDependencies (updateFuel s2) s2 self true with
          | some s3 => .ok () s3
          | none => .outOfFuel))

/-! ## The sheet (`sheet.cpp`) -/

/-- The lookup and `emplace` at the start of `Sheet::SetCell`: a position without
an entry gets a fresh cell, an existing entry is left as it is. -/
def Sheet.ensure {D : Type} (s : Sheet D) (pos : Position) : Sheet D :=
  match s.find pos with
  | none => s.emplace pos
  | some _ => s

/-- The body of `Sheet::SetCell`; `setCell` is the method itself as seen by the
re-entrant call inside `Cell::UpdateReferences`. -/
def Sheet.SetCellWith {D : Type} (X : Externals D)
    (setCell : Sheet D → Position → String → Outcome (Sheet D) Unit)
    (s : Sheet D) (pos : Position) (text : String) : Outcome (Sheet D) Unit :=
  if !pos.IsValid then .throws .InvalidPositionException s
  else
    match (s.ensure pos).cellAt pos with
    | none => .nullDeref
    | some _ => Cell.Set X setCell (s.ensure pos) pos text

/-- `Sheet::SetCell` with a bound on the depth of re-entrant calls. -/
def SetCellFuel {D : Type} (X : Externals D) : Nat → Sheet D → Position → String → Outcome (Sheet D) Unit
  | 0 => fun _ _ _ => .outOfFuel
  | n + 1 => Sheet.SetCellWith X (SetCellFuel X n)

/-- `Sheet::SetCell`.  The re-entrant call sets the text `""`, whose body has no
references, so the calls nest two deep at most. -/
def Sheet.SetCell {D : Type} (X : Externals D) (s : Sheet D) (pos : Position) (text : String) :
    Outcome (Sheet D) Unit :=
  SetCellFuel X 2 s pos text

/-- `Cell::Clear`. -/
def Cell.Clear {D : Type} (X : Externals D) (s : Sheet D) (self : Position) : Outcome (Sheet D) Unit :=
  Cell.Set X (Sheet.SetCell X) s self ""

/-- `Cell::IsReferenced` of the cell at `self`. -/
def Cell.IsReferenced {D : Type} (s : Sheet D) (self : Position) : Bool :=
  !(s.dependents self).isEmpty

/-- `Sheet::ClearCell`. -/
def Sheet.ClearCell {D : Type} (X : Externals D) (s : Sheet D) (pos : Position) : Outcome (Sheet D) Unit :=
  if !pos.IsValid then .throws .InvalidPositionException s
  else
    match s.find pos with
    | some (some _) =>
      (Cell.Clear X s pos).bind (fun _ s1 =>
        if !(Cell.IsReferenced s1 pos) then .ok () (s1.reset pos) else .ok () s1)
    | _ => .ok () s

/-- `Sheet::GetPrintableSize`. -/
def Sheet.GetPrintableSize {D : Type} (s : Sheet D) : Size :=
  s.cells_.foldl (fun result it =>
    match it.2 with
    | some _ => { rows := max result.rows (it.1.row + 1), cols := max result.cols (it.1.col + 1) }
    | none => result) { rows := 0, cols := 0 }

/-! ## Evaluation (`formula.cpp`, `cell.cpp`) -/

/-- Modelled from the spec: `FormulaAST::Execute(lookup)`.  The operands of an
operator are executed left to right and an exception raised by the lookup
propagates out of the execution. -/
def Expr.Execute {D : Type} (X : Externals D) (lookup : Position → Sheet D → Outcome (Sheet D) D) :
    Expr D → Sheet D → Outcome (Sheet D) D
  | .number d, s => .ok d s
  | .cell p, s => lookup p s
  | .unary op e, s => (e.Execute X lookup s).bind (fun v s1 => .ok (X.unary op v) s1)
  | .binary op l r, s =>
    (l.Execute X lookup s).bind (fun a s1 =>
      (r.Execute X lookup s1).bind (fun b s2 => .ok (X.binary op a b) s2))

/-- `Formula::ExtractValueFromCell(cell)` for the cell at `p`; `getValue` is
`cell->GetValue()`, which the function calls up to three times. -/
def ExtractValueFromCell {D : Type} (X : Externals D)
    (getValue : Sheet D → Position → Outcome (Sheet D) (CellValue D))
    (p : Position) (s : Sheet D) : Outcome (Sheet D) D :=
  (getValue s p).bind (fun v1 s1 =>
    match v1 with
    | .number _ =>
      (getValue s1 p).bind (fun v2 s2 =>
        match v2 with
        | .number d => .ok d s2
        | _ => .throws .bad_variant_access s2)
    | _ =>
      (getValue s1 p).bind (fun v2 s2 =>
        match v2 with
        | .text _ =>
          (getValue s2 p).bind (fun v3 s3 =>
            match v3 with
            | .text value =>
              if value.data.isEmpty then .ok X.zero s3
              else
                match X.readDouble value with
                | some result => .ok result s3
                | none => .throws (.FormulaError .Value) s3
            | _ => .throws .bad_variant_access s3)
        | _ =>
          (getValue s2 p).bind (fun v3 s3 =>
            match v3 with
            | .error c => .throws (.FormulaError c) s3
            | _ => .throws .bad_variant_access s3)))

/-- The lambda `getValue` of `Formula::Evaluate`, the lookup handed to the AST. -/
def lookupValue {D : Type} (X : Externals D)
    (getValue : Sheet D → Position → Outcome (Sheet D) (CellValue D))
    (p : Position) (s : Sheet D) : Outcome (Sheet D) D :=
  if !p.IsValid then .throws (.FormulaError .Ref) s
  else
    match s.cellAt p with
    | none => .ok X.zero s
    | some _ => ExtractValueFromCell X getValue p s

/-- `Formula::Evaluate(sheet)`: a `FormulaError` thrown during the execution is
caught and returned. -/
def Formula.Evaluate {D : Type} (X : Externals D)
    (getValue : Sheet D → Position → Outcome (Sheet D) (CellValue D))
    (f : FormulaAST D) (s : Sheet D) : Outcome (Sheet D) (FormulaValue D) :=
  match f.root.Execute X (lookupValue X getValue) s with
  | .ok result s1 => if X.isinf result then .ok (.error .Arithmetic) s1 else .ok (.number result) s1
  | .throws (.FormulaError c) s1 => .ok (.error c) s1
  | .throws e s1 => .throws e s1
  | .nullDeref => .nullDeref
  | .outOfFuel => .outOfFuel

/-- `TextImpl::GetValue`: the text without a leading escape sign. -/
def TextImpl.GetValue (text_ : String) : String :=
  match text_.data with
  | c :: rest => if c = ESCAPE_SIGN then String.mk rest else text_
  | [] => text_

/-- The conversion at the end of `FormulaImpl::GetValue`. -/
def FormulaValue.toCellValue {D : Type} : FormulaValue D → CellValue D
  | .number d => .number d
  | .error c => .error c

/-- The assignment `cache_ = ...` inside the formula body of the cell at `self`. -/
def Sheet.setCache {D : Type} (s : Sheet D) (self : Position) (v : FormulaValue D) : Sheet D :=
  s.modify self (fun c =>
    match c.impl_ with
    | .FormulaImpl f _ => { c with impl_ := .FormulaImpl f (some v) }
    | _ => c)

/-- `Cell::GetValue` of the cell at `self`, dispatching on the body.  The
formula body fills its cache when it is empty and then evaluates once more; the
fuel bounds the depth of the recursion through referenced cells. -/
def Cell.GetValue {D : Type} (X : Externals D) :
    Nat → Sheet D → Position → Outcome (Sheet D) (CellValue D)
  | 0, _, _ => .outOfFuel
  | fuel + 1, s, self =>
    match s.cellAt self with
    | none => .nullDeref
    | some c =>
      match c.impl_ with
      | .EmptyImpl => .ok (.text "") s
      | .TextImpl text_ => .ok (.text (TextImpl.GetValue text_)) s
      | .FormulaImpl f cache_ =>
        let filled : Outcome (Sheet D) Unit :=
          match cache_ with
          | some _ => .ok () s
          | none =>
            (Formula.Evaluate X (Cell.GetValue X fuel) f s).bind (fun v s1 => .ok () (s1.setCache self v))
        filled.bind (fun _ s1 =>
          (Formula.Evaluate X (Cell.GetValue X fuel) f s1).bind (fun value s2 =>
            .ok value.toCellValue s2))

/-- Depth of evaluation that an acyclic sheet never exceeds. -/
def evalFuel {D : Type} (s : Sheet D) : Nat :=
  s.cells_.length + 1

/-- `Formula::Evaluate` of the formula `f` against the sheet. -/
def Sheet.Evaluate {D : Type} (X : Externals D) (s : Sheet D) (f : FormulaAST D) :
    Outcome (Sheet D) (FormulaValue D) :=
  Formula.Evaluate X (Cell.GetValue X (evalFuel s)) f s

/-- The call `sheet.GetCell(pos)->GetValue()` of a client. -/
def Sheet.GetValue {D : Type} (X : Externals D) (s : Sheet D) (pos : Position) :
    Outcome (Sheet D) (CellValue D) :=
  if !pos.IsValid then .throws .InvalidPositionException s
  else Cell.GetValue X (evalFuel s + 1) s pos

/-- `Cell::GetText` through `GetCell(pos)`; `none` for a null pointer. -/
def Sheet.GetText {D : Type} (s : Sheet D) (pos : Position) : Option String :=
  (s.cellAt pos).map (fun c => c.impl_.GetText)

/-! ## Sequences of public calls -/

/-- A call of a client on the sheet. -/
inductive Op where
  | SetCell (pos : Position) (text : String)
  | ClearCell (pos : Position)
  | GetValue (pos : Position)
deriving DecidableEq, Repr

/-- The state a call leaves behind, whether it returned or threw; `none` after
undefined behaviour or when the fuel was spent. -/
def Outcome.state {σ α : Type} : Outcome σ α → Option σ
  | .ok _ s => some s
  | .throws _ s => some s
  | .nullDeref => none
  | .outOfFuel => none

/-- The sheet after one call. -/
def Op.apply {D : Type} (X : Externals D) (s : Sheet D) : Op → Option (Sheet D)
  | .SetCell pos text => (Sheet.SetCell X s pos text).state
  | .ClearCell pos => (Sheet.ClearCell X s pos).state
  | .GetValue pos => (Sheet.GetValue X s pos).state

/-- The sheet after a sequence of calls, successful or failing, started on `s`. -/
def runOps {D : Type} (X : Externals D) : List Op → Sheet D → Option (Sheet D)
  | [], s => some s
  | op :: rest, s =>
    match op.apply X s with
    | some s1 => runOps X rest s1
    | none => none

/-- A call that is `SetCell` or `ClearCell`. -/
def Op.isMutation : Op → Bool
  | .SetCell _ _ => true
  | .ClearCell _ => true
  | .GetValue _ => false

/-! ## The reference graph -/

/-- A reference edge: the cell at `c` holds `r` in its reference set. -/
def RefEdge {D : Type} (s : Sheet D) (c r : Position) : Prop :=
  r ∈ s.references c

/-- A dependent edge: the cell at `c` holds `d` in its dependent set. -/
def DepEdge {D : Type} (s : Sheet D) (c d : Position) : Prop :=
  d ∈ s.dependents c

/-- The reference graph has no cycle, self-loops included. -/
def Acyclic {D : Type} (s : Sheet D) : Prop :=
  ∀ c, ¬ Relation.TransGen (RefEdge s) c c

/-- The edge sets are symmetric. -/
def Symmetric {D : Type} (s : Sheet D) : Prop :=
  ∀ c r, r ∈ s.references c ↔ c ∈ s.dependents r

/-! ## Measures used by the termination arguments -/

/-- Number of entries of `V` that are not in `visited`. -/
def unvisited (V visited : List Position) : Nat :=
  (V.filter (fun v => !decide (v ∈ visited))).length

/-- Whether the top of the stack is a cell already visited. -/
def topVisited (visited to_visit : List Position) : Nat :=
  match to_visit with
  | [] => 0
  | x :: _ => if x ∈ visited then 1 else 0

/-- All entries of all dependent sets stored in the sheet. -/
def allDependents {D : Type} : List (Position × Option (Cell D)) → List Position
  | [] => []
  | (_, some c) :: rest => c.dependent_cells_ ++ allDependents rest
  | (_, none) :: rest => allDependents rest

/-! ## Sheets up to caches, well-formed sheets -/

/-- The cell with the cache of its body emptied. -/
def Cell.body {D : Type} (c : Cell D) : Cell D :=
  { c with impl_ := c.impl_.InvalidateCache }

/-- The sheet with every cache emptied: two sheets with equal `bodies` differ in
their caches only. -/
def Sheet.bodies {D : Type} (s : Sheet D) : Sheet D :=
  { cells_ := s.cells_.map (fun e => (e.1, e.2.map Cell.body)) }

/-- The invariants of the sheet: one entry per position, valid keys, symmetric
edge sets, an acyclic reference graph, and a reference set that lists exactly
the positions of the body. -/
structure WellFormed {D : Type} (s : Sheet D) : Prop where
  nodup : (s.cells_.map Prod.fst).Nodup
  valid : ∀ p, s.find p ≠ none → p.IsValid = true
  symm : Symmetric s
  acyclic : Acyclic s
  complete : ∀ p c, s.cellAt p = some c →
    ∀ r, r ∈ c.referenced_cells_ ↔ r ∈ c.impl_.GetReferencedCells

/-- The cell record read at `q`, a fresh cell when none is present. -/
def Sheet.cellOrNew {D : Type} (s : Sheet D) (q : Position) : Cell D :=
  (s.cellAt q).getD Cell.new

/-- What `UpdateReferences(impl)` on the cell at `self` makes of the sheet `s`
when it returns: the entries, bodies and edge sets of `s1` in terms of `s`. -/
structure Rewired {D : Type} (s : Sheet D) (me : Position) (impl : Impl D) (s1 : Sheet D) : Prop where
  find_none : ∀ q, s1.find q = none ↔ (s.find q = none ∧ q ∉ impl.GetReferencedCells)
  find_null : ∀ q, s1.find q = some none ↔ s.find q = some none
  nodup : (s.cells_.map Prod.fst).Nodup → (s1.cells_.map Prod.fst).Nodup
  refs_valid : ∀ q ∈ impl.GetReferencedCells, q.IsValid = true
  impl_self : ∀ c1, s1.cellAt me = some c1 → c1.impl_ = impl
  impl_other : ∀ q c1, q ≠ me → s1.cellAt q = some c1 → c1.impl_ = (s.cellOrNew q).impl_
  refs_self : ∀ r, r ∈ s1.references me ↔ r ∈ impl.GetReferencedCells
  refs_other : ∀ q r, q ≠ me → (r ∈ s1.references q ↔ r ∈ s.references q)
  deps : ∀ q d, d ∈ s1.dependents q ↔
    (d ∈ s.dependents q ∧ ¬ (d = me ∧ q ∈ s.references me)) ∨
      (d = me ∧ q ∈ impl.GetReferencedCells)

/-- What the second loop of `UpdateReferences` over the positions `R` makes of
the sheet `s` when it returns. -/
structure Linked {D : Type} (s : Sheet D) (me : Position) (R : List Position) (s1 : Sheet D) : Prop where
  find_none : ∀ q, s1.find q = none ↔ (s.find q = none ∧ q ∉ R)
  find_null : ∀ q, s1.find q = some none ↔ s.find q = some none
  nodup : (s.cells_.map Prod.fst).Nodup → (s1.cells_.map Prod.fst).Nodup
  refs_valid : ∀ q ∈ R, q.IsValid = true
  impl : ∀ q c1, s1.cellAt q = some c1 → c1.impl_ = (s.cellOrNew q).impl_
  refs : ∀ q r, r ∈ s1.references q ↔ r ∈ s.references q ∨ (q = me ∧ r ∈ R)
  deps : ∀ q d, d ∈ s1.dependents q ↔ d ∈ s.dependents q ∨ (d = me ∧ q ∈ R)

/-- What `UpdateReferences` relies on when it re-enters `SetCell(pos, "")`: on a
position without an entry the call adds a fresh empty cell, on an entry holding
a null pointer it dereferences it. -/
def CreatesEmpty {D : Type} (setCell : Sheet D → Position → String → Outcome (Sheet D) Unit) : Prop :=
  (∀ s pos, pos.IsValid = true → s.find pos = none → setCell s pos "" = .ok () (s.emplace pos)) ∧
  (∀ s pos, pos.IsValid = true → s.find pos = some none → setCell s pos "" = .nullDeref)

/-- The two edge insertions of one round of the second loop of `UpdateReferences`. -/
def linkStep {D : Type} (s : Sheet D) (self pos : Position) : Sheet D :=
  (s.modify self (fun c => { c with referenced_cells_ := setInsert pos c.referenced_cells_ })).modify
    pos (fun oc => { oc with dependent_cells_ := setInsert self oc.dependent_cells_ })

/-- Every state a call can leave behind satisfies `P`. -/
def Outcome.StateSat {σ α : Type} (o : Outcome σ α) (P : σ → Prop) : Prop :=
  ∀ s, o.state = some s → P s

/-- One for a formula body that holds a cached value, zero otherwise. -/
def Impl.cachedWeight {D : Type} : Impl D → Nat
  | .FormulaImpl _ (some _) => 1
  | _ => 0

/-- Number of formula cells that hold a cached value. -/
def cachedCount {D : Type} : List (Position × Option (Cell D)) → Nat
  | [] => 0
  | (_, some c) :: rest => c.impl_.cachedWeight + cachedCount rest
  | (_, none) :: rest => cachedCount rest

/-- The cell at `d` is present and its body is a formula. -/
def Sheet.IsFormulaAt {D : Type} (s : Sheet D) (d : Position) : Prop :=
  ∃ c f cache, s.cellAt d = some c ∧ c.impl_ = .FormulaImpl f cache

/-- Every entry of every dependent set is a present formula cell. -/
def Sheet.DepsFormula {D : Type} (s : Sheet D) : Prop :=
  ∀ p d, d ∈ s.dependents p → s.IsFormulaAt d

/-! ## A small instance of the externals

Integers stand for `double` and the parser reads sums of cell names and
numbers, such as `B1+5`.  The instance runs the model on concrete sheets. -/

/-- Digits to a number; `none` unless every character is a digit and there is one. -/
def sampleDigits : List Char → Option Nat
  | [] => none
  | cs => cs.foldl (fun acc c =>
      match acc with
      | none => none
      | some n => if c.isDigit then some (10 * n + (c.toNat - 48)) else none) (some 0)

/-- A cell name such as `B1` (one upper-case letter, then the row from 1) or a number. -/
def sampleToken (cs : List Char) : Option (Expr Int) :=
  match cs with
  | [] => none
  | c :: rest =>
    if c.isUpper then
      match sampleDigits rest with
      | some (n + 1) => some (.cell { row := n, col := (c.toNat - 65 : Nat) })
      | _ => none
    else
      match sampleDigits (c :: rest) with
      | some n => some (.number n)
      | none => none

/-- Split at the plus signs. -/
def sampleSplit : List Char → List Char → List (List Char)
  | [], cur => [cur.reverse]
  | c :: rest, cur => if c = '+' then cur.reverse :: sampleSplit rest [] else sampleSplit rest (c :: cur)

/-- The sum of the tokens. -/
def sampleSum : List (List Char) → Option (Expr Int)
  | [] => none
  | [t] => sampleToken t
  | t :: rest =>
    match sampleToken t, sampleSum rest with
    | some a, some b => some (.binary .Add a b)
    | _, _ => none

/-- The sample parser: the cells are listed in the order they occur. -/
def sampleParse (e : String) : Option (FormulaAST Int) :=
  match sampleSum (sampleSplit e.data []) with
  | some ex => some { root := ex, cells := ex.positions, printed := e }
  | none => none

/-- The sample conversion of a number: the longest run of digits at the start,
and the characters after it; `none` when the first character is no digit. -/
def sampleExtract (cs : List Char) : Option (Int × List Char) :=
  match sampleDigits (cs.takeWhile Char.isDigit) with
  | some n => some (Int.ofNat n, cs.dropWhile Char.isDigit)
  | none => none

/-- The sample externals over the integers. -/
def sampleX : Externals Int :=
  { ParseFormulaAST := sampleParse
    zero := 0
    binary := fun op a b =>
      match op with
      | .Add => a + b
      | .Sub => a - b
      | .Mul => a * b
      | .Div => a / b
    unary := fun op a =>
      match op with
      | .Plus => a
      | .Minus => -a
    isinf := fun _ => false
    extractDouble := sampleExtract }

/-- The sheet the sample externals reach by a sequence of calls on the empty
sheet (the empty sheet when a call has no state afterwards). -/
def sampleAfter (ops : List Op) : Sheet Int :=
  (runOps sampleX ops Sheet.empty).getD Sheet.empty

/-- Cell A1. -/
def A1 : Position := { row := 0, col := 0 }

/-- Cell B1. -/
def B1 : Position := { row := 0, col := 1 }

/-- Cell C1. -/
def C1 : Position := { row := 0, col := 2 }

/-- Cell A2. -/
def A2 : Position := { row := 1, col := 0 }

/-- Modelled from the spec: the printable size as the spec words it, the
smallest rectangle anchored at `(0,0)` over the present cells whose body is not
Empty. -/
def specPrintableSize {D : Type} (s : Sheet D) : Size :=
  s.cells_.foldl (fun result it =>
    match it.2 with
    | some c =>
      match c.impl_ with
      | .EmptyImpl => result
      | _ => { rows := max result.rows (it.1.row + 1), cols := max result.cols (it.1.col + 1) }
    | none => result) { rows := 0, cols := 0 }

/-- The body read at `q`, the empty body when no cell is present. -/
def Sheet.implAt {D : Type} (s : Sheet D) (q : Position) : Impl D :=
  (s.cellOrNew q).impl_

/-- The cell at `q` is a formula that holds a cached value (`HasCache()` of a
formula body). -/
def Sheet.HoldsCache {D : Type} (s : Sheet D) (q : Position) : Prop :=
  (s.implAt q).cachedWeight = 1

/-- Calls after which the formula A2 `=A1+B1+A1` holds a cache although the
formula B1 `=C1` below it holds none: the lookup of the text A1 throws before B1
is read, whichever end of the sum is executed first. -/
def sampleShortCircuit : List Op :=
  [.SetCell C1 "1", .SetCell B1 "=C1", .SetCell A1 "abc", .SetCell A2 "=A1+B1+A1",
    .GetValue A2]

/-! ## Evaluation read off a sheet whose caches are filled

The functions below follow `Cell::GetValue`, `Formula::Evaluate` and the lookup
without a state: they answer only when every formula cell the evaluation reads
holds a cache, which is when the evaluation leaves the sheet as it is. -/

/-- The number `ExtractValueFromCell` makes of the value of a cell, or the
`FormulaError` it throws. -/
def extractSettled {D : Type} (X : Externals D) (v : CellValue D) : Except Category D :=
  match v with
  | .number d => .ok d
  | .text value =>
    if value.data.isEmpty then .ok X.zero
    else
      match X.readDouble value with
      | some result => .ok result
      | none => .error .Value
  | .error c => .error c

/-- The lookup of `Formula::Evaluate` on a sheet, given the values of its cells. -/
def lookupSettled {D : Type} (X : Externals D) (s : Sheet D)
    (get : Position → Option (CellValue D)) (p : Position) : Option (Except Category D) :=
  if !p.IsValid then some (.error .Ref)
  else
    match s.cellAt p with
    | none => some (.ok X.zero)
    | some _ => (get p).map (extractSettled X)

/-- The execution of an expression, given the answers of the lookup. -/
def Expr.ExecuteSettled {D : Type} (X : Externals D)
    (lookup : Position → Option (Except Category D)) : Expr D → Option (Except Category D)
  | .number d => some (.ok d)
  | .cell p => lookup p
  | .unary op e =>
    match e.ExecuteSettled X lookup with
    | some (.ok v) => some (.ok (X.unary op v))
    | other => other
  | .binary op l r =>
    match l.ExecuteSettled X lookup with
    | some (.ok a) =>
      match r.ExecuteSettled X lookup with
      | some (.ok b) => some (.ok (X.binary op a b))
      | other => other
    | other => other

/-- The value of a formula, given the values of the cells. -/
def evaluateSettled {D : Type} (X : Externals D) (s : Sheet D)
    (get : Position → Option (CellValue D)) (f : FormulaAST D) : Option (FormulaValue D) :=
  match f.root.ExecuteSettled X (lookupSettled X s get) with
  | some (.ok result) => some (if X.isinf result then .error .Arithmetic else .number result)
  | some (.error c) => some (.error c)
  | none => none

/-- The value of the cell at `p` when every formula cell its evaluation reads,
the cell included, holds a cache; `none` otherwise or when the fuel is spent. -/
def settledValue {D : Type} (X : Externals D) : Nat → Sheet D → Position → Option (CellValue D)
  | 0, _, _ => none
  | n + 1, s, p =>
    match s.cellAt p with
    | none => none
    | some c =>
      match c.impl_ with
      | .EmptyImpl => some (.text "")
      | .TextImpl text_ => some (.text (TextImpl.GetValue text_))
      | .FormulaImpl f (some _) =>
        (evaluateSettled X s (settledValue X n s) f).map FormulaValue.toCellValue
      | .FormulaImpl _ none => none

/-- A number returned or a `FormulaError` thrown, on the sheet `s`. -/
def Outcome.ofExcept {D : Type} (r : Except Category D) (s : Sheet D) : Outcome (Sheet D) D :=
  match r with
  | .ok d => .ok d s
  | .error c => .throws (.FormulaError c) s

/-- The sheet `b` has the bodies of `a` and a cache wherever `a` has one. -/
def CacheLe {D : Type} (a b : Sheet D) : Prop :=
  b.bodies = a.bodies ∧ ∀ q, a.HoldsCache q → b.HoldsCache q

/-- Every position that occurs in a formula of the sheet is among the cells its
AST lists. -/
def Covered {D : Type} (s : Sheet D) : Prop :=
  ∀ p c f cache, s.cellAt p = some c → c.impl_ = .FormulaImpl f cache →
    ∀ r ∈ f.root.positions, r ∈ f.cells

/-- Every cache of the sheet holds the value its formula evaluates to, and that
evaluation reads cached formula cells only. -/
def CachesSound {D : Type} (X : Externals D) (N : Nat) (s : Sheet D) : Prop :=
  ∀ p c f v, s.cellAt p = some c → c.impl_ = .FormulaImpl f (some v) →
    evaluateSettled X s (settledValue X N s) f = some v

/-- The cell at `q` is present in both sheets with the same body, cache included. -/
def Kept {D : Type} (s t : Sheet D) (q : Position) : Prop :=
  ∃ c ct, s.cellAt q = some c ∧ t.cellAt q = some ct ∧ ct.impl_ = c.impl_

/-- The cells a cached formula of `s` that is kept in `t` reads are present in
`s`, and kept in `t` unless they are formulas without a cache. -/
def ReadsKept {D : Type} (s t : Sheet D) : Prop :=
  ∀ q c f w, s.cellAt q = some c → c.impl_ = .FormulaImpl f (some w) → Kept s t q →
    ∀ r ∈ f.root.positions, r.IsValid = true →
      ∃ cr, s.cellAt r = some cr ∧ ((∀ g, cr.impl_ ≠ .FormulaImpl g none) → Kept s t r)

/-- The invariants behind the soundness of the caches: the sheet is well formed,
its formulas list the positions they read, and every cache holds the value its
formula evaluates to. -/
structure Sound {D : Type} (X : Externals D) (s : Sheet D) : Prop where
  wf : WellFormed s
  covered : Covered s
  caches : CachesSound X (evalFuel s) s

/-- The parser lists every position that occurs in the expression it returns. -/
def ListsItsCells {D : Type} (X : Externals D) : Prop :=
  ∀ text ast, X.ParseFormulaAST text = some ast → ∀ p ∈ ast.root.positions, p ∈ ast.cells

/-- The rule of the specification for the body `Cell::Set` builds: `""` gives
Empty; a text that starts with `=` and is longer than one character gives the
formula parsed from the text without its first character (`FormulaException`
when the parse fails); every other text gives Text. -/
def specBuildImpl {D : Type} (X : Externals D) (t : String) : Except Exception (Impl D) :=
  if t = "" then .ok .EmptyImpl
  else if t.data.head? = some '=' ∧ t.length > 1 then
    match X.ParseFormulaAST (String.mk t.data.tail) with
    | some f => .ok (.FormulaImpl f none)
    | none => .error .FormulaException
  else .ok (.TextImpl t)

/-- The positions listed by the body that `Cell::Set` builds from the text, none
when the constructor of the body throws. -/
def candidateReferences {D : Type} (X : Externals D) (text : String) : List Position :=
  match buildImpl X text with
  | .ok impl => impl.GetReferencedCells
  | .error _ => []

/-- The order of positions by row, then by column; a list of positions sorted
by it keeps equal positions next to each other. -/
def Position.lt (a b : Position) : Prop :=
  a.row < b.row ∨ (a.row = b.row ∧ a.col < b.col)

instance Position.decidableLt (a b : Position) : Decidable (Position.lt a b) := by
  unfold Position.lt
  infer_instance

/-- The position C3. -/
def C3 : Position := { row := 2, col := 2 }

/-- A set of cells whose dependent edges contain the cycle A1, B1, A1 and reach
A2 along two paths, so that A2 is pushed twice before it is visited. -/
def sampleTangle : Sheet Int :=
  { cells_ :=
      [(A1, some { impl_ := .EmptyImpl, dependent_cells_ := [B1, C1], referenced_cells_ := [] }),
       (B1, some { impl_ := .EmptyImpl, dependent_cells_ := [A2, A1], referenced_cells_ := [] }),
       (C1, some { impl_ := .EmptyImpl, dependent_cells_ := [A2], referenced_cells_ := [] }),
       (A2, some { impl_ := .EmptyImpl, dependent_cells_ := [B1], referenced_cells_ := [] }),
       (C3, some { impl_ := .EmptyImpl, dependent_cells_ := [A1], referenced_cells_ := [] })] }

/-! ## Printing (`sheet.cpp`) -/

/-- The inner loop of `Sheet::Print` over the columns of one row; `output` is
what the stream holds so far, `getValue` may fill caches. -/
def Sheet.printCols {D : Type} (getValue : Sheet D → Position → Outcome (Sheet D) String)
    (row : Nat) : List Nat → String → Sheet D → Outcome (Sheet D) String
  | [], output, s => .ok output s
  | col :: rest, output, s =>
    let output1 := if col > 0 then output ++ "\t" else output
    match s.cellAt { row := row, col := col } with
    | some _ =>
      (getValue s { row := row, col := col }).bind (fun text s1 =>
        Sheet.printCols getValue row rest (output1 ++ text) s1)
    | none => Sheet.printCols getValue row rest output1 s

/-- The outer loop of `Sheet::Print` over the rows. -/
def Sheet.printRows {D : Type} (getValue : Sheet D → Position → Outcome (Sheet D) String)
    (cols : Nat) : List Nat → String → Sheet D → Outcome (Sheet D) String
  | [], output, s => .ok output s
  | row :: rest, output, s =>
    (Sheet.printCols getValue row (List.range cols) output s).bind (fun output1 s1 =>
      Sheet.printRows getValue cols rest (output1 ++ "\n") s1)

/-- `Sheet::Print`: the rows `0 .. rows-1` and columns `0 .. cols-1` of the
printable size, written to an empty stream. -/
def Sheet.Print {D : Type} (s : Sheet D)
    (getValue : Sheet D → Position → Outcome (Sheet D) String) : Outcome (Sheet D) String :=
  Sheet.printRows getValue s.GetPrintableSize.cols.toNat (List.range s.GetPrintableSize.rows.toNat)
    "" s

/-- `Sheet::PrintTexts`. -/
def Sheet.PrintTexts {D : Type} (s : Sheet D) : Outcome (Sheet D) String :=
  s.Print (fun s1 p =>
    match s1.cellAt p with
    | some c => .ok c.impl_.GetText s1
    | none => .nullDeref)

/-- The lambda of `Sheet::PrintValues` after `cell.GetValue()`: `oss << arg` on
the alternative the value holds.  A string is written as it is; `showDouble`
and `showError` are the stream output of a `double` and of a `FormulaError`. -/
def renderValue {D : Type} (showDouble : D → String) (showError : Category → String) :
    CellValue D → String
  | .text t => t
  | .number d => showDouble d
  | .error c => showError c

/-- `Sheet::PrintValues`. -/
def Sheet.PrintValues {D : Type} (X : Externals D) (showDouble : D → String)
    (showError : Category → String) (s : Sheet D) : Outcome (Sheet D) String :=
  s.Print (fun s1 p =>
    (Cell.GetValue X (evalFuel s1 + 1) s1 p).bind (fun value s2 =>
      .ok (renderValue showDouble showError value) s2))

/-- The layout of the specification: `R` lines, each the `C` entries of its row
joined by single tabs and ended by a newline. -/
def specPrint (R C : Nat) (entry : Nat → Nat → String) : String :=
  String.join ((List.range R).map (fun r =>
    String.intercalate "\t" ((List.range C).map (entry r)) ++ "\n"))

/-- The entry `PrintTexts` writes for row `r`, column `c`: the text of the cell,
the empty string for a missing cell. -/
def textEntry {D : Type} (s : Sheet D) (r c : Nat) : String :=
  match s.cellAt { row := r, col := c } with
  | some cell => cell.impl_.GetText
  | none => ""

/-- What a call returns or throws, without the state it leaves. -/
def Outcome.forget {σ α : Type} : Outcome σ α → Outcome Unit α
  | .ok a _ => .ok a ()
  | .throws e _ => .throws e ()
  | .nullDeref => .nullDeref
  | .outOfFuel => .outOfFuel

/-- The entry `PrintValues` writes for row `r`, column `c`: the rendering of the
value `GetValue` of the cell returns, the empty string for a missing cell. -/
def valueEntry {D : Type} (X : Externals D) (showDouble : D → String)
    (showError : Category → String) (s : Sheet D) (r c : Nat) : String :=
  match s.cellAt { row := r, col := c } with
  | some _ =>
    match Sheet.GetValue X s { row := r, col := c } with
    | .ok value _ => renderValue showDouble showError value
    | _ => ""
  | none => ""

/-- The value of the cell at `p` read off the bodies alone: as `settledValue`,
but a formula cell is evaluated whether or not it holds a cache. -/
def pureValue {D : Type} (X : Externals D) : Nat → Sheet D → Position → Option (CellValue D)
  | 0, _, _ => none
  | n + 1, s, p =>
    match s.cellAt p with
    | none => none
    | some c =>
      match c.impl_ with
      | .EmptyImpl => some (.text "")
      | .TextImpl text_ => some (.text (TextImpl.GetValue text_))
      | .FormulaImpl f _ =>
        (evaluateSettled X s (pureValue X n s) f).map FormulaValue.toCellValue

/-- Every body of the sheet is, its cache apart, what `Cell::Set` builds from
some text. -/
def Built {D : Type} (X : Externals D) (s : Sheet D) : Prop :=
  ∀ q, ∃ text, buildImpl X text = .ok (s.implAt q).InvalidateCache

/-- The two sheets hold cells at the same positions with the same bodies, the
caches apart; their edge sets may differ. -/
def SameImpls {D : Type} (a b : Sheet D) : Prop :=
  ∀ q, (a.cellAt q).isSome = (b.cellAt q).isSome ∧
    (a.implAt q).InvalidateCache = (b.implAt q).InvalidateCache

/-- A stream output of the sample `double`. -/
def sampleShowDouble (d : Int) : String := toString d

/-- A stream output of a `FormulaError` for the sample. -/
def sampleShowError : Category → String
  | .Ref => "#REF!"
  | .Value => "#VALUE!"
  | .Arithmetic => "#ARITHM!"

/-! ## The association list -/

section Basics

variable {D : Type}

theorem findEntry_setEntry (l : List (Position × Option (Cell D))) (p q : Position) (v : Option (Cell D)) :
    findEntry (setEntry l p v) q =
      if q = p then (if (findEntry l p).isNone then none else some v) else findEntry l q := by
  induction l with
  | nil => simp [setEntry, findEntry]
  | cons hd tl ih =>
    obtain ⟨k, c⟩ := hd
    by_cases hk : k = p
    · subst hk
      by_cases hq : q = k
      · subst hq; simp [setEntry, findEntry]
      · have hq1 : ¬ k = q := fun h => hq h.symm
        simp [setEntry, findEntry, hq, hq1]
    · by_cases hq : q = p
      · subst hq
        rw [setEntry, findEntry]
        simp only [hk, if_false]
        rw [findEntry, ih]
        simp [hk, findEntry]
      · by_cases hkq : k = q
        · simp [setEntry, findEntry, hk, hq, hkq]
        · simp [setEntry, findEntry, hk, hq, hkq, ih]

theorem keys_setEntry (l : List (Position × Option (Cell D))) (p : Position) (v : Option (Cell D)) :
    (setEntry l p v).map Prod.fst = l.map Prod.fst := by
  induction l with
  | nil => simp [setEntry]
  | cons hd tl ih =>
    obtain ⟨k, c⟩ := hd
    by_cases hk : k = p
    · simp [setEntry, hk]
    · simp [setEntry, hk, ih]

theorem length_setEntry (l : List (Position × Option (Cell D))) (p : Position) (v : Option (Cell D)) :
    (setEntry l p v).length = l.length := by
  have h := congrArg List.length (keys_setEntry l p v)
  simpa using h

theorem setEntry_same (l : List (Position × Option (Cell D))) (p : Position) (v : Option (Cell D))
    (h : findEntry l p = some v) : setEntry l p v = l := by
  induction l with
  | nil => simp [setEntry]
  | cons hd tl ih =>
    obtain ⟨k, c⟩ := hd
    by_cases hk : k = p
    · simp [findEntry, hk] at h
      simp [setEntry, hk, h]
    · simp [findEntry, hk] at h
      simp [setEntry, hk, ih h]

theorem findEntry_eq_none_iff (l : List (Position × Option (Cell D))) (p : Position) :
    findEntry l p = none ↔ p ∉ l.map Prod.fst := by
  induction l with
  | nil => simp [findEntry]
  | cons hd tl ih =>
    obtain ⟨k, c⟩ := hd
    by_cases hk : k = p
    · simp [findEntry, hk]
    · have hk1 : ¬ p = k := fun h => hk h.symm
      simp [findEntry, hk, hk1, ih]

theorem findEntry_mem (l : List (Position × Option (Cell D))) (p : Position) (v : Option (Cell D))
    (h : findEntry l p = some v) : (p, v) ∈ l := by
  induction l with
  | nil => simp [findEntry] at h
  | cons hd tl ih =>
    obtain ⟨k, c⟩ := hd
    by_cases hk : k = p
    · simp [findEntry, hk] at h
      simp [hk, h]
    · simp [findEntry, hk] at h
      exact List.mem_cons_of_mem _ (ih h)

theorem findEntry_of_mem (l : List (Position × Option (Cell D))) (p : Position) (v : Option (Cell D))
    (hnd : (l.map Prod.fst).Nodup) (h : (p, v) ∈ l) : findEntry l p = some v := by
  induction l with
  | nil => simp at h
  | cons hd tl ih =>
    obtain ⟨k, c⟩ := hd
    simp only [List.map_cons, List.nodup_cons] at hnd
    rcases List.mem_cons.1 h with h1 | h1
    · simp only [Prod.mk.injEq] at h1
      simp [findEntry, h1.1, h1.2]
    · have hk : ¬ k = p := by
        intro hk
        apply hnd.1
        rw [hk]
        exact List.mem_map.2 ⟨(p, v), h1, rfl⟩
      simp [findEntry, hk, ih hnd.2 h1]

theorem Sheet.cellAt_eq_some_iff (s : Sheet D) (p : Position) (c : Cell D) :
    s.cellAt p = some c ↔ s.find p = some (some c) := by
  unfold Sheet.cellAt
  cases h : s.find p with
  | none => simp
  | some v => cases v <;> simp

theorem Sheet.find_store (s : Sheet D) (p q : Position) (c : Cell D) :
    (s.store p c).find q = if q = p then (if (s.find p).isNone then none else some (some c)) else s.find q := by
  simp [Sheet.store, Sheet.find, findEntry_setEntry]

theorem Sheet.find_reset (s : Sheet D) (p q : Position) :
    (s.reset p).find q = if q = p then (if (s.find p).isNone then none else some none) else s.find q := by
  simp [Sheet.reset, Sheet.find, findEntry_setEntry]

theorem Sheet.find_emplace (s : Sheet D) (p q : Position) :
    (s.emplace p).find q = if q = p then some (some Cell.new) else s.find q := by
  by_cases h : q = p
  · subst h; simp [Sheet.emplace, Sheet.find, findEntry]
  · have h1 : ¬ p = q := fun e => h e.symm
    simp [Sheet.emplace, Sheet.find, findEntry, h, h1]

theorem Sheet.cellAt_store (s : Sheet D) (p q : Position) (c : Cell D) (hp : s.find p ≠ none) :
    (s.store p c).cellAt q = if q = p then some c else s.cellAt q := by
  unfold Sheet.cellAt
  rw [Sheet.find_store]
  by_cases h : q = p <;> simp [h, hp]

theorem Sheet.cellAt_reset (s : Sheet D) (p q : Position) :
    (s.reset p).cellAt q = if q = p then none else s.cellAt q := by
  unfold Sheet.cellAt
  rw [Sheet.find_reset]
  by_cases h : q = p
  · by_cases h1 : s.find p = none <;> simp [h, h1]
  · simp [h]

theorem Sheet.cellAt_emplace (s : Sheet D) (p q : Position) :
    (s.emplace p).cellAt q = if q = p then some Cell.new else s.cellAt q := by
  unfold Sheet.cellAt
  rw [Sheet.find_emplace]
  by_cases h : q = p <;> simp [h]

theorem Sheet.find_ne_none_of_cellAt (s : Sheet D) (p : Position) (c : Cell D)
    (h : s.cellAt p = some c) : s.find p ≠ none := by
  rw [Sheet.cellAt_eq_some_iff] at h
  simp [h]

theorem Sheet.cellAt_modify (s : Sheet D) (p q : Position) (f : Cell D → Cell D) :
    (s.modify p f).cellAt q = if q = p then (s.cellAt p).map f else s.cellAt q := by
  unfold Sheet.modify
  cases h : s.cellAt p with
  | none =>
    by_cases hq : q = p
    · subst hq; simp [h]
    · simp [hq]
  | some c =>
    simp only [Option.map_some']
    rw [Sheet.cellAt_store _ _ _ _ (Sheet.find_ne_none_of_cellAt s p c h)]

theorem Sheet.find_modify_none (s : Sheet D) (p q : Position) (f : Cell D → Cell D) :
    (s.modify p f).find q = none ↔ s.find q = none := by
  unfold Sheet.modify
  cases h : s.cellAt p with
  | none => simp
  | some c =>
    simp only
    rw [Sheet.find_store]
    by_cases hq : q = p
    · subst hq
      have := Sheet.find_ne_none_of_cellAt s q c h
      simp [this]
    · simp [hq]

theorem Sheet.find_modify_null (s : Sheet D) (p q : Position) (f : Cell D → Cell D) :
    (s.modify p f).find q = some none ↔ s.find q = some none := by
  unfold Sheet.modify
  cases h : s.cellAt p with
  | none => simp
  | some c =>
    simp only
    rw [Sheet.find_store]
    by_cases hq : q = p
    · subst hq
      have h1 := (Sheet.cellAt_eq_some_iff s q c).1 h
      simp [h1]
    · simp [hq]

theorem Sheet.keys_modify (s : Sheet D) (p : Position) (f : Cell D → Cell D) :
    (s.modify p f).cells_.map Prod.fst = s.cells_.map Prod.fst := by
  unfold Sheet.modify
  cases h : s.cellAt p with
  | none => rfl
  | some c => simp [Sheet.store, keys_setEntry]

end Basics

/-! ## The traversal of `HasCycle` -/

section Traversal

variable {D : Type}

theorem mem_setInsert (x y : Position) (l : List Position) :
    y ∈ setInsert x l ↔ y = x ∨ y ∈ l := by
  unfold setInsert
  by_cases h : x ∈ l
  · simp only [h, if_true]
    constructor
    · intro hy; exact Or.inr hy
    · rintro (rfl | hy)
      · exact h
      · exact hy
  · simp [h]

theorem mem_setErase (x y : Position) (l : List Position) :
    y ∈ setErase x l ↔ y ∈ l ∧ y ≠ x := by
  simp [setErase]

theorem pushUnvisited_eq (visited deps rest : List Position) :
    deps.foldl (fun st incoming => if incoming ∈ visited then st else incoming :: st) rest =
      (deps.filter (fun d => !decide (d ∈ visited))).reverse ++ rest := by
  induction deps generalizing rest with
  | nil => simp
  | cons d tl ih =>
    by_cases h : d ∈ visited
    · simp [List.foldl_cons, h, ih]
    · simp [List.foldl_cons, h, ih]

theorem mem_pushUnvisited (visited deps rest : List Position) (x : Position) :
    x ∈ deps.foldl (fun st incoming => if incoming ∈ visited then st else incoming :: st) rest ↔
      x ∈ rest ∨ (x ∈ deps ∧ x ∉ visited) := by
  rw [pushUnvisited_eq]
  simp only [List.mem_append, List.mem_reverse, List.mem_filter, Bool.not_eq_true',
    decide_eq_false_iff_not]
  tauto

/-- What the loop of `HasCycle` returns, for any fuel that lets it finish: a hit
is a referenced cell reachable from the stack along dependent edges; without a
hit the final visited set contains the stack, is closed under dependent edges,
holds no referenced cell, and holds only cells that were visited before or are
reachable from the stack. -/
theorem HasCycle_spec (s : Sheet D) :
    ∀ (fuel : Nat) (referenced : List (Option Position)) (visited to_visit : List Position)
      (b : Bool) (vis : List Position),
      HasCycle s fuel referenced visited to_visit = some (b, vis) →
      (b = true → ∃ x, some x ∈ referenced ∧ ∃ y ∈ to_visit, Relation.ReflTransGen (DepEdge s) y x) ∧
      (b = false →
        (∀ v ∈ visited, some v ∉ referenced ∧ ∀ d ∈ s.dependents v, d ∈ visited ∨ d ∈ to_visit) →
        (∀ v, v ∈ visited ∨ v ∈ to_visit → v ∈ vis) ∧
        (∀ v ∈ vis, some v ∉ referenced ∧ ∀ d ∈ s.dependents v, d ∈ vis)) ∧
      (b = false → ∀ v ∈ vis, v ∈ visited ∨ ∃ y ∈ to_visit, Relation.ReflTransGen (DepEdge s) y v) := by
  intro fuel
  induction fuel with
  | zero => intro referenced visited to_visit b vis h; simp [HasCycle] at h
  | succ n ih =>
    intro referenced visited to_visit b vis h
    cases to_visit with
    | nil =>
      simp only [HasCycle, Option.some.injEq, Prod.mk.injEq] at h
      obtain ⟨hb, hv⟩ := h
      subst hb; subst hv
      refine ⟨by simp, ?_, ?_⟩
      · intro _ hpre
        refine ⟨?_, ?_⟩
        · intro v hv
          rcases hv with hv | hv
          · exact hv
          · simp at hv
        · intro v hv
          refine ⟨(hpre v hv).1, ?_⟩
          intro d hd
          rcases (hpre v hv).2 d hd with h1 | h1
          · exact h1
          · simp at h1
      · intro _ v hv
        exact Or.inl hv
    | cons current rest =>
      simp only [HasCycle] at h
      by_cases href : some current ∈ referenced
      · simp only [href, if_true, Option.some.injEq, Prod.mk.injEq] at h
        obtain ⟨hb, hv⟩ := h
        subst hb; subst hv
        refine ⟨?_, by simp, by simp⟩
        intro _
        exact ⟨current, href, current, List.mem_cons_self _ _, Relation.ReflTransGen.refl⟩
      · simp only [href, if_false] at h
        obtain ⟨ih1, ih2, ih3⟩ := ih _ _ _ _ _ h
        refine ⟨?_, ?_, ?_⟩
        · intro hb
          obtain ⟨x, hx, y, hy, hyx⟩ := ih1 hb
          refine ⟨x, hx, ?_⟩
          rw [mem_pushUnvisited] at hy
          rcases hy with hy | ⟨hy, _⟩
          · exact ⟨y, List.mem_cons_of_mem _ hy, hyx⟩
          · exact ⟨current, List.mem_cons_self _ _, Relation.ReflTransGen.head hy hyx⟩
        · intro hb hpre
          have hpre1 : ∀ v ∈ setInsert current visited, some v ∉ referenced ∧
              ∀ d ∈ s.dependents v, d ∈ setInsert current visited ∨
                d ∈ (s.dependents current).foldl
                  (fun st incoming => if incoming ∈ setInsert current visited then st else incoming :: st) rest := by
            intro v hv
            rw [mem_setInsert] at hv
            rcases hv with hv | hv
            · subst hv
              refine ⟨href, ?_⟩
              intro d hd
              by_cases hdv : d ∈ setInsert v visited
              · exact Or.inl hdv
              · right
                rw [mem_pushUnvisited]
                exact Or.inr ⟨hd, hdv⟩
            · refine ⟨(hpre v hv).1, ?_⟩
              intro d hd
              rcases (hpre v hv).2 d hd with h1 | h1
              · left; rw [mem_setInsert]; exact Or.inr h1
              · rcases List.mem_cons.1 h1 with h2 | h2
                · left; rw [mem_setInsert]; exact Or.inl h2
                · right; rw [mem_pushUnvisited]; exact Or.inl h2
          obtain ⟨hsub, hclosed⟩ := ih2 hb hpre1
          refine ⟨?_, hclosed⟩
          intro v hv
          apply hsub
          rcases hv with hv | hv
          · left; rw [mem_setInsert]; exact Or.inr hv
          · rcases List.mem_cons.1 hv with h2 | h2
            · left; rw [mem_setInsert]; exact Or.inl h2
            · right; rw [mem_pushUnvisited]; exact Or.inl h2
        · intro hb v hv
          rcases ih3 hb v hv with h1 | ⟨y, hy, hyv⟩
          · rw [mem_setInsert] at h1
            rcases h1 with h1 | h1
            · right
              exact ⟨current, List.mem_cons_self _ _, by rw [h1]⟩
            · exact Or.inl h1
          · right
            rw [mem_pushUnvisited] at hy
            rcases hy with hy | ⟨hy, _⟩
            · exact ⟨y, List.mem_cons_of_mem _ hy, hyv⟩
            · exact ⟨current, List.mem_cons_self _ _, Relation.ReflTransGen.head hy hyv⟩

end Traversal

/-! ## Termination of `HasCycle` -/

section Termination

variable {D : Type}

theorem unvisited_insert_le (V visited : List Position) (x : Position) :
    unvisited V (setInsert x visited) ≤ unvisited V visited := by
  unfold unvisited
  induction V with
  | nil => simp
  | cons a tl ih =>
    simp only [List.filter_cons]
    by_cases h1 : a ∈ visited
    · have h2 : a ∈ setInsert x visited := by rw [mem_setInsert]; exact Or.inr h1
      simpa [h1, h2] using ih
    · by_cases h2 : a ∈ setInsert x visited
      · simp [h1, h2]
        omega
      · simp [h1, h2]
        omega

theorem unvisited_insert_lt (V visited : List Position) (x : Position) (hx : x ∈ V)
    (hv : x ∉ visited) : unvisited V (setInsert x visited) < unvisited V visited := by
  induction V with
  | nil => simp at hx
  | cons a tl ih =>
    have hle := unvisited_insert_le tl visited x
    unfold unvisited at hle ih ⊢
    simp only [List.filter_cons]
    by_cases hax : a = x
    · subst hax
      have h2 : a ∈ setInsert a visited := by rw [mem_setInsert]; exact Or.inl rfl
      simp [hv, h2]
      omega
    · have hx1 : x ∈ tl := by
        rcases List.mem_cons.1 hx with h | h
        · exact absurd h.symm hax
        · exact h
      have := ih hx1
      by_cases h1 : a ∈ visited
      · have h2 : a ∈ setInsert x visited := by rw [mem_setInsert]; exact Or.inr h1
        simpa [h1, h2] using this
      · have h2 : a ∉ setInsert x visited := by
          rw [mem_setInsert]; push_neg; exact ⟨hax, h1⟩
        simp [h1, h2]
        omega

theorem setInsert_of_mem (x : Position) (l : List Position) (h : x ∈ l) : setInsert x l = l := by
  simp [setInsert, h]

theorem topVisited_le_one (visited to_visit : List Position) : topVisited visited to_visit ≤ 1 := by
  unfold topVisited
  cases to_visit with
  | nil => simp
  | cons x tl => by_cases h : x ∈ visited <;> simp [h]

/-- The loop of `HasCycle` finishes on any sheet: every iteration lowers the
measure `stack + (2M+1) * unvisited + M * topVisited`. -/
theorem HasCycle_total (s : Sheet D) (V : List Position) (M : Nat)
    (hM : ∀ p, (s.dependents p).length ≤ M) (hV : ∀ p d, d ∈ s.dependents p → d ∈ V) :
    ∀ (fuel : Nat) (referenced : List (Option Position)) (visited to_visit : List Position),
      (∀ x ∈ to_visit, x ∈ V) →
      to_visit.length + (2 * M + 1) * unvisited V visited + M * topVisited visited to_visit < fuel →
      ∃ r, HasCycle s fuel referenced visited to_visit = some r := by
  intro fuel
  induction fuel with
  | zero => intro referenced visited to_visit _ h; omega
  | succ n ih =>
    intro referenced visited to_visit hsub hlt
    cases to_visit with
    | nil => exact ⟨_, rfl⟩
    | cons current rest =>
      simp only [HasCycle]
      by_cases href : some current ∈ referenced
      · simp [href]
      · simp only [href, if_false]
        apply ih
        · intro x hx
          rw [mem_pushUnvisited] at hx
          rcases hx with hx | ⟨hx, _⟩
          · exact hsub x (List.mem_cons_of_mem _ hx)
          · exact hV _ _ hx
        · rw [pushUnvisited_eq]
          have hk : ((s.dependents current).filter
              (fun d => !decide (d ∈ setInsert current visited))).length ≤ M :=
            le_trans (List.length_filter_le _ _) (hM current)
          have ht1 := topVisited_le_one (setInsert current visited)
            (((s.dependents current).filter
              (fun d => !decide (d ∈ setInsert current visited))).reverse ++ rest)
          have hMt := Nat.mul_le_mul_left M ht1
          simp only [List.length_cons] at hlt
          simp only [List.length_append, List.length_reverse]
          by_cases hcv : current ∈ visited
          · rw [setInsert_of_mem _ _ hcv] at hk ht1 hMt ⊢
            have htop : topVisited visited (current :: rest) = 1 := by simp [topVisited, hcv]
            rw [htop] at hlt
            cases hl : ((s.dependents current).filter (fun d => !decide (d ∈ visited))).reverse with
            | nil =>
              have hl0 : ((s.dependents current).filter (fun d => !decide (d ∈ visited))) = [] := by
                simpa using hl
              rw [hl0] at hMt ⊢
              simp only [List.length_nil, List.reverse_nil, List.nil_append] at hMt ⊢
              omega
            | cons y ys =>
              have hy : y ∈ ((s.dependents current).filter (fun d => !decide (d ∈ visited))) := by
                rw [← List.mem_reverse, hl]; exact List.mem_cons_self _ _
              have hyv : y ∉ visited := by
                simpa using (List.mem_filter.1 hy).2
              have ht0 : topVisited visited (y :: ys ++ rest) = 0 := by
                simp [topVisited, hyv]
              rw [ht0]
              omega
          · have hu := unvisited_insert_lt V visited current (hsub current (List.mem_cons_self _ _)) hcv
            have hmul : (2 * M + 1) * (unvisited V (setInsert current visited) + 1) ≤
                (2 * M + 1) * unvisited V visited := Nat.mul_le_mul_left _ hu
            rw [Nat.mul_add, Nat.mul_one] at hmul
            omega

theorem dependents_sub_allDependents (s : Sheet D) (p d : Position) (h : d ∈ s.dependents p) :
    d ∈ allDependents s.cells_ := by
  unfold Sheet.dependents at h
  cases hc : s.cellAt p with
  | none => simp [hc] at h
  | some c =>
    simp only [hc] at h
    have hmem := findEntry_mem _ _ _ ((Sheet.cellAt_eq_some_iff s p c).1 hc)
    generalize s.cells_ = l at hmem
    induction l with
    | nil => simp at hmem
    | cons hd tl ih =>
      obtain ⟨k, v⟩ := hd
      rcases List.mem_cons.1 hmem with h1 | h1
      · simp only [Prod.mk.injEq] at h1
        rw [← h1.2]
        simp [allDependents, h]
      · cases v with
        | none => simpa [allDependents] using ih h1
        | some c1 => simp [allDependents, ih h1]

theorem length_allDependents (l : List (Position × Option (Cell D))) :
    (allDependents l).length = edgeCount l := by
  induction l with
  | nil => rfl
  | cons hd tl ih =>
    obtain ⟨k, v⟩ := hd
    cases v with
    | none => simpa [allDependents, edgeCount] using ih
    | some c => simp [allDependents, edgeCount, ih]

theorem dependents_length_le (s : Sheet D) (p : Position) :
    (s.dependents p).length ≤ edgeCount s.cells_ := by
  unfold Sheet.dependents
  cases hc : s.cellAt p with
  | none => simp
  | some c =>
    simp only
    have hmem := findEntry_mem _ _ _ ((Sheet.cellAt_eq_some_iff s p c).1 hc)
    generalize s.cells_ = l at hmem
    induction l with
    | nil => simp at hmem
    | cons hd tl ih =>
      obtain ⟨k, v⟩ := hd
      rcases List.mem_cons.1 hmem with h1 | h1
      · simp only [Prod.mk.injEq] at h1
        rw [← h1.2]
        simp [edgeCount]
      · have := ih h1
        cases v with
        | none => simpa [edgeCount] using this
        | some c1 => simp only [edgeCount]; omega

theorem unvisited_le_length (V visited : List Position) : unvisited V visited ≤ V.length :=
  List.length_filter_le _ _

/-- The fuel `CheckCyclicDependency` hands to the loop is enough on every sheet. -/
theorem HasCycle_hasCycleFuel (s : Sheet D) (referenced : List (Option Position)) (self : Position) :
    ∃ r, HasCycle s (hasCycleFuel s) referenced [] [self] = some r := by
  apply HasCycle_total s (self :: allDependents s.cells_) (edgeCount s.cells_)
    (dependents_length_le s)
    (fun p d h => List.mem_cons_of_mem _ (dependents_sub_allDependents s p d h))
  · intro x hx
    simp only [List.mem_singleton] at hx
    rw [hx]; exact List.mem_cons_self _ _
  · have h1 := unvisited_le_length (self :: allDependents s.cells_) []
    simp only [List.length_cons, length_allDependents] at h1
    have h2 := Nat.mul_le_mul_left (2 * edgeCount s.cells_ + 1) h1
    have h3 := Nat.mul_le_mul_left (edgeCount s.cells_) (topVisited_le_one [] [self])
    unfold hasCycleFuel
    simp only [List.length_singleton]
    omega

end Termination

/-! ## Sheets up to caches -/

section Bodies

variable {D : Type}

theorem Impl.refs_InvalidateCache (i : Impl D) :
    i.InvalidateCache.GetReferencedCells = i.GetReferencedCells := by
  cases i <;> rfl

theorem Impl.InvalidateCache_idem (i : Impl D) :
    i.InvalidateCache.InvalidateCache = i.InvalidateCache := by
  cases i <;> rfl

theorem Impl.GetText_InvalidateCache (i : Impl D) :
    i.InvalidateCache.GetText = i.GetText := by
  cases i <;> rfl

theorem findEntry_bodies (l : List (Position × Option (Cell D))) (q : Position) :
    findEntry (l.map (fun e => (e.1, e.2.map Cell.body))) q = (findEntry l q).map (Option.map Cell.body) := by
  induction l with
  | nil => simp [findEntry]
  | cons hd tl ih =>
    obtain ⟨k, v⟩ := hd
    by_cases hk : k = q
    · simp [findEntry, hk]
    · simp [findEntry, hk, ih]

theorem Sheet.find_bodies (s : Sheet D) (q : Position) :
    s.bodies.find q = (s.find q).map (Option.map Cell.body) :=
  findEntry_bodies s.cells_ q

theorem Sheet.cellAt_bodies (s : Sheet D) (q : Position) :
    s.bodies.cellAt q = (s.cellAt q).map Cell.body := by
  unfold Sheet.cellAt
  rw [Sheet.find_bodies]
  cases h : s.find q with
  | none => simp
  | some v => cases v <;> simp

theorem Sheet.keys_bodies (s : Sheet D) :
    s.bodies.cells_.map Prod.fst = s.cells_.map Prod.fst := by
  simp [Sheet.bodies, List.map_map, Function.comp_def]

theorem bodies_setEntry (l : List (Position × Option (Cell D))) (p : Position) (c c1 : Cell D)
    (h : findEntry l p = some (some c)) (hb : c1.body = c.body) :
    (setEntry l p (some c1)).map (fun e => (e.1, e.2.map Cell.body)) =
      l.map (fun e => (e.1, e.2.map Cell.body)) := by
  induction l with
  | nil => simp [setEntry]
  | cons hd tl ih =>
    obtain ⟨k, v⟩ := hd
    by_cases hk : k = p
    · simp only [findEntry, hk, if_true, Option.some.injEq] at h
      simp [setEntry, hk, h, hb]
    · simp only [findEntry, hk, if_false] at h
      simp [setEntry, hk, ih h]

theorem Sheet.bodies_store (s : Sheet D) (p : Position) (c c1 : Cell D)
    (h : s.cellAt p = some c) (hb : c1.body = c.body) : (s.store p c1).bodies = s.bodies := by
  unfold Sheet.bodies Sheet.store
  simp only
  rw [bodies_setEntry s.cells_ p c c1 ((Sheet.cellAt_eq_some_iff s p c).1 h) hb]

theorem bodies_foldlM (f : Sheet D → Position → Option (Sheet D))
    (hf : ∀ st x st1, f st x = some st1 → st1.bodies = st.bodies) :
    ∀ (l : List Position) (s s1 : Sheet D), l.foldlM f s = some s1 → s1.bodies = s.bodies := by
  intro l
  induction l with
  | nil => intro s s1 h; simp at h; rw [h]
  | cons x tl ih =>
    intro s s1 h
    simp only [List.foldlM_cons] at h
    cases h1 : f s x with
    | none => simp [h1] at h
    | some st =>
      simp only [h1, Option.some_bind] at h
      rw [ih st s1 h, hf s x st h1]

/-- `UpdateDependencies` touches caches only. -/
theorem UpdateDependencies_bodies :
    ∀ (fuel : Nat) (s : Sheet D) (self : Position) (force : Bool) (s1 : Sheet D),
      UpdateDependencies fuel s self force = some s1 → s1.bodies = s.bodies := by
  intro fuel
  induction fuel with
  | zero => intro s self force s1 h; simp [UpdateDependencies] at h
  | succ n ih =>
    intro s self force s1 h
    simp only [UpdateDependencies] at h
    cases hc : s.cellAt self with
    | none => simp [hc] at h; rw [h]
    | some c =>
      simp only [hc] at h
      by_cases hg : (c.impl_.HasCache || force) = true
      · simp only [hg, if_true] at h
        have h2 := bodies_foldlM (fun st incoming => UpdateDependencies n st incoming false)
          (fun st x st1 hst => ih st x false st1 hst) _ _ _ h
        rw [h2]
        apply Sheet.bodies_store s self c _ hc
        simp [Cell.body, Impl.InvalidateCache_idem]
      · simp only [hg] at h
        simp at h
        rw [h]

theorem Sheet.references_of_bodies (s s1 : Sheet D) (h : s1.bodies = s.bodies) (q : Position) :
    s1.references q = s.references q := by
  have h1 := congrArg (fun x => x.cellAt q) h
  simp only [Sheet.cellAt_bodies] at h1
  unfold Sheet.references
  cases hc : s.cellAt q with
  | none =>
    cases hc1 : s1.cellAt q with
    | none => rfl
    | some c1 => simp [hc, hc1] at h1
  | some c =>
    cases hc1 : s1.cellAt q with
    | none => simp [hc, hc1] at h1
    | some c1 =>
      simp only [hc, hc1, Option.map_some', Option.some.injEq] at h1
      have := congrArg Cell.referenced_cells_ h1
      simpa [Cell.body] using this

theorem Sheet.dependents_of_bodies (s s1 : Sheet D) (h : s1.bodies = s.bodies) (q : Position) :
    s1.dependents q = s.dependents q := by
  have h1 := congrArg (fun x => x.cellAt q) h
  simp only [Sheet.cellAt_bodies] at h1
  unfold Sheet.dependents
  cases hc : s.cellAt q with
  | none =>
    cases hc1 : s1.cellAt q with
    | none => rfl
    | some c1 => simp [hc, hc1] at h1
  | some c =>
    cases hc1 : s1.cellAt q with
    | none => simp [hc, hc1] at h1
    | some c1 =>
      simp only [hc, hc1, Option.map_some', Option.some.injEq] at h1
      have := congrArg Cell.dependent_cells_ h1
      simpa [Cell.body] using this

theorem Sheet.find_none_of_bodies (s s1 : Sheet D) (h : s1.bodies = s.bodies) (q : Position) :
    s1.find q = none ↔ s.find q = none := by
  have h1 := congrArg (fun x => x.find q) h
  simp only [Sheet.find_bodies] at h1
  cases hc : s.find q <;> cases hc1 : s1.find q <;> simp [hc, hc1] at h1 ⊢

theorem Sheet.find_null_of_bodies (s s1 : Sheet D) (h : s1.bodies = s.bodies) (q : Position) :
    s1.find q = some none ↔ s.find q = some none := by
  have h1 := congrArg (fun x => x.find q) h
  simp only [Sheet.find_bodies] at h1
  cases hc : s.find q with
  | none => cases hc1 : s1.find q <;> simp [hc, hc1] at h1 ⊢
  | some v =>
    cases hc1 : s1.find q with
    | none => simp [hc, hc1] at h1
    | some v1 =>
      simp only [hc, hc1, Option.map_some', Option.some.injEq] at h1
      cases v <;> cases v1 <;> simp at h1 ⊢

theorem Sheet.keys_of_bodies (s s1 : Sheet D) (h : s1.bodies = s.bodies) :
    s1.cells_.map Prod.fst = s.cells_.map Prod.fst := by
  rw [← Sheet.keys_bodies s1, ← Sheet.keys_bodies s, h]

theorem Sheet.cellAt_of_bodies (s s1 : Sheet D) (h : s1.bodies = s.bodies) (q : Position) :
    (s1.cellAt q).map Cell.body = (s.cellAt q).map Cell.body := by
  have h1 := congrArg (fun x => x.cellAt q) h
  simpa only [Sheet.cellAt_bodies] using h1

end Bodies

/-! ## Rewiring of references -/

section Rewiring

variable {D : Type}

theorem Sheet.cellAt_eq_none_iff (s : Sheet D) (q : Position) :
    s.cellAt q = none ↔ s.find q = none ∨ s.find q = some none := by
  unfold Sheet.cellAt
  cases h : s.find q with
  | none => simp
  | some v => cases v <;> simp

theorem setErase_idem (x : Position) (l : List Position) : setErase x (setErase x l) = setErase x l := by
  simp [setErase, List.filter_filter]

theorem cellAt_unlink (self : Position) (old : List Position) :
    ∀ (s : Sheet D) (q : Position), (unlinkReferences self old s).cellAt q =
      (s.cellAt q).map (fun c =>
        if q ∈ old then { c with dependent_cells_ := setErase self c.dependent_cells_ } else c) := by
  induction old with
  | nil => intro s q; simp [unlinkReferences]
  | cons x tl ih =>
    intro s q
    have hstep : unlinkReferences self (x :: tl) s = unlinkReferences self tl
        (s.modify x (fun oc => { oc with dependent_cells_ := setErase self oc.dependent_cells_ })) := by
      simp [unlinkReferences]
    rw [hstep, ih, Sheet.cellAt_modify]
    by_cases hq : q = x
    · subst hq
      cases hc : s.cellAt q with
      | none => simp
      | some c =>
        by_cases hqt : q ∈ tl
        · simp [hqt, setErase_idem]
        · simp [hqt]
    · cases hc : s.cellAt q with
      | none => simp [hq, hc]
      | some c => simp [hq, hc]

theorem find_none_unlink (self : Position) (old : List Position) :
    ∀ (s : Sheet D) (q : Position), (unlinkReferences self old s).find q = none ↔ s.find q = none := by
  induction old with
  | nil => intro s q; simp [unlinkReferences]
  | cons x tl ih =>
    intro s q
    have hstep : unlinkReferences self (x :: tl) s = unlinkReferences self tl
        (s.modify x (fun oc => { oc with dependent_cells_ := setErase self oc.dependent_cells_ })) := by
      simp [unlinkReferences]
    rw [hstep, ih, Sheet.find_modify_none]

theorem find_null_unlink (self : Position) (old : List Position) :
    ∀ (s : Sheet D) (q : Position),
      (unlinkReferences self old s).find q = some none ↔ s.find q = some none := by
  induction old with
  | nil => intro s q; simp [unlinkReferences]
  | cons x tl ih =>
    intro s q
    have hstep : unlinkReferences self (x :: tl) s = unlinkReferences self tl
        (s.modify x (fun oc => { oc with dependent_cells_ := setErase self oc.dependent_cells_ })) := by
      simp [unlinkReferences]
    rw [hstep, ih, Sheet.find_modify_null]

theorem keys_unlink (self : Position) (old : List Position) :
    ∀ (s : Sheet D), (unlinkReferences self old s).cells_.map Prod.fst = s.cells_.map Prod.fst := by
  induction old with
  | nil => intro s; simp [unlinkReferences]
  | cons x tl ih =>
    intro s
    have hstep : unlinkReferences self (x :: tl) s = unlinkReferences self tl
        (s.modify x (fun oc => { oc with dependent_cells_ := setErase self oc.dependent_cells_ })) := by
      simp [unlinkReferences]
    rw [hstep, ih, Sheet.keys_modify]

theorem Sheet.references_eq (s : Sheet D) (q : Position) :
    s.references q = (s.cellOrNew q).referenced_cells_ := by
  unfold Sheet.references Sheet.cellOrNew
  cases s.cellAt q <;> simp [Cell.new]

theorem Sheet.dependents_eq (s : Sheet D) (q : Position) :
    s.dependents q = (s.cellOrNew q).dependent_cells_ := by
  unfold Sheet.dependents Sheet.cellOrNew
  cases s.cellAt q <;> simp [Cell.new]

/-- One round of the second loop of `UpdateReferences`, from a sheet where the
referenced cell is present. -/
theorem cellAt_linkStep (s : Sheet D) (self pos q : Position) :
    (linkStep s self pos).cellAt q =
      (s.cellAt q).map (fun c =>
        { impl_ := c.impl_,
          dependent_cells_ := if q = pos then setInsert self c.dependent_cells_ else c.dependent_cells_,
          referenced_cells_ := if q = self then setInsert pos c.referenced_cells_ else c.referenced_cells_ }) := by
  unfold linkStep
  simp only [Sheet.cellAt_modify]
  by_cases h1 : q = pos
  · by_cases h2 : q = self
    · subst h1; subst h2
      cases hc : s.cellAt q <;> simp
    · subst h1
      have h3 : ¬ self = q := fun e => h2 e.symm
      cases hc : s.cellAt q <;> simp [h2, h3]
  · by_cases h2 : q = self
    · subst h2
      cases hc : s.cellAt q <;> simp [h1]
    · cases hc : s.cellAt q <;> simp [h1, h2]

theorem find_none_linkStep (s : Sheet D) (self pos q : Position) :
    (linkStep s self pos).find q = none ↔ s.find q = none := by
  unfold linkStep
  rw [Sheet.find_modify_none, Sheet.find_modify_none]

theorem find_null_linkStep (s : Sheet D) (self pos q : Position) :
    (linkStep s self pos).find q = some none ↔ s.find q = some none := by
  unfold linkStep
  rw [Sheet.find_modify_null, Sheet.find_modify_null]

theorem keys_linkStep (s : Sheet D) (self pos : Position) :
    (linkStep s self pos).cells_.map Prod.fst = s.cells_.map Prod.fst := by
  unfold linkStep
  rw [Sheet.keys_modify, Sheet.keys_modify]

theorem references_linkStep (s : Sheet D) (self pos q r : Position) (hself : (s.cellAt self).isSome) :
    r ∈ (linkStep s self pos).references q ↔ r ∈ s.references q ∨ (q = self ∧ r = pos) := by
  unfold Sheet.references
  rw [cellAt_linkStep]
  cases hc : s.cellAt q with
  | none =>
    have : q ≠ self := by
      intro e; rw [e] at hc; simp [hc] at hself
    simp [this]
  | some c =>
    by_cases h : q = self
    · simp [h, mem_setInsert]; tauto
    · simp [h]

theorem dependents_linkStep (s : Sheet D) (self pos q d : Position) (hpos : (s.cellAt pos).isSome) :
    d ∈ (linkStep s self pos).dependents q ↔ d ∈ s.dependents q ∨ (d = self ∧ q = pos) := by
  unfold Sheet.dependents
  rw [cellAt_linkStep]
  cases hc : s.cellAt q with
  | none =>
    have : q ≠ pos := by
      intro e; rw [e] at hc; simp [hc] at hpos
    simp [this]
  | some c =>
    by_cases h : q = pos
    · simp [h, mem_setInsert]; tauto
    · simp [h]

theorem Linked.refl (s : Sheet D) (self : Position) : Linked s self [] s where
  find_none := by intro q; simp
  find_null := by intro q; rfl
  nodup := fun h => h
  refs_valid := by intro q hq; simp at hq
  impl := by
    intro q c1 h
    simp [Sheet.cellOrNew, h]
  refs := by intro q r; simp
  deps := by intro q d; simp

theorem Linked.present {s s1 : Sheet D} {self : Position} {R : List Position}
    (h : Linked s self R s1) (q : Position) (hq : (s.cellAt q).isSome) : (s1.cellAt q).isSome := by
  cases hc : s1.cellAt q with
  | some c => simp
  | none =>
    exfalso
    rcases (Sheet.cellAt_eq_none_iff s1 q).1 hc with h1 | h1
    · have := ((h.find_none q).1 h1).1
      have h2 := (Sheet.cellAt_eq_none_iff s q).2 (Or.inl this)
      simp [h2] at hq
    · have := (h.find_null q).1 h1
      have h2 := (Sheet.cellAt_eq_none_iff s q).2 (Or.inr this)
      simp [h2] at hq

theorem Linked.trans {s s3 s1 : Sheet D} {self pos : Position} {rest : List Position}
    (h1 : Linked s self [pos] s3) (h2 : Linked s3 self rest s1) :
    Linked s self (pos :: rest) s1 where
  find_none := by
    intro q
    rw [h2.find_none, h1.find_none]
    simp only [List.mem_singleton, List.mem_cons, not_or]
    tauto
  find_null := by
    intro q
    rw [h2.find_null, h1.find_null]
  nodup := fun h => h2.nodup (h1.nodup h)
  refs_valid := by
    intro q hq
    rcases List.mem_cons.1 hq with e | e
    · exact h1.refs_valid q (by simp [e])
    · exact h2.refs_valid q e
  impl := by
    intro q c1 hc1
    rw [h2.impl q c1 hc1]
    cases hc3 : s3.cellAt q with
    | some c3 =>
      simp only [Sheet.cellOrNew, hc3, Option.getD_some]
      exact h1.impl q c3 hc3
    | none =>
      have : s.cellAt q = none := by
        cases hc : s.cellAt q with
        | none => rfl
        | some c =>
          have := h1.present q (by simp [hc])
          simp [hc3] at this
      simp [Sheet.cellOrNew, hc3, this]
  refs := by
    intro q r
    rw [h2.refs, h1.refs]
    simp only [List.mem_singleton, List.mem_cons]
    tauto
  deps := by
    intro q d
    rw [h2.deps, h1.deps]
    simp only [List.mem_singleton, List.mem_cons]
    tauto

theorem Linked.step_present (s : Sheet D) (self pos : Position) (hself : (s.cellAt self).isSome)
    (hpos : (s.cellAt pos).isSome) (hv : pos.IsValid = true) :
    Linked s self [pos] (linkStep s self pos) where
  find_none := by
    intro q
    rw [find_none_linkStep]
    simp only [List.mem_singleton]
    constructor
    · intro h
      refine ⟨h, ?_⟩
      intro e
      rw [e] at h
      have := (Sheet.cellAt_eq_none_iff s pos).2 (Or.inl h)
      simp [this] at hpos
    · exact fun h => h.1
  find_null := by intro q; rw [find_null_linkStep]
  nodup := by intro h; rw [keys_linkStep]; exact h
  refs_valid := by intro q hq; simp at hq; rw [hq]; exact hv
  impl := by
    intro q c1 h
    rw [cellAt_linkStep] at h
    cases hc : s.cellAt q with
    | none => simp [hc] at h
    | some c =>
      simp only [hc, Option.map_some', Option.some.injEq] at h
      simp [Sheet.cellOrNew, hc, ← h]
  refs := by
    intro q r
    rw [references_linkStep _ _ _ _ _ hself]
    simp
  deps := by
    intro q d
    rw [dependents_linkStep _ _ _ _ _ hpos]
    simp

theorem Sheet.cellOrNew_emplace (s : Sheet D) (pos q : Position) (h : s.find pos = none) :
    (s.emplace pos).cellOrNew q = s.cellOrNew q := by
  unfold Sheet.cellOrNew
  rw [Sheet.cellAt_emplace]
  by_cases hq : q = pos
  · subst hq
    have := (Sheet.cellAt_eq_none_iff s q).2 (Or.inl h)
    simp [this]
  · simp [hq]

theorem keys_nodup_emplace (s : Sheet D) (pos : Position) (h : s.find pos = none)
    (hnd : (s.cells_.map Prod.fst).Nodup) : ((s.emplace pos).cells_.map Prod.fst).Nodup := by
  simp only [Sheet.emplace, List.map_cons, List.nodup_cons]
  exact ⟨(findEntry_eq_none_iff s.cells_ pos).1 h, hnd⟩

theorem Linked.of_emplace {s s1 : Sheet D} {self pos : Position} {R : List Position}
    (hfind : s.find pos = none) (hpos : pos ∈ R) (h : Linked (s.emplace pos) self R s1) :
    Linked s self R s1 where
  find_none := by
    intro q
    rw [h.find_none, Sheet.find_emplace]
    by_cases hq : q = pos
    · subst hq; simp [hpos]
    · simp [hq]
  find_null := by
    intro q
    rw [h.find_null, Sheet.find_emplace]
    by_cases hq : q = pos
    · subst hq; simp [hfind]
    · simp [hq]
  nodup := fun hnd => h.nodup (keys_nodup_emplace s pos hfind hnd)
  refs_valid := h.refs_valid
  impl := by
    intro q c1 hc1
    rw [h.impl q c1 hc1, Sheet.cellOrNew_emplace s pos q hfind]
  refs := by
    intro q r
    rw [h.refs, Sheet.references_eq, Sheet.references_eq, Sheet.cellOrNew_emplace s pos q hfind]
  deps := by
    intro q d
    rw [h.deps, Sheet.dependents_eq, Sheet.dependents_eq, Sheet.cellOrNew_emplace s pos q hfind]

theorem GetCellPtr_valid (s : Sheet D) (pos : Position) (hv : pos.IsValid = true) :
    s.GetCellPtr pos = .ok (if (s.cellAt pos).isSome then some pos else none) := by
  unfold Sheet.GetCellPtr
  cases hc : s.cellAt pos <;> simp [hv]

theorem GetCellPtr_invalid (s : Sheet D) (pos : Position) (hv : pos.IsValid = false) :
    s.GetCellPtr pos = .error .InvalidPositionException := by
  unfold Sheet.GetCellPtr
  simp [hv]

/-- The second loop of `UpdateReferences`, when it returns, has created the
missing cells and inserted the two edges of every listed position. -/
theorem linkReferences_ok (setCell : Sheet D → Position → String → Outcome (Sheet D) Unit)
    (hsc : CreatesEmpty setCell) (self : Position) :
    ∀ (R : List Position) (s s1 : Sheet D), (s.cellAt self).isSome →
      linkReferences setCell self R s = .ok () s1 → Linked s self R s1 := by
  intro R
  induction R with
  | nil =>
    intro s s1 _ h
    simp only [linkReferences, Outcome.ok.injEq, true_and] at h
    rw [← h]
    exact Linked.refl s self
  | cons pos rest ih =>
    intro s s1 hself h
    simp only [linkReferences] at h
    by_cases hv : pos.IsValid = true
    · rw [GetCellPtr_valid s pos hv] at h
      simp only at h
      cases hc : s.cellAt pos with
      | some c =>
        simp only [hc, Option.isSome_some, if_true, Outcome.bind] at h
        have hst := Linked.step_present s self pos hself (by simp [hc]) hv
        have hself3 := hst.present self hself
        exact Linked.trans hst (ih _ _ hself3 h)
      | none =>
        simp only [hc, Option.isSome_none, Bool.false_eq_true, if_false] at h
        rcases (Sheet.cellAt_eq_none_iff s pos).1 hc with hf | hf
        · rw [hsc.1 s pos hv hf] at h
          simp only [Outcome.bind] at h
          rw [GetCellPtr_valid _ pos hv] at h
          have hpe : ((s.emplace pos).cellAt pos).isSome := by simp [Sheet.cellAt_emplace]
          simp only [hpe, if_true] at h
          have hse : ((s.emplace pos).cellAt self).isSome := by
            rw [Sheet.cellAt_emplace]
            by_cases e : self = pos
            · simp [e]
            · simpa [e] using hself
          have hst := Linked.step_present (s.emplace pos) self pos hse hpe hv
          have hself3 := hst.present self hse
          exact Linked.of_emplace hf (List.mem_cons_self _ _) (Linked.trans hst (ih _ _ hself3 h))
        · rw [hsc.2 s pos hv hf] at h
          simp [Outcome.bind] at h
    · have hv1 : pos.IsValid = false := by simpa using hv
      rw [GetCellPtr_invalid s pos hv1] at h
      simp at h

/-- The second loop of `UpdateReferences` over valid positions returns, unless
one of the positions has an entry holding a null pointer: then it dereferences
it. -/
theorem linkReferences_outcome (setCell : Sheet D → Position → String → Outcome (Sheet D) Unit)
    (hsc : CreatesEmpty setCell) (self : Position) :
    ∀ (R : List Position) (s : Sheet D), (s.cellAt self).isSome → (∀ q ∈ R, q.IsValid = true) →
      ((∃ s1, linkReferences setCell self R s = .ok () s1) ∧ ∀ q ∈ R, s.find q ≠ some none) ∨
      (linkReferences setCell self R s = .nullDeref ∧ ∃ q ∈ R, s.find q = some none) := by
  intro R
  induction R with
  | nil =>
    intro s _ _
    left
    exact ⟨⟨s, rfl⟩, by simp⟩
  | cons pos rest ih =>
    intro s hself hvalid
    have hv := hvalid pos (List.mem_cons_self _ _)
    have hvr : ∀ q ∈ rest, q.IsValid = true := fun q hq => hvalid q (List.mem_cons_of_mem _ hq)
    simp only [linkReferences]
    rw [GetCellPtr_valid s pos hv]
    cases hc : s.cellAt pos with
    | some c =>
      simp only [Option.isSome_some, if_true, Outcome.bind]
      have hst := Linked.step_present s self pos hself (by simp [hc]) hv
      have hself3 := hst.present self hself
      have hnn : s.find pos ≠ some none := by
        rw [(Sheet.cellAt_eq_some_iff s pos c).1 hc]; simp
      rcases ih (linkStep s self pos) hself3 hvr with ⟨⟨s1, h1⟩, h2⟩ | ⟨h1, q, hq, h2⟩
      · left
        refine ⟨⟨s1, h1⟩, ?_⟩
        intro q hq
        rcases List.mem_cons.1 hq with e | e
        · rw [e]; exact hnn
        · intro hqn
          exact h2 q e ((hst.find_null q).2 hqn)
      · right
        exact ⟨h1, q, List.mem_cons_of_mem _ hq, (hst.find_null q).1 h2⟩
    | none =>
      simp only [Option.isSome_none, Bool.false_eq_true, if_false]
      rcases (Sheet.cellAt_eq_none_iff s pos).1 hc with hf | hf
      · rw [hsc.1 s pos hv hf]
        simp only [Outcome.bind]
        rw [GetCellPtr_valid _ pos hv]
        have hpe : ((s.emplace pos).cellAt pos).isSome := by simp [Sheet.cellAt_emplace]
        simp only [hpe, if_true]
        have hse : ((s.emplace pos).cellAt self).isSome := by
          rw [Sheet.cellAt_emplace]
          by_cases e : self = pos
          · simp [e]
          · simpa [e] using hself
        have hst := Linked.of_emplace hf (List.mem_singleton_self _)
          (Linked.step_present (s.emplace pos) self pos hse hpe hv)
        have hself3 := (Linked.step_present (s.emplace pos) self pos hse hpe hv).present self hse
        rcases ih (linkStep (s.emplace pos) self pos) hself3 hvr with ⟨⟨s1, h1⟩, h2⟩ | ⟨h1, q, hq, h2⟩
        · left
          refine ⟨⟨s1, h1⟩, ?_⟩
          intro q hq
          rcases List.mem_cons.1 hq with e | e
          · rw [e, hf]; simp
          · intro hqn
            exact h2 q e ((hst.find_null q).2 hqn)
        · right
          exact ⟨h1, q, List.mem_cons_of_mem _ hq, (hst.find_null q).1 h2⟩
      · right
        rw [hsc.2 s pos hv hf]
        exact ⟨rfl, pos, List.mem_cons_self _ _, hf⟩

/-- The sheet between the two loops of `UpdateReferences`. -/
theorem cellAt_unlinked (s : Sheet D) (self q : Position) (impl : Impl D) (old : List Position) :
    ((unlinkReferences self old s).modify self
        (fun c1 => { c1 with referenced_cells_ := [], impl_ := impl })).cellAt q =
      (s.cellAt q).map (fun c =>
        { impl_ := if q = self then impl else c.impl_,
          dependent_cells_ := if q ∈ old then setErase self c.dependent_cells_ else c.dependent_cells_,
          referenced_cells_ := if q = self then [] else c.referenced_cells_ }) := by
  rw [Sheet.cellAt_modify]
  simp only [cellAt_unlink]
  by_cases h : q = self
  · subst h
    cases hc : s.cellAt q with
    | none => simp
    | some c => by_cases ho : q ∈ old <;> simp [ho]
  · cases hc : s.cellAt q with
    | none => simp [h]
    | some c => by_cases ho : q ∈ old <;> simp [h, ho]

/-- `UpdateReferences`, when it returns, leaves the sheet rewired. -/
theorem UpdateReferences_ok (setCell : Sheet D → Position → String → Outcome (Sheet D) Unit)
    (hsc : CreatesEmpty setCell) (s s1 : Sheet D) (self : Position) (impl : Impl D)
    (h : Cell.UpdateReferences setCell s self impl = .ok () s1) : Rewired s self impl s1 := by
  unfold Cell.UpdateReferences at h
  cases hc : s.cellAt self with
  | none => simp [hc] at h
  | some c =>
    simp only [hc] at h
    have hold : s.references self = c.referenced_cells_ := by simp [Sheet.references, hc]
    have hself2 : (((unlinkReferences self c.referenced_cells_ s).modify self
        (fun c1 => { c1 with referenced_cells_ := [], impl_ := impl })).cellAt self).isSome := by
      rw [cellAt_unlinked]; simp [hc]
    have hl := linkReferences_ok setCell hsc self _ _ _ hself2 h
    have hfn : ∀ q, ((unlinkReferences self c.referenced_cells_ s).modify self
        (fun c1 => { c1 with referenced_cells_ := [], impl_ := impl })).find q = none ↔
        s.find q = none := by
      intro q; rw [Sheet.find_modify_none, find_none_unlink]
    have hfl : ∀ q, ((unlinkReferences self c.referenced_cells_ s).modify self
        (fun c1 => { c1 with referenced_cells_ := [], impl_ := impl })).find q = some none ↔
        s.find q = some none := by
      intro q; rw [Sheet.find_modify_null, find_null_unlink]
    refine
      { find_none := ?_, find_null := ?_, nodup := ?_, refs_valid := hl.refs_valid, impl_self := ?_,
        impl_other := ?_, refs_self := ?_, refs_other := ?_, deps := ?_ }
    · intro q; rw [hl.find_none, hfn]
    · intro q; rw [hl.find_null, hfl]
    · intro hnd
      apply hl.nodup
      rw [Sheet.keys_modify, keys_unlink]
      exact hnd
    · intro c1 hc1
      rw [hl.impl self c1 hc1]
      simp [Sheet.cellOrNew, cellAt_unlinked, hc]
    · intro q c1 hq hc1
      rw [hl.impl q c1 hc1]
      unfold Sheet.cellOrNew
      rw [cellAt_unlinked]
      cases hcq : s.cellAt q <;> simp [hq]
    · intro r
      rw [hl.refs]
      unfold Sheet.references
      rw [cellAt_unlinked]
      simp [hc]
    · intro q r hq
      rw [hl.refs]
      unfold Sheet.references
      rw [cellAt_unlinked]
      cases hcq : s.cellAt q <;> simp [hq]
    · intro q d
      rw [hl.deps, hold]
      unfold Sheet.dependents
      rw [cellAt_unlinked]
      cases hcq : s.cellAt q with
      | none => simp
      | some cq =>
        by_cases ho : q ∈ c.referenced_cells_
        · simp [ho, mem_setErase]
        · simp [ho]

/-- `UpdateReferences` on a present cell and a body whose positions are valid
returns, unless one of the positions has an entry holding a null pointer. -/
theorem UpdateReferences_outcome (setCell : Sheet D → Position → String → Outcome (Sheet D) Unit)
    (hsc : CreatesEmpty setCell) (s : Sheet D) (self : Position) (impl : Impl D)
    (hself : (s.cellAt self).isSome) (hvalid : ∀ q ∈ impl.GetReferencedCells, q.IsValid = true) :
    ((∃ s1, Cell.UpdateReferences setCell s self impl = .ok () s1) ∧
        ∀ q ∈ impl.GetReferencedCells, s.find q ≠ some none) ∨
      (Cell.UpdateReferences setCell s self impl = .nullDeref ∧
        ∃ q ∈ impl.GetReferencedCells, s.find q = some none) := by
  unfold Cell.UpdateReferences
  cases hc : s.cellAt self with
  | none => simp [hc] at hself
  | some c =>
    simp only
    have hself2 : (((unlinkReferences self c.referenced_cells_ s).modify self
        (fun c1 => { c1 with referenced_cells_ := [], impl_ := impl })).cellAt self).isSome := by
      rw [cellAt_unlinked]; simp [hc]
    have hfl : ∀ q, ((unlinkReferences self c.referenced_cells_ s).modify self
        (fun c1 => { c1 with referenced_cells_ := [], impl_ := impl })).find q = some none ↔
        s.find q = some none := by
      intro q; rw [Sheet.find_modify_null, find_null_unlink]
    rcases linkReferences_outcome setCell hsc self _ _ hself2 hvalid with ⟨h1, h2⟩ | ⟨h1, q, hq, h2⟩
    · left
      exact ⟨h1, fun q hq hqn => h2 q hq ((hfl q).2 hqn)⟩
    · right
      exact ⟨h1, q, hq, (hfl q).1 h2⟩

end Rewiring

/-! ## `CheckCyclicDependency` -/

section CycleCheck

variable {D : Type}

theorem collectReferenced_ok (s : Sheet D) :
    ∀ (R : List Position), (∀ q ∈ R, q.IsValid = true) →
      collectReferenced s R = .ok (R.map (fun p => if (s.cellAt p).isSome then some p else none)) := by
  intro R
  induction R with
  | nil => intro _; rfl
  | cons pos rest ih =>
    intro hv
    simp only [collectReferenced]
    rw [GetCellPtr_valid s pos (hv pos (List.mem_cons_self _ _))]
    simp only
    rw [ih (fun q hq => hv q (List.mem_cons_of_mem _ hq))]
    simp

theorem collectReferenced_error (s : Sheet D) :
    ∀ (R : List Position) (e : Exception), collectReferenced s R = .error e →
      e = .InvalidPositionException ∧ ∃ q ∈ R, q.IsValid = false := by
  intro R
  induction R with
  | nil => intro e h; simp [collectReferenced] at h
  | cons pos rest ih =>
    intro e h
    simp only [collectReferenced] at h
    by_cases hv : pos.IsValid = true
    · rw [GetCellPtr_valid s pos hv] at h
      simp only at h
      cases hr : collectReferenced s rest with
      | error e1 =>
        simp only [hr, Except.error.injEq] at h
        obtain ⟨h1, q, hq, h2⟩ := ih e1 hr
        exact ⟨h ▸ h1, q, List.mem_cons_of_mem _ hq, h2⟩
      | ok l => simp [hr] at h
    · have hv1 : pos.IsValid = false := by simpa using hv
      rw [GetCellPtr_invalid s pos hv1] at h
      simp only [Except.error.injEq] at h
      exact ⟨h.symm, pos, List.mem_cons_self _ _, hv1⟩

theorem collectReferenced_valid (s : Sheet D) (R : List Position) (l : List (Option Position))
    (h : collectReferenced s R = .ok l) : ∀ q ∈ R, q.IsValid = true := by
  induction R generalizing l with
  | nil => intro q hq; simp at hq
  | cons pos rest ih =>
    simp only [collectReferenced] at h
    by_cases hv : pos.IsValid = true
    · rw [GetCellPtr_valid s pos hv] at h
      simp only at h
      cases hr : collectReferenced s rest with
      | error e1 => simp [hr] at h
      | ok l1 =>
        intro q hq
        rcases List.mem_cons.1 hq with e | e
        · rw [e]; exact hv
        · exact ih l1 hr q e
    · have hv1 : pos.IsValid = false := by simpa using hv
      rw [GetCellPtr_invalid s pos hv1] at h
      simp at h

theorem mem_referenced (s : Sheet D) (R : List Position) (x : Position) :
    some x ∈ R.map (fun p => if (s.cellAt p).isSome then some p else none) ↔
      x ∈ R ∧ (s.cellAt x).isSome := by
  simp only [List.mem_map]
  constructor
  · rintro ⟨p, hp, h⟩
    by_cases hc : (s.cellAt p).isSome
    · simp only [hc, if_true, Option.some.injEq] at h
      subst h
      exact ⟨hp, hc⟩
    · simp [hc] at h
  · rintro ⟨hx, hc⟩
    exact ⟨x, hx, by simp [hc]⟩

theorem closed_of_reachable (s : Sheet D) (vis : List Position)
    (hclosed : ∀ v ∈ vis, ∀ d ∈ s.dependents v, d ∈ vis) (a b : Position)
    (h : Relation.ReflTransGen (DepEdge s) a b) (ha : a ∈ vis) : b ∈ vis := by
  induction h with
  | refl => exact ha
  | tail _ hbc ih => exact hclosed _ ih _ hbc

/-- `CheckCyclicDependency` on a body with valid positions returns, without
changing the sheet, whether a present referenced cell is reachable from the cell
along dependent edges, the cell itself included. -/
theorem CheckCyclicDependency_spec (s : Sheet D) (self : Position) (impl : Impl D)
    (hvalid : ∀ q ∈ impl.GetReferencedCells, q.IsValid = true) :
    ∃ b, Cell.CheckCyclicDependency s self impl = .ok b s ∧
      (b = true ↔ ∃ x ∈ impl.GetReferencedCells, (s.cellAt x).isSome ∧
        Relation.ReflTransGen (DepEdge s) self x) := by
  unfold Cell.CheckCyclicDependency
  by_cases hempty : impl.GetReferencedCells.isEmpty = true
  · refine ⟨false, by simp [hempty], ?_⟩
    have : impl.GetReferencedCells = [] := by simpa using hempty
    simp [this]
  · simp only [hempty, Bool.false_eq_true, if_false]
    rw [collectReferenced_ok s _ hvalid]
    simp only
    obtain ⟨⟨b, vis⟩, hr⟩ := HasCycle_hasCycleFuel s
      (impl.GetReferencedCells.map (fun p => if (s.cellAt p).isSome then some p else none)) self
    rw [hr]
    refine ⟨b, rfl, ?_⟩
    obtain ⟨h1, h2, _⟩ := HasCycle_spec s _ _ _ _ _ _ hr
    constructor
    · intro hb
      obtain ⟨x, hx, y, hy, hyx⟩ := h1 hb
      rw [mem_referenced] at hx
      simp only [List.mem_singleton] at hy
      subst hy
      exact ⟨x, hx.1, hx.2, hyx⟩
    · rintro ⟨x, hx, hpres, hreach⟩
      by_contra hb
      have hb1 : b = false := by simpa using hb
      obtain ⟨hsub, hcl⟩ := h2 hb1 (by simp)
      have hself : self ∈ vis := hsub self (Or.inr (List.mem_singleton_self _))
      have hxv := closed_of_reachable s vis (fun v hv => (hcl v hv).2) _ _ hreach hself
      exact (hcl x hxv).1 ((mem_referenced s _ x).2 ⟨hx, hpres⟩)

/-- `CheckCyclicDependency` never changes the sheet and throws nothing but
`InvalidPositionException`, which it throws on an invalid referenced position. -/
theorem CheckCyclicDependency_cases (s : Sheet D) (self : Position) (impl : Impl D) :
    (∃ b, Cell.CheckCyclicDependency s self impl = .ok b s ∧
      ∀ q ∈ impl.GetReferencedCells, q.IsValid = true) ∨
    (Cell.CheckCyclicDependency s self impl = .throws .InvalidPositionException s ∧
      ∃ q ∈ impl.GetReferencedCells, q.IsValid = false) := by
  by_cases hv : ∀ q ∈ impl.GetReferencedCells, q.IsValid = true
  · left
    obtain ⟨b, hb, _⟩ := CheckCyclicDependency_spec s self impl hv
    exact ⟨b, hb, hv⟩
  · right
    push_neg at hv
    obtain ⟨q, hq, hqv⟩ := hv
    have hne : impl.GetReferencedCells.isEmpty = false := by
      cases hl : impl.GetReferencedCells with
      | nil => rw [hl] at hq; simp at hq
      | cons a tl => rfl
    unfold Cell.CheckCyclicDependency
    simp only [hne, Bool.false_eq_true, if_false]
    cases hr : collectReferenced s impl.GetReferencedCells with
    | error e =>
      obtain ⟨he, hex⟩ := collectReferenced_error s _ e hr
      subst he
      exact ⟨rfl, hex⟩
    | ok l =>
      exfalso
      exact hqv (collectReferenced_valid s _ l hr q hq)

end CycleCheck

/-! ## `Cell::Set` and `Sheet::SetCell` -/

section SetCell

variable {D : Type}

theorem buildImpl_empty (X : Externals D) : buildImpl X "" = .ok .EmptyImpl := rfl

theorem modify_same (s : Sheet D) (p : Position) (f : Cell D → Cell D)
    (h : ∀ c, s.cellAt p = some c → f c = c) : s.modify p f = s := by
  unfold Sheet.modify
  cases hc : s.cellAt p with
  | none => rfl
  | some c =>
    simp only [Sheet.store]
    rw [h c hc, setEntry_same _ _ _ ((Sheet.cellAt_eq_some_iff s p c).1 hc)]

/-- Setting the text `""` on a position without an entry adds a fresh cell. -/
theorem SetCellWith_create (X : Externals D)
    (setCell : Sheet D → Position → String → Outcome (Sheet D) Unit) (s : Sheet D) (pos : Position)
    (hv : pos.IsValid = true) (hf : s.find pos = none) :
    Sheet.SetCellWith X setCell s pos "" = .ok () (s.emplace pos) := by
  have hc : (s.emplace pos).cellAt pos = some Cell.new := by simp [Sheet.cellAt_emplace]
  have hm : ∀ (f : Cell D → Cell D), f Cell.new = Cell.new → (s.emplace pos).modify pos f = s.emplace pos :=
    fun f hfn => modify_same _ _ _ (fun c hcc => by rw [hc] at hcc; cases hcc; exact hfn)
  unfold Sheet.SetCellWith
  simp only [hv, Bool.not_true, Bool.false_eq_true, if_false, hf, hc, Sheet.ensure]
  unfold Cell.Set
  rw [buildImpl_empty]
  simp only [Cell.CheckCyclicDependency, Impl.GetReferencedCells, List.isEmpty_nil, if_true,
    Outcome.bind, Bool.false_eq_true, if_false]
  unfold Cell.UpdateReferences
  simp only [hc]
  have h1 : unlinkReferences pos (Cell.new : Cell D).referenced_cells_ (s.emplace pos) = s.emplace pos := rfl
  rw [h1, hm _ rfl]
  simp only [Impl.GetReferencedCells, linkReferences]
  have h2 : UpdateDependencies (updateFuel (s.emplace pos)) (s.emplace pos) pos true =
      some (s.emplace pos) := by
    unfold updateFuel
    simp only [UpdateDependencies, hc, Bool.or_true, if_true]
    have h3 : (s.emplace pos).store pos { (Cell.new : Cell D) with impl_ := (Cell.new : Cell D).impl_.InvalidateCache } =
        s.emplace pos := by
      have := hm (fun c => { c with impl_ := c.impl_.InvalidateCache }) rfl
      unfold Sheet.modify at this
      simpa only [hc] using this
    rw [h3]
    rfl
  rw [h2]

theorem SetCellWith_null (X : Externals D)
    (setCell : Sheet D → Position → String → Outcome (Sheet D) Unit) (s : Sheet D) (pos : Position)
    (text : String) (hv : pos.IsValid = true) (hf : s.find pos = some none) :
    Sheet.SetCellWith X setCell s pos text = .nullDeref := by
  have hc : s.cellAt pos = none := (Sheet.cellAt_eq_none_iff s pos).2 (Or.inr hf)
  unfold Sheet.SetCellWith
  simp [hv, hf, hc, Sheet.ensure]

theorem SetCellFuel_createsEmpty (X : Externals D) (n : Nat) : CreatesEmpty (SetCellFuel X (n + 1)) :=
  ⟨fun s pos hv hf => SetCellWith_create X _ s pos hv hf,
   fun s pos hv hf => SetCellWith_null X _ s pos "" hv hf⟩

theorem SetCell_createsEmpty (X : Externals D) : CreatesEmpty (Sheet.SetCell X) :=
  SetCellFuel_createsEmpty X 1

/-- `Cell::Set`, when it returns: the body was built, no cycle was found, the
references were rewired and the caches invalidated. -/
theorem Cell.Set_ok (X : Externals D) (setCell : Sheet D → Position → String → Outcome (Sheet D) Unit)
    (hsc : CreatesEmpty setCell) (s s1 : Sheet D) (self : Position) (text : String)
    (h : Cell.Set X setCell s self text = .ok () s1) :
    ∃ impl s2, buildImpl X text = .ok impl ∧ Cell.CheckCyclicDependency s self impl = .ok false s ∧
      Rewired s self impl s2 ∧ UpdateDependencies (updateFuel s2) s2 self true = some s1 := by
  unfold Cell.Set at h
  cases hb : buildImpl X text with
  | error e => simp [hb] at h
  | ok impl =>
    simp only [hb] at h
    rcases CheckCyclicDependency_cases s self impl with ⟨b, hc, _⟩ | ⟨hc, _⟩
    · rw [hc] at h
      simp only [Outcome.bind] at h
      cases b with
      | true => simp at h
      | false =>
        simp only [Bool.false_eq_true, if_false] at h
        cases hu : Cell.UpdateReferences setCell s self impl with
        | ok u s2 =>
          simp only [hu] at h
          cases hd : UpdateDependencies (updateFuel s2) s2 self true with
          | none => simp [hd] at h
          | some s3 =>
            simp only [hd, Outcome.ok.injEq, true_and] at h
            subst h
            exact ⟨impl, s2, rfl, hc, UpdateReferences_ok setCell hsc s s2 self impl hu, hd⟩
        | throws e s2 => simp [hu] at h
        | nullDeref => simp [hu] at h
        | outOfFuel => simp [hu] at h
    · rw [hc] at h
      simp [Outcome.bind] at h

/-- `Cell::Set` on a present cell, when it throws, leaves the sheet as it was. -/
theorem Cell.Set_throws (X : Externals D) (setCell : Sheet D → Position → String → Outcome (Sheet D) Unit)
    (hsc : CreatesEmpty setCell) (s s1 : Sheet D) (self : Position) (text : String) (e : Exception)
    (hself : (s.cellAt self).isSome)
    (h : Cell.Set X setCell s self text = .throws e s1) : s1 = s := by
  unfold Cell.Set at h
  cases hb : buildImpl X text with
  | error e1 =>
    simp only [hb, Outcome.throws.injEq] at h
    exact h.2.symm
  | ok impl =>
    simp only [hb] at h
    rcases CheckCyclicDependency_cases s self impl with ⟨b, hc, hvalid⟩ | ⟨hc, _⟩
    · rw [hc] at h
      simp only [Outcome.bind] at h
      cases b with
      | true =>
        simp only [if_true, Outcome.throws.injEq] at h
        exact h.2.symm
      | false =>
        simp only [Bool.false_eq_true, if_false] at h
        rcases UpdateReferences_outcome setCell hsc s self impl hself hvalid with ⟨⟨s2, hu⟩, _⟩ | ⟨hu, _⟩
        · rw [hu] at h
          simp only at h
          cases hd : UpdateDependencies (updateFuel s2) s2 self true <;> simp [hd] at h
        · rw [hu] at h
          simp at h
    · rw [hc] at h
      simp only [Outcome.bind, Outcome.throws.injEq] at h
      exact h.2.symm

end SetCell

/-! ## Preservation of the invariants -/

section Invariants

variable {D : Type}

theorem WellFormed.empty : WellFormed (Sheet.empty : Sheet D) where
  nodup := by simp [Sheet.empty]
  valid := by intro p h; simp [Sheet.empty, Sheet.find, findEntry] at h
  symm := by intro c r; simp [Sheet.references, Sheet.dependents, Sheet.cellAt, Sheet.find, Sheet.empty, findEntry]
  acyclic := by
    intro c h
    have : ∀ a b, ¬ RefEdge (Sheet.empty : Sheet D) a b := by
      intro a b hab
      simp [RefEdge, Sheet.references, Sheet.cellAt, Sheet.find, Sheet.empty, findEntry] at hab
    cases h with
    | single h1 => exact this _ _ h1
    | tail _ h1 => exact this _ _ h1
  complete := by
    intro p c h
    simp [Sheet.cellAt, Sheet.find, Sheet.empty, findEntry] at h

theorem acyclic_of_references (s s1 : Sheet D) (h : ∀ a b, b ∈ s1.references a → b ∈ s.references a)
    (ha : Acyclic s) : Acyclic s1 := by
  intro c hc
  exact ha c (Relation.TransGen.mono (fun a b hab => h a b hab) hc)

theorem WellFormed.emplace (s : Sheet D) (pos : Position) (hw : WellFormed s)
    (hv : pos.IsValid = true) (hf : s.find pos = none) : WellFormed (s.emplace pos) where
  nodup := keys_nodup_emplace s pos hf hw.nodup
  valid := by
    intro p hp
    rw [Sheet.find_emplace] at hp
    by_cases e : p = pos
    · rw [e]; exact hv
    · simp only [e, if_false] at hp
      exact hw.valid p hp
  symm := by
    intro c r
    rw [Sheet.references_eq, Sheet.dependents_eq, Sheet.cellOrNew_emplace s pos c hf,
      Sheet.cellOrNew_emplace s pos r hf, ← Sheet.references_eq, ← Sheet.dependents_eq]
    exact hw.symm c r
  acyclic := by
    apply acyclic_of_references s _ _ hw.acyclic
    intro a b hab
    rw [Sheet.references_eq, Sheet.cellOrNew_emplace s pos a hf, ← Sheet.references_eq] at hab
    exact hab
  complete := by
    intro p c hc
    rw [Sheet.cellAt_emplace] at hc
    by_cases e : p = pos
    · simp only [e, if_true, Option.some.injEq] at hc
      subst hc
      intro r
      simp [Cell.new, Impl.GetReferencedCells]
    · simp only [e, if_false] at hc
      exact hw.complete p c hc

theorem WellFormed.of_bodies (s s1 : Sheet D) (h : s1.bodies = s.bodies) (hw : WellFormed s) :
    WellFormed s1 where
  nodup := by rw [Sheet.keys_of_bodies s s1 h]; exact hw.nodup
  valid := by
    intro p hp
    apply hw.valid p
    intro hn
    exact hp ((Sheet.find_none_of_bodies s s1 h p).2 hn)
  symm := by
    intro c r
    rw [Sheet.references_of_bodies s s1 h, Sheet.dependents_of_bodies s s1 h]
    exact hw.symm c r
  acyclic := by
    apply acyclic_of_references s _ _ hw.acyclic
    intro a b hab
    rw [Sheet.references_of_bodies s s1 h] at hab
    exact hab
  complete := by
    intro p c1 hc1
    have h1 := Sheet.cellAt_of_bodies s s1 h p
    rw [hc1] at h1
    cases hc : s.cellAt p with
    | none => simp [hc] at h1
    | some c =>
      simp only [hc, Option.map_some', Option.some.injEq] at h1
      have hr : c1.referenced_cells_ = c.referenced_cells_ := by
        have := congrArg Cell.referenced_cells_ h1
        simpa [Cell.body] using this
      have hi : c1.impl_.InvalidateCache = c.impl_.InvalidateCache := by
        have := congrArg Cell.impl_ h1
        simpa [Cell.body] using this
      intro r
      rw [hr, ← Impl.refs_InvalidateCache c1.impl_, hi, Impl.refs_InvalidateCache]
      exact hw.complete p c hc r

theorem reverse_path (s : Sheet D) (hs : Symmetric s) (a b : Position)
    (h : Relation.ReflTransGen (RefEdge s) a b) : Relation.ReflTransGen (DepEdge s) b a := by
  induction h with
  | refl => exact Relation.ReflTransGen.refl
  | tail _ hbc ih => exact Relation.ReflTransGen.head ((hs _ _).1 hbc) ih

theorem forward_path (s : Sheet D) (hs : Symmetric s) (a b : Position)
    (h : Relation.ReflTransGen (DepEdge s) a b) : Relation.ReflTransGen (RefEdge s) b a := by
  induction h with
  | refl => exact Relation.ReflTransGen.refl
  | tail _ hbc ih => exact Relation.ReflTransGen.head ((hs _ _).2 hbc) ih

/-- A path in a graph that extends `E` by edges out of `self` into `R` either
stays in `E` or leads to `self` and leaves a target of a new edge inside `E`. -/
theorem transGen_split (E E1 : Position → Position → Prop) (self : Position) (R : Position → Prop)
    (hE : ∀ a b, E1 a b → E a b ∨ (a = self ∧ R b)) (a b : Position)
    (h : Relation.TransGen E1 a b) :
    Relation.TransGen E a b ∨
      (Relation.ReflTransGen E a self ∧ ∃ r, R r ∧ Relation.ReflTransGen E r b) := by
  induction h with
  | single hab =>
    rcases hE _ _ hab with h1 | ⟨h1, h2⟩
    · exact Or.inl (Relation.TransGen.single h1)
    · right
      exact ⟨h1 ▸ Relation.ReflTransGen.refl, _, h2, Relation.ReflTransGen.refl⟩
  | tail hab hbc ih =>
    rcases hE _ _ hbc with h1 | ⟨h1, h2⟩
    · rcases ih with h3 | ⟨h3, r, hr, h4⟩
      · exact Or.inl (Relation.TransGen.tail h3 h1)
      · exact Or.inr ⟨h3, r, hr, Relation.ReflTransGen.tail h4 h1⟩
    · right
      refine ⟨?_, _, h2, Relation.ReflTransGen.refl⟩
      rcases ih with h3 | ⟨h3, _⟩
      · exact h1 ▸ h3.to_reflTransGen
      · exact h3

theorem present_of_references (s : Sheet D) (a b : Position) (h : b ∈ s.references a) :
    (s.cellAt a).isSome := by
  unfold Sheet.references at h
  cases hc : s.cellAt a with
  | none => simp [hc] at h
  | some c => simp

theorem present_of_dependents (s : Sheet D) (a b : Position) (h : b ∈ s.dependents a) :
    (s.cellAt a).isSome := by
  unfold Sheet.dependents at h
  cases hc : s.cellAt a with
  | none => simp [hc] at h
  | some c => simp

/-- Rewiring the cell at `self` keeps the sheet well formed when no present
referenced cell of the new body is reachable from `self` along dependent edges. -/
theorem WellFormed.rewired (s s1 : Sheet D) (self : Position) (impl : Impl D) (hw : WellFormed s)
    (hself : (s.cellAt self).isSome) (hr : Rewired s self impl s1)
    (hno : ¬ ∃ x ∈ impl.GetReferencedCells, (s.cellAt x).isSome ∧
      Relation.ReflTransGen (DepEdge s) self x) : WellFormed s1 where
  nodup := hr.nodup hw.nodup
  valid := by
    intro p hp
    by_cases hR : p ∈ impl.GetReferencedCells
    · exact hr.refs_valid p hR
    · apply hw.valid p
      intro hn
      exact hp ((hr.find_none p).2 ⟨hn, hR⟩)
  symm := by
    intro c r
    rw [hr.deps]
    by_cases hc : c = self
    · subst hc
      rw [hr.refs_self]
      have := hw.symm c r
      tauto
    · rw [hr.refs_other c r hc]
      have := hw.symm c r
      tauto
  acyclic := by
    intro c hc
    have hE : ∀ a b, RefEdge s1 a b → RefEdge s a b ∨ (a = self ∧ b ∈ impl.GetReferencedCells) := by
      intro a b hab
      by_cases ha : a = self
      · right
        subst ha
        exact ⟨rfl, (hr.refs_self b).1 hab⟩
      · left
        exact (hr.refs_other a b ha).1 hab
    rcases transGen_split (RefEdge s) (RefEdge s1) self (fun b => b ∈ impl.GetReferencedCells) hE c c hc with
      h1 | ⟨h1, r, hrR, h2⟩
    · exact hw.acyclic c h1
    · have hpath : Relation.ReflTransGen (RefEdge s) r self := h2.trans h1
      apply hno
      refine ⟨r, hrR, ?_, reverse_path s hw.symm _ _ hpath⟩
      rcases Relation.ReflTransGen.cases_head hpath with e | ⟨m, hrm, _⟩
      · rw [e]; exact hself
      · exact present_of_references s r m hrm
  complete := by
    intro p c1 hc1 r
    have hrefs : s1.references p = c1.referenced_cells_ := by simp [Sheet.references, hc1]
    rw [← hrefs]
    by_cases hp : p = self
    · subst hp
      rw [hr.refs_self, hr.impl_self c1 hc1]
    · rw [hr.refs_other p r hp, hr.impl_other p c1 hp hc1]
      unfold Sheet.references Sheet.cellOrNew
      cases hc : s.cellAt p with
      | none => simp [Cell.new, Impl.GetReferencedCells]
      | some c => simpa using hw.complete p c hc r

end Invariants

/-! ## Evaluation touches caches only -/

section EvaluationFrame

variable {D : Type}

theorem Outcome.StateSat_bind {σ α β : Type} (o : Outcome σ α) (k : α → σ → Outcome σ β)
    (P Q : σ → Prop) (ho : o.StateSat P) (hPQ : ∀ s, P s → Q s)
    (hk : ∀ a s, P s → (k a s).StateSat Q) : (o.bind k).StateSat Q := by
  intro s hs
  cases o with
  | ok a s1 => exact hk a s1 (ho s1 rfl) s hs
  | throws e s1 =>
    simp only [Outcome.bind, Outcome.state, Option.some.injEq] at hs
    exact hPQ s (hs ▸ ho s1 rfl)
  | nullDeref => simp [Outcome.bind, Outcome.state] at hs
  | outOfFuel => simp [Outcome.bind, Outcome.state] at hs

theorem Outcome.StateSat_ok {σ α : Type} (a : α) (s : σ) (P : σ → Prop) (h : P s) :
    (Outcome.ok a s : Outcome σ α).StateSat P := by
  intro s1 hs
  simp only [Outcome.state, Option.some.injEq] at hs
  exact hs ▸ h

theorem Outcome.StateSat_throws {σ α : Type} (e : Exception) (s : σ) (P : σ → Prop) (h : P s) :
    (Outcome.throws e s : Outcome σ α).StateSat P := by
  intro s1 hs
  simp only [Outcome.state, Option.some.injEq] at hs
  exact hs ▸ h

/-- A step relation on sheets that evaluation can be followed along. -/
theorem Execute_rel (X : Externals D) (Rel : Sheet D → Sheet D → Prop)
    (hrefl : ∀ s, Rel s s) (htrans : ∀ a b c, Rel a b → Rel b c → Rel a c)
    (lookup : Position → Sheet D → Outcome (Sheet D) D)
    (hl : ∀ p s, (lookup p s).StateSat (Rel s)) :
    ∀ (e : Expr D) (s : Sheet D), (e.Execute X lookup s).StateSat (Rel s) := by
  intro e
  induction e with
  | number d => intro s; exact Outcome.StateSat_ok _ _ _ (hrefl s)
  | cell p => intro s; exact hl p s
  | unary op e ih =>
    intro s
    simp only [Expr.Execute]
    exact Outcome.StateSat_bind _ _ (Rel s) (Rel s) (ih s) (fun _ h => h)
      (fun a s1 h => Outcome.StateSat_ok _ _ _ h)
  | binary op l r ihl ihr =>
    intro s
    simp only [Expr.Execute]
    apply Outcome.StateSat_bind _ _ (Rel s) (Rel s) (ihl s) (fun _ h => h)
    intro a s1 h1
    apply Outcome.StateSat_bind _ _ (Rel s) (Rel s) _ (fun _ h => h)
    · intro b s2 h2
      exact Outcome.StateSat_ok _ _ _ h2
    · intro s2 hs2
      exact htrans _ _ _ h1 (ihr s1 s2 hs2)

theorem ExtractValueFromCell_rel (X : Externals D) (Rel : Sheet D → Sheet D → Prop)
    (htrans : ∀ a b c, Rel a b → Rel b c → Rel a c)
    (getValue : Sheet D → Position → Outcome (Sheet D) (CellValue D))
    (hg : ∀ s p, (getValue s p).StateSat (Rel s)) (p : Position) (s : Sheet D) :
    (ExtractValueFromCell X getValue p s).StateSat (Rel s) := by
  unfold ExtractValueFromCell
  apply Outcome.StateSat_bind _ _ (Rel s) (Rel s) (hg s p) (fun _ h => h)
  intro v1 s1 h1
  have step : ∀ (k : CellValue D → Sheet D → Outcome (Sheet D) D) (t : Sheet D), Rel s t →
      (∀ v t1, Rel s t1 → (k v t1).StateSat (Rel s)) → ((getValue t p).bind k).StateSat (Rel s) := by
    intro k t ht hk
    apply Outcome.StateSat_bind _ _ (Rel s) (Rel s) _ (fun _ h => h) hk
    intro t1 ht1
    exact htrans _ _ _ ht (hg t p t1 ht1)
  cases v1 with
  | number d =>
    apply step _ s1 h1
    intro v2 s2 h2
    cases v2 <;> first | exact Outcome.StateSat_ok _ _ _ h2 | exact Outcome.StateSat_throws _ _ _ h2
  | text t =>
    apply step _ s1 h1
    intro v2 s2 h2
    cases v2 with
    | text t2 =>
      apply step _ s2 h2
      intro v3 s3 h3
      cases v3 with
      | text value =>
        simp only
        split
        · exact Outcome.StateSat_ok _ _ _ h3
        · split
          · exact Outcome.StateSat_ok _ _ _ h3
          · exact Outcome.StateSat_throws _ _ _ h3
      | number d => exact Outcome.StateSat_throws _ _ _ h3
      | error c => exact Outcome.StateSat_throws _ _ _ h3
    | number d =>
      apply step _ s2 h2
      intro v3 s3 h3
      cases v3 <;> exact Outcome.StateSat_throws _ _ _ h3
    | error c =>
      apply step _ s2 h2
      intro v3 s3 h3
      cases v3 <;> exact Outcome.StateSat_throws _ _ _ h3
  | error c =>
    apply step _ s1 h1
    intro v2 s2 h2
    cases v2 with
    | text t2 =>
      apply step _ s2 h2
      intro v3 s3 h3
      cases v3 with
      | text value =>
        simp only
        split
        · exact Outcome.StateSat_ok _ _ _ h3
        · split
          · exact Outcome.StateSat_ok _ _ _ h3
          · exact Outcome.StateSat_throws _ _ _ h3
      | number d => exact Outcome.StateSat_throws _ _ _ h3
      | error c => exact Outcome.StateSat_throws _ _ _ h3
    | number d =>
      apply step _ s2 h2
      intro v3 s3 h3
      cases v3 <;> exact Outcome.StateSat_throws _ _ _ h3
    | error c =>
      apply step _ s2 h2
      intro v3 s3 h3
      cases v3 <;> exact Outcome.StateSat_throws _ _ _ h3

theorem lookupValue_rel (X : Externals D) (Rel : Sheet D → Sheet D → Prop)
    (hrefl : ∀ s, Rel s s) (htrans : ∀ a b c, Rel a b → Rel b c → Rel a c)
    (getValue : Sheet D → Position → Outcome (Sheet D) (CellValue D))
    (hg : ∀ s p, (getValue s p).StateSat (Rel s)) (p : Position) (s : Sheet D) :
    (lookupValue X getValue p s).StateSat (Rel s) := by
  unfold lookupValue
  split
  · exact Outcome.StateSat_throws _ _ _ (hrefl s)
  · split
    · exact Outcome.StateSat_ok _ _ _ (hrefl s)
    · exact ExtractValueFromCell_rel X Rel htrans getValue hg p s

theorem Evaluate_rel (X : Externals D) (Rel : Sheet D → Sheet D → Prop)
    (hrefl : ∀ s, Rel s s) (htrans : ∀ a b c, Rel a b → Rel b c → Rel a c)
    (getValue : Sheet D → Position → Outcome (Sheet D) (CellValue D))
    (hg : ∀ s p, (getValue s p).StateSat (Rel s)) (f : FormulaAST D) (s : Sheet D) :
    (Formula.Evaluate X getValue f s).StateSat (Rel s) := by
  have h := Execute_rel X Rel hrefl htrans (lookupValue X getValue)
    (fun p s => lookupValue_rel X Rel hrefl htrans getValue hg p s) f.root s
  unfold Formula.Evaluate
  intro s1 hs1
  cases hx : f.root.Execute X (lookupValue X getValue) s with
  | ok result s2 =>
    simp only [hx] at hs1
    have h2 := h s2 (by simp [hx, Outcome.state])
    split at hs1 <;> simp only [Outcome.state, Option.some.injEq] at hs1 <;> exact hs1 ▸ h2
  | throws e s2 =>
    have h2 := h s2 (by simp [hx, Outcome.state])
    cases e <;> simp only [hx, Outcome.state, Option.some.injEq] at hs1 <;> exact hs1 ▸ h2
  | nullDeref => simp [hx, Outcome.state] at hs1
  | outOfFuel => simp [hx, Outcome.state] at hs1

/-- Whatever `Cell::GetValue` leaves behind is related to the sheet it started
on by any reflexive, transitive relation that holds across a cache assignment. -/
theorem GetValue_rel (X : Externals D) (Rel : Sheet D → Sheet D → Prop)
    (hrefl : ∀ s, Rel s s) (htrans : ∀ a b c, Rel a b → Rel b c → Rel a c)
    (hcache : ∀ s p v, Rel s (s.setCache p v)) :
    ∀ (fuel : Nat) (s : Sheet D) (p : Position), (Cell.GetValue X fuel s p).StateSat (Rel s) := by
  intro fuel
  induction fuel with
  | zero => intro s p s1 h; simp [Cell.GetValue, Outcome.state] at h
  | succ n ih =>
    intro s p
    simp only [Cell.GetValue]
    cases hc : s.cellAt p with
    | none => intro s1 h; simp [Outcome.state] at h
    | some c =>
      simp only
      cases hi : c.impl_ with
      | EmptyImpl => exact Outcome.StateSat_ok _ _ _ (hrefl s)
      | TextImpl t => exact Outcome.StateSat_ok _ _ _ (hrefl s)
      | FormulaImpl f cache_ =>
        simp only
        have hev := Evaluate_rel X Rel hrefl htrans (Cell.GetValue X n) ih f
        apply Outcome.StateSat_bind _ _ (Rel s) (Rel s) _ (fun _ h => h)
        · intro _ s1 h1
          apply Outcome.StateSat_bind _ _ (Rel s) (Rel s) _ (fun _ h => h)
          · intro v s2 h2
            exact Outcome.StateSat_ok _ _ _ h2
          · intro s2 hs2
            exact htrans _ _ _ h1 (hev s1 s2 hs2)
        · cases cache_ with
          | some v => exact Outcome.StateSat_ok _ _ _ (hrefl s)
          | none =>
            simp only
            apply Outcome.StateSat_bind _ _ (Rel s) (Rel s) (hev s) (fun _ h => h)
            intro v s1 h1
            exact Outcome.StateSat_ok _ _ _ (htrans _ _ _ h1 (hcache s1 p v))

theorem Sheet.bodies_setCache (s : Sheet D) (p : Position) (v : FormulaValue D) :
    (s.setCache p v).bodies = s.bodies := by
  unfold Sheet.setCache Sheet.modify
  cases hc : s.cellAt p with
  | none => rfl
  | some c =>
    simp only
    apply Sheet.bodies_store s p c _ hc
    cases hi : c.impl_ <;> simp [Cell.body, hi, Impl.InvalidateCache]

/-- `Cell::GetValue` changes caches only. -/
theorem GetValue_bodies (X : Externals D) (fuel : Nat) (s : Sheet D) (p : Position) :
    (Cell.GetValue X fuel s p).StateSat (fun s1 => s1.bodies = s.bodies) :=
  GetValue_rel X (fun s s1 => s1.bodies = s.bodies) (fun _ => rfl)
    (fun _ _ _ h1 h2 => h2.trans h1) (fun s p v => Sheet.bodies_setCache s p v) fuel s p

end EvaluationFrame

/-! ## Termination of `UpdateDependencies` -/

section Invalidation

variable {D : Type}

theorem cachedCount_le_length (l : List (Position × Option (Cell D))) : cachedCount l ≤ l.length := by
  induction l with
  | nil => simp [cachedCount]
  | cons hd tl ih =>
    obtain ⟨k, v⟩ := hd
    cases v with
    | none => simp only [cachedCount, List.length_cons]; omega
    | some c =>
      have : c.impl_.cachedWeight ≤ 1 := by
        unfold Impl.cachedWeight
        split <;> simp
      simp only [cachedCount, List.length_cons]
      omega

theorem cachedCount_setEntry (l : List (Position × Option (Cell D))) (p : Position) (c c1 : Cell D)
    (h : findEntry l p = some (some c)) :
    cachedCount (setEntry l p (some c1)) + c.impl_.cachedWeight =
      cachedCount l + c1.impl_.cachedWeight := by
  induction l with
  | nil => simp [findEntry] at h
  | cons hd tl ih =>
    obtain ⟨k, v⟩ := hd
    by_cases hk : k = p
    · simp only [findEntry, hk, if_true, Option.some.injEq] at h
      subst h
      simp only [setEntry, hk, if_true, cachedCount]
      omega
    · simp only [findEntry, hk, if_false] at h
      have := ih h
      cases v with
      | none => simp only [setEntry, hk, if_false, cachedCount]; exact this
      | some c2 => simp only [setEntry, hk, if_false, cachedCount]; omega

theorem Impl.cachedWeight_invalidate (i : Impl D) : i.InvalidateCache.cachedWeight = 0 := by
  cases i <;> rfl

theorem Impl.cachedWeight_of_hasCache (f : FormulaAST D) (cache : Option (FormulaValue D))
    (h : (Impl.FormulaImpl f cache).HasCache = true) : (Impl.FormulaImpl f cache).cachedWeight = 1 := by
  cases cache with
  | none => simp [Impl.HasCache] at h
  | some v => rfl

theorem Sheet.IsFormulaAt_of_bodies (s s1 : Sheet D) (h : s1.bodies = s.bodies) (d : Position)
    (hd : s.IsFormulaAt d) : s1.IsFormulaAt d := by
  obtain ⟨c, f, cache, hc, hi⟩ := hd
  have h1 := Sheet.cellAt_of_bodies s s1 h d
  rw [hc] at h1
  cases hc1 : s1.cellAt d with
  | none => simp [hc1] at h1
  | some c1 =>
    simp only [hc1, Option.map_some', Option.some.injEq] at h1
    have h2 : c1.impl_.InvalidateCache = c.impl_.InvalidateCache := by
      have := congrArg Cell.impl_ h1
      simpa [Cell.body] using this
    rw [hi] at h2
    cases hi1 : c1.impl_ with
    | EmptyImpl => simp [hi1, Impl.InvalidateCache] at h2
    | TextImpl t => simp [hi1, Impl.InvalidateCache] at h2
    | FormulaImpl f1 cache1 => exact ⟨c1, f1, cache1, hc1, hi1⟩

theorem Sheet.DepsFormula_of_bodies (s s1 : Sheet D) (h : s1.bodies = s.bodies)
    (hd : s.DepsFormula) : s1.DepsFormula := by
  intro p d hpd
  rw [Sheet.dependents_of_bodies s s1 h] at hpd
  exact Sheet.IsFormulaAt_of_bodies s s1 h d (hd p d hpd)

theorem WellFormed.depsFormula (s : Sheet D) (hw : WellFormed s) : s.DepsFormula := by
  intro p d hpd
  have h1 := (hw.symm d p).2 hpd
  unfold Sheet.references at h1
  cases hc : s.cellAt d with
  | none => simp [hc] at h1
  | some c =>
    simp only [hc] at h1
    have h2 := (hw.complete d c hc p).1 h1
    cases hi : c.impl_ with
    | EmptyImpl => simp [hi, Impl.GetReferencedCells] at h2
    | TextImpl t => simp [hi, Impl.GetReferencedCells] at h2
    | FormulaImpl f cache => exact ⟨c, f, cache, hc, hi⟩

/-- The loop over the dependents inside `UpdateDependencies`, given that every
call of the loop body returns. -/
theorem foldlM_total (n : Nat) (s0 : Sheet D)
    (hstep : ∀ (st : Sheet D) (d : Position), st.bodies = s0.bodies → s0.IsFormulaAt d →
      cachedCount st.cells_ < n →
      ∃ st1, UpdateDependencies n st d false = some st1 ∧ cachedCount st1.cells_ ≤ cachedCount st.cells_) :
    ∀ (l : List Position) (st : Sheet D), (∀ d ∈ l, s0.IsFormulaAt d) → st.bodies = s0.bodies →
      cachedCount st.cells_ < n →
      ∃ st1, l.foldlM (fun st incoming => UpdateDependencies n st incoming false) st = some st1 ∧
        cachedCount st1.cells_ ≤ cachedCount st.cells_ := by
  intro l
  induction l with
  | nil => intro st _ _ _; exact ⟨st, rfl, le_refl _⟩
  | cons d tl ih =>
    intro st hl hb hlt
    obtain ⟨st1, h1, h2⟩ := hstep st d hb (hl d (List.mem_cons_self _ _)) hlt
    have hb1 : st1.bodies = s0.bodies := (UpdateDependencies_bodies _ _ _ _ _ h1).trans hb
    obtain ⟨st2, h3, h4⟩ := ih st1 (fun x hx => hl x (List.mem_cons_of_mem _ hx)) hb1 (by omega)
    refine ⟨st2, ?_, by omega⟩
    simp only [List.foldlM_cons, h1, Option.some_bind]
    exact h3

/-- A nested call of `UpdateDependencies` on a formula cell returns when the
fuel exceeds the number of cached formulas: each level empties one cache. -/
theorem UpdateDependencies_nested (s0 : Sheet D) (hdf : s0.DepsFormula) :
    ∀ (n : Nat) (st : Sheet D) (d : Position), st.bodies = s0.bodies → s0.IsFormulaAt d →
      cachedCount st.cells_ < n →
      ∃ st1, UpdateDependencies n st d false = some st1 ∧ cachedCount st1.cells_ ≤ cachedCount st.cells_ := by
  intro n
  induction n with
  | zero => intro st d _ _ h; omega
  | succ n ih =>
    intro st d hb hd hlt
    obtain ⟨c, f, cache, hc, hi⟩ := Sheet.IsFormulaAt_of_bodies s0 st hb d hd
    simp only [UpdateDependencies, hc, Bool.or_false]
    by_cases hh : c.impl_.HasCache = true
    · simp only [hh, if_true]
      have hw : c.impl_.cachedWeight = 1 := by
        rw [hi] at hh ⊢
        exact Impl.cachedWeight_of_hasCache f cache hh
      have hcount := cachedCount_setEntry st.cells_ d c { c with impl_ := c.impl_.InvalidateCache }
        ((Sheet.cellAt_eq_some_iff st d c).1 hc)
      simp only [Impl.cachedWeight_invalidate, hw] at hcount
      have hb1 : (st.store d { c with impl_ := c.impl_.InvalidateCache }).bodies = s0.bodies := by
        rw [Sheet.bodies_store st d c _ hc (by simp [Cell.body, Impl.InvalidateCache_idem])]
        exact hb
      have hdeps : ∀ x ∈ c.dependent_cells_, s0.IsFormulaAt x := by
        intro x hx
        apply hdf d x
        rw [← Sheet.dependents_of_bodies s0 st hb]
        simp [Sheet.dependents, hc, hx]
      obtain ⟨st1, h1, h2⟩ := foldlM_total n s0 (ih) c.dependent_cells_ _ hdeps hb1
        (by simp only [Sheet.store]; omega)
      refine ⟨st1, h1, ?_⟩
      simp only [Sheet.store] at h2
      omega
    · simp only [hh, Bool.false_eq_true, if_false]
      exact ⟨st, rfl, le_refl _⟩

/-- The forced call of `UpdateDependencies` that ends `Cell::Set` returns on a
sheet whose dependents are formula cells. -/
theorem UpdateDependencies_total (s : Sheet D) (hdf : s.DepsFormula) (self : Position) :
    ∃ s1, UpdateDependencies (updateFuel s) s self true = some s1 := by
  unfold updateFuel
  simp only [UpdateDependencies]
  cases hc : s.cellAt self with
  | none => exact ⟨s, rfl⟩
  | some c =>
    simp only [Bool.or_true, if_true]
    have hcount := cachedCount_setEntry s.cells_ self c { c with impl_ := c.impl_.InvalidateCache }
      ((Sheet.cellAt_eq_some_iff s self c).1 hc)
    simp only [Impl.cachedWeight_invalidate] at hcount
    have hlen := cachedCount_le_length s.cells_
    have hb1 : (s.store self { c with impl_ := c.impl_.InvalidateCache }).bodies = s.bodies :=
      Sheet.bodies_store s self c _ hc (by simp [Cell.body, Impl.InvalidateCache_idem])
    have hdeps : ∀ x ∈ c.dependent_cells_, s.IsFormulaAt x := by
      intro x hx
      apply hdf self x
      simp [Sheet.dependents, hc, hx]
    obtain ⟨st1, h1, _⟩ := foldlM_total (s.cells_.length + 1) s
      (UpdateDependencies_nested s hdf (s.cells_.length + 1)) c.dependent_cells_ _ hdeps hb1
      (by simp only [Sheet.store]; omega)
    exact ⟨st1, h1⟩

end Invalidation

/-! ## The public calls keep the sheet well formed -/

section PublicCalls

variable {D : Type}

theorem Sheet.ensure_cellAt (s : Sheet D) (pos q : Position) :
    (s.ensure pos).cellAt q =
      if q = pos ∧ (s.find pos).isNone = true then some Cell.new else s.cellAt q := by
  unfold Sheet.ensure
  cases hf : s.find pos with
  | none =>
    simp only [Sheet.cellAt_emplace]
    by_cases hq : q = pos <;> simp [hq]
  | some v => simp

theorem WellFormed.ensure (s : Sheet D) (pos : Position) (hw : WellFormed s)
    (hv : pos.IsValid = true) : WellFormed (s.ensure pos) := by
  unfold Sheet.ensure
  cases hf : s.find pos with
  | none => exact WellFormed.emplace s pos hw hv hf
  | some v => exact hw

/-- The three ways `Sheet::SetCell` starts: it rejects an invalid position,
dereferences a null pointer left in the map, or hands over to `Cell::Set` on
a cell that is present. -/
theorem SetCell_cases (X : Externals D) (s : Sheet D) (pos : Position) (text : String) :
    (pos.IsValid = false ∧ Sheet.SetCell X s pos text = .throws .InvalidPositionException s) ∨
    (pos.IsValid = true ∧ s.find pos = some none ∧ Sheet.SetCell X s pos text = .nullDeref) ∨
    (pos.IsValid = true ∧ s.find pos ≠ some none ∧ ((s.ensure pos).cellAt pos).isSome ∧
      Sheet.SetCell X s pos text = Cell.Set X (SetCellFuel X 1) (s.ensure pos) pos text) := by
  by_cases hv : pos.IsValid = true
  · right
    by_cases hf : s.find pos = some none
    · left
      exact ⟨hv, hf, SetCellWith_null X _ s pos text hv hf⟩
    · right
      have hpres : ((s.ensure pos).cellAt pos).isSome := by
        rw [Sheet.ensure_cellAt]
        by_cases hn : s.find pos = none
        · simp [hn]
        · have hn1 : (s.find pos).isNone = false := by
            cases hx : s.find pos with
            | none => exact absurd hx hn
            | some v => rfl
          simp only [hn1, Bool.false_eq_true, and_false, if_false]
          cases hc : s.cellAt pos with
          | some c => simp
          | none =>
            rcases (Sheet.cellAt_eq_none_iff s pos).1 hc with h1 | h1
            · exact absurd h1 hn
            · exact absurd h1 hf
      refine ⟨hv, hf, hpres, ?_⟩
      show Sheet.SetCellWith X (SetCellFuel X 1) s pos text = _
      unfold Sheet.SetCellWith
      cases hc : (s.ensure pos).cellAt pos with
      | none => simp [hc] at hpres
      | some c => simp [hv]
  · left
    have hv1 : pos.IsValid = false := by simpa using hv
    refine ⟨hv1, ?_⟩
    show Sheet.SetCellWith X (SetCellFuel X 1) s pos text = _
    unfold Sheet.SetCellWith
    simp [hv1]

/-- `Cell::Set` on a present cell of a well-formed sheet leaves a well-formed
sheet, whether it returns or throws. -/
theorem Cell.Set_wf (X : Externals D) (setCell : Sheet D → Position → String → Outcome (Sheet D) Unit)
    (hsc : CreatesEmpty setCell) (s : Sheet D) (self : Position) (text : String)
    (hw : WellFormed s) (hself : (s.cellAt self).isSome) :
    (Cell.Set X setCell s self text).StateSat WellFormed := by
  intro s1 hs1
  cases ho : Cell.Set X setCell s self text with
  | ok u s2 =>
    simp only [ho, Outcome.state, Option.some.injEq] at hs1
    subst hs1
    obtain ⟨impl, s3, _, hcheck, hrew, hupd⟩ := Cell.Set_ok X setCell hsc s s2 self text ho
    obtain ⟨b, hb, hiff⟩ := CheckCyclicDependency_spec s self impl hrew.refs_valid
    rw [hcheck] at hb
    simp only [Outcome.ok.injEq, and_true] at hb
    subst hb
    have hno : ¬ ∃ x ∈ impl.GetReferencedCells, (s.cellAt x).isSome ∧
        Relation.ReflTransGen (DepEdge s) self x := by
      intro hex
      have := hiff.2 hex
      simp at this
    have hw3 := WellFormed.rewired s s3 self impl hw hself hrew hno
    exact WellFormed.of_bodies s3 s2 (UpdateDependencies_bodies _ _ _ _ _ hupd) hw3
  | throws e s2 =>
    simp only [ho, Outcome.state, Option.some.injEq] at hs1
    subst hs1
    rw [Cell.Set_throws X setCell hsc s s2 self text e hself ho]
    exact hw
  | nullDeref => simp [ho, Outcome.state] at hs1
  | outOfFuel => simp [ho, Outcome.state] at hs1

/-- `Cell::Set` returns when the body can be built, its positions are valid,
none of them has an entry holding a null pointer and no cycle would close. -/
theorem Cell.Set_returns (X : Externals D) (setCell : Sheet D → Position → String → Outcome (Sheet D) Unit)
    (hsc : CreatesEmpty setCell) (s : Sheet D) (self : Position) (text : String) (impl : Impl D)
    (hw : WellFormed s) (hself : (s.cellAt self).isSome) (hb : buildImpl X text = .ok impl)
    (hvalid : ∀ q ∈ impl.GetReferencedCells, q.IsValid = true)
    (hnonull : ∀ q ∈ impl.GetReferencedCells, s.find q ≠ some none)
    (hno : ¬ ∃ x ∈ impl.GetReferencedCells, (s.cellAt x).isSome ∧
      Relation.ReflTransGen (DepEdge s) self x) :
    ∃ s1, Cell.Set X setCell s self text = .ok () s1 := by
  unfold Cell.Set
  rw [hb]
  obtain ⟨b, hcheck, hiff⟩ := CheckCyclicDependency_spec s self impl hvalid
  have hbf : b = false := by
    cases b with
    | false => rfl
    | true => exact absurd (hiff.1 rfl) hno
  subst hbf
  simp only [hcheck, Outcome.bind, Bool.false_eq_true, if_false]
  rcases UpdateReferences_outcome setCell hsc s self impl hself hvalid with ⟨⟨s2, hu⟩, _⟩ | ⟨_, q, hq, hqn⟩
  · simp only [hu]
    have hw2 := WellFormed.rewired s s2 self impl hw hself
      (UpdateReferences_ok setCell hsc s s2 self impl hu) hno
    obtain ⟨s3, h3⟩ := UpdateDependencies_total s2 (WellFormed.depsFormula s2 hw2) self
    exact ⟨s3, by simp [h3]⟩
  · exact absurd hqn (hnonull q hq)

/-- On a well-formed sheet `Cell::Set` never exhausts the fuel of the model. -/
theorem Cell.Set_fuel (X : Externals D) (setCell : Sheet D → Position → String → Outcome (Sheet D) Unit)
    (hsc : CreatesEmpty setCell) (s : Sheet D) (self : Position) (text : String)
    (hw : WellFormed s) (hself : (s.cellAt self).isSome) :
    Cell.Set X setCell s self text ≠ .outOfFuel := by
  intro ho
  unfold Cell.Set at ho
  cases hb : buildImpl X text with
  | error e => simp [hb] at ho
  | ok impl =>
    simp only [hb] at ho
    rcases CheckCyclicDependency_cases s self impl with ⟨b, hc, hvalid⟩ | ⟨hc, _⟩
    · obtain ⟨b1, hc1, hiff⟩ := CheckCyclicDependency_spec s self impl hvalid
      rw [hc] at hc1
      simp only [Outcome.ok.injEq, and_true] at hc1
      subst hc1
      rw [hc] at ho
      simp only [Outcome.bind] at ho
      cases b with
      | true => simp at ho
      | false =>
        simp only [Bool.false_eq_true, if_false] at ho
        have hno : ¬ ∃ x ∈ impl.GetReferencedCells, (s.cellAt x).isSome ∧
            Relation.ReflTransGen (DepEdge s) self x := by
          intro hex
          have := hiff.2 hex
          simp at this
        rcases UpdateReferences_outcome setCell hsc s self impl hself hvalid with ⟨⟨s2, hu⟩, _⟩ | ⟨hu, _⟩
        · rw [hu] at ho
          have hw2 := WellFormed.rewired s s2 self impl hw hself
            (UpdateReferences_ok setCell hsc s s2 self impl hu) hno
          obtain ⟨s3, h3⟩ := UpdateDependencies_total s2 (WellFormed.depsFormula s2 hw2) self
          simp [h3] at ho
        · rw [hu] at ho
          simp at ho
    · rw [hc] at ho
      simp [Outcome.bind] at ho

theorem SetCell_wf (X : Externals D) (s : Sheet D) (pos : Position) (text : String)
    (hw : WellFormed s) : (Sheet.SetCell X s pos text).StateSat WellFormed := by
  rcases SetCell_cases X s pos text with ⟨_, h⟩ | ⟨_, _, h⟩ | ⟨hv, _, hpres, h⟩
  · rw [h]; exact Outcome.StateSat_throws _ _ _ hw
  · rw [h]; intro s1 hs1; simp [Outcome.state] at hs1
  · rw [h]
    exact Cell.Set_wf X _ (SetCellFuel_createsEmpty X 0) _ pos text (WellFormed.ensure s pos hw hv) hpres

theorem Sheet.references_reset (s : Sheet D) (p q : Position) :
    (s.reset p).references q = if q = p then [] else s.references q := by
  unfold Sheet.references
  rw [Sheet.cellAt_reset]
  by_cases h : q = p <;> simp [h]

theorem Sheet.dependents_reset (s : Sheet D) (p q : Position) :
    (s.reset p).dependents q = if q = p then [] else s.dependents q := by
  unfold Sheet.dependents
  rw [Sheet.cellAt_reset]
  by_cases h : q = p <;> simp [h]

/-- Resetting the pointer of a cell that has no edges keeps the sheet well formed. -/
theorem WellFormed.reset (s : Sheet D) (p : Position) (hw : WellFormed s)
    (hrefs : s.references p = []) (hdeps : s.dependents p = []) : WellFormed (s.reset p) where
  nodup := by
    simp only [Sheet.reset, keys_setEntry]
    exact hw.nodup
  valid := by
    intro q hq
    apply hw.valid q
    intro hn
    apply hq
    rw [Sheet.find_reset]
    by_cases e : q = p
    · subst e; simp [hn]
    · simp [e, hn]
  symm := by
    intro c r
    rw [Sheet.references_reset, Sheet.dependents_reset]
    have h := hw.symm c r
    by_cases hc : c = p
    · subst hc
      rw [hrefs] at h
      by_cases hr : r = c
      · simp [hr]
      · simp only [if_true, hr, if_false, List.not_mem_nil, false_iff]
        exact fun hx => by simpa using h.2 hx
    · by_cases hr : r = p
      · subst hr
        rw [hdeps] at h
        simp only [hc, if_false, if_true, List.not_mem_nil, iff_false]
        exact fun hx => by simpa using h.1 hx
      · simp only [hc, hr, if_false]
        exact h
  acyclic := by
    apply acyclic_of_references s _ _ hw.acyclic
    intro a b hab
    rw [Sheet.references_reset] at hab
    by_cases e : a = p
    · simp [e] at hab
    · simpa [e] using hab
  complete := by
    intro q c hc
    rw [Sheet.cellAt_reset] at hc
    by_cases e : q = p
    · simp [e] at hc
    · simp only [e, if_false] at hc
      exact hw.complete q c hc

/-- What `Cell::Clear` makes of a present cell: the call returns, the body is
empty, the reference set is empty and the dependent set is as before. -/
theorem Cell.Clear_spec (X : Externals D) (s : Sheet D) (self : Position) (hw : WellFormed s)
    (hself : (s.cellAt self).isSome) :
    ∃ s1 s2, Cell.Clear X s self = .ok () s1 ∧ Rewired s self .EmptyImpl s2 ∧
      s1.bodies = s2.bodies ∧ WellFormed s1 := by
  have hsc := SetCell_createsEmpty X
  obtain ⟨s1, ho⟩ := Cell.Set_returns X (Sheet.SetCell X) hsc s self "" .EmptyImpl hw hself
    (buildImpl_empty X) (by simp [Impl.GetReferencedCells]) (by simp [Impl.GetReferencedCells])
    (by simp [Impl.GetReferencedCells])
  obtain ⟨impl, s2, hb, _, hrew, hupd⟩ := Cell.Set_ok X _ hsc s s1 self "" ho
  rw [buildImpl_empty] at hb
  simp only [Except.ok.injEq] at hb
  subst hb
  refine ⟨s1, s2, ho, hrew, UpdateDependencies_bodies _ _ _ _ _ hupd, ?_⟩
  exact Cell.Set_wf X _ hsc s self "" hw hself s1 (by rw [ho]; rfl)

/-- `Sheet::ClearCell` on a valid position of a well-formed sheet returns.  The
cell is gone afterwards exactly when its dependent set was empty (an absent cell
has none); otherwise it stays, empty, with the same dependents. -/
theorem ClearCell_spec (X : Externals D) (s : Sheet D) (pos : Position) (hw : WellFormed s)
    (hv : pos.IsValid = true) :
    ∃ s1, Sheet.ClearCell X s pos = .ok () s1 ∧ WellFormed s1 ∧
      (s1.cellAt pos = none ↔ s.dependents pos = []) ∧
      (∀ c1, s1.cellAt pos = some c1 → c1.impl_ = .EmptyImpl ∧ c1.referenced_cells_ = [] ∧
        ∀ d, d ∈ c1.dependent_cells_ ↔ d ∈ s.dependents pos) := by
  unfold Sheet.ClearCell
  simp only [hv, Bool.not_true, Bool.false_eq_true, if_false]
  cases hc : s.cellAt pos with
  | none =>
    have hdep : s.dependents pos = [] := by simp [Sheet.dependents, hc]
    have hres : (match s.find pos with
        | some (some _) =>
          (Cell.Clear X s pos).bind (fun _ s1 =>
            if !(Cell.IsReferenced s1 pos) then .ok () (s1.reset pos) else .ok () s1)
        | _ => Outcome.ok () s) = Outcome.ok () s := by
      rcases (Sheet.cellAt_eq_none_iff s pos).1 hc with h | h <;> simp [h]
    rw [hres]
    exact ⟨s, rfl, hw, by simp [hc, hdep], by simp [hc]⟩
  | some c =>
    have hf := (Sheet.cellAt_eq_some_iff s pos c).1 hc
    simp only [hf]
    obtain ⟨s1, s2, hclear, hrew, hbod, hw1⟩ := Cell.Clear_spec X s pos hw (by simp [hc])
    simp only [hclear, Outcome.bind]
    have hself_not : pos ∉ s.references pos := by
      intro h
      exact hw.acyclic pos (Relation.TransGen.single h)
    have hdeps : ∀ d, d ∈ s1.dependents pos ↔ d ∈ s.dependents pos := by
      intro d
      rw [Sheet.dependents_of_bodies s2 s1 hbod, hrew.deps]
      simp only [Impl.GetReferencedCells, List.not_mem_nil, and_false, or_false]
      constructor
      · exact fun h => h.1
      · exact fun h => ⟨h, fun h2 => hself_not h2.2⟩
    have hrefs : s1.references pos = [] := by
      rw [Sheet.references_of_bodies s2 s1 hbod]
      apply List.eq_nil_iff_forall_not_mem.2
      intro r hr
      have := (hrew.refs_self r).1 hr
      simp [Impl.GetReferencedCells] at this
    have hpres1 : ∃ c1, s1.cellAt pos = some c1 := by
      cases h1 : s1.cellAt pos with
      | some c1 => exact ⟨c1, rfl⟩
      | none =>
        exfalso
        have h2 := Sheet.cellAt_of_bodies s2 s1 hbod pos
        rw [h1] at h2
        simp only [Option.map_none'] at h2
        have h3 : s2.cellAt pos = none := by
          cases h4 : s2.cellAt pos with
          | none => rfl
          | some c2 => simp [h4] at h2
        rcases (Sheet.cellAt_eq_none_iff s2 pos).1 h3 with h5 | h5
        · have := ((hrew.find_none pos).1 h5).1
          simp [hf] at this
        · have := (hrew.find_null pos).1 h5
          simp [hf] at this
    obtain ⟨c1, hc1⟩ := hpres1
    have himpl : c1.impl_ = .EmptyImpl := by
      have h2 := Sheet.cellAt_of_bodies s2 s1 hbod pos
      rw [hc1] at h2
      cases h4 : s2.cellAt pos with
      | none => simp [h4] at h2
      | some c2 =>
        simp only [h4, Option.map_some', Option.some.injEq] at h2
        have h5 := hrew.impl_self c2 h4
        have h6 : c1.impl_.InvalidateCache = c2.impl_.InvalidateCache := by
          have := congrArg Cell.impl_ h2
          simpa [Cell.body] using this
        rw [h5] at h6
        cases h7 : c1.impl_ <;> simp [h7, Impl.InvalidateCache] at h6 ⊢
    have hdl : s1.dependents pos = c1.dependent_cells_ := by simp [Sheet.dependents, hc1]
    have hrl : s1.references pos = c1.referenced_cells_ := by simp [Sheet.references, hc1]
    by_cases hemp : s.dependents pos = []
    · have hemp1 : s1.dependents pos = [] := by
        apply List.eq_nil_iff_forall_not_mem.2
        intro d hd
        have := (hdeps d).1 hd
        simp [hemp] at this
      have href : Cell.IsReferenced s1 pos = false := by simp [Cell.IsReferenced, hemp1]
      simp only [href, Bool.not_false, if_true]
      refine ⟨s1.reset pos, rfl, WellFormed.reset s1 pos hw1 hrefs hemp1, ?_, ?_⟩
      · simp [Sheet.cellAt_reset, hemp]
      · intro c2 hc2
        simp [Sheet.cellAt_reset] at hc2
    · have hemp1 : s1.dependents pos ≠ [] := by
        intro h1
        apply hemp
        apply List.eq_nil_iff_forall_not_mem.2
        intro d hd
        have := (hdeps d).2 hd
        simp [h1] at this
      have href : Cell.IsReferenced s1 pos = true := by
        simp only [Cell.IsReferenced, Bool.not_eq_true', List.isEmpty_eq_false]
        cases h9 : s1.dependents pos with
        | nil => exact absurd h9 hemp1
        | cons a tl => simp
      simp only [href, Bool.not_true, Bool.false_eq_true, if_false]
      refine ⟨s1, rfl, hw1, ?_, ?_⟩
      · simp [hc1, hemp]
      · intro c2 hc2
        rw [hc1] at hc2
        simp only [Option.some.injEq] at hc2
        subst hc2
        refine ⟨himpl, ?_, ?_⟩
        · rw [← hrl]; exact hrefs
        · intro d; rw [← hdl]; exact hdeps d

theorem ClearCell_invalid (X : Externals D) (s : Sheet D) (pos : Position) (hv : pos.IsValid = false) :
    Sheet.ClearCell X s pos = .throws .InvalidPositionException s := by
  unfold Sheet.ClearCell
  simp [hv]

theorem ClearCell_wf (X : Externals D) (s : Sheet D) (pos : Position) (hw : WellFormed s) :
    (Sheet.ClearCell X s pos).StateSat WellFormed := by
  by_cases hv : pos.IsValid = true
  · obtain ⟨s1, h1, hw1, _⟩ := ClearCell_spec X s pos hw hv
    rw [h1]
    exact Outcome.StateSat_ok _ _ _ hw1
  · have hv1 : pos.IsValid = false := by simpa using hv
    rw [ClearCell_invalid X s pos hv1]
    exact Outcome.StateSat_throws _ _ _ hw

theorem GetValue_wf (X : Externals D) (s : Sheet D) (pos : Position) (hw : WellFormed s) :
    (Sheet.GetValue X s pos).StateSat WellFormed := by
  unfold Sheet.GetValue
  split
  · exact Outcome.StateSat_throws _ _ _ hw
  · intro s1 hs1
    exact WellFormed.of_bodies s s1 (GetValue_bodies X _ s pos s1 hs1) hw

theorem Op.apply_wf (X : Externals D) (s s1 : Sheet D) (op : Op) (hw : WellFormed s)
    (h : op.apply X s = some s1) : WellFormed s1 := by
  cases op with
  | SetCell pos text => exact SetCell_wf X s pos text hw s1 h
  | ClearCell pos => exact ClearCell_wf X s pos hw s1 h
  | GetValue pos => exact GetValue_wf X s pos hw s1 h

/-- Every sheet a sequence of calls leaves behind is well formed. -/
theorem runOps_wf (X : Externals D) : ∀ (ops : List Op) (s s1 : Sheet D), WellFormed s →
    runOps X ops s = some s1 → WellFormed s1 := by
  intro ops
  induction ops with
  | nil =>
    intro s s1 hw h
    simp only [runOps, Option.some.injEq] at h
    exact h ▸ hw
  | cons op rest ih =>
    intro s s1 hw h
    simp only [runOps] at h
    cases ha : op.apply X s with
    | none => simp [ha] at h
    | some s2 =>
      simp only [ha] at h
      exact ih s2 s1 (Op.apply_wf X s s2 op hw ha) h

end PublicCalls

/-! ## The printable size -/

section PrintableSize

variable {D : Type}

theorem printable_fold (l : List (Position × Option (Cell D))) :
    ∀ (r0 : Size),
      (r0.rows ≤ (l.foldl (fun result it =>
          match it.2 with
          | some _ => { rows := max result.rows (it.1.row + 1), cols := max result.cols (it.1.col + 1) }
          | none => result) r0).rows ∧
        r0.cols ≤ (l.foldl (fun result it =>
          match it.2 with
          | some _ => { rows := max result.rows (it.1.row + 1), cols := max result.cols (it.1.col + 1) }
          | none => result) r0).cols) ∧
      (∀ k c, (k, some c) ∈ l →
        k.row + 1 ≤ (l.foldl (fun result it =>
          match it.2 with
          | some _ => { rows := max result.rows (it.1.row + 1), cols := max result.cols (it.1.col + 1) }
          | none => result) r0).rows ∧
        k.col + 1 ≤ (l.foldl (fun result it =>
          match it.2 with
          | some _ => { rows := max result.rows (it.1.row + 1), cols := max result.cols (it.1.col + 1) }
          | none => result) r0).cols) ∧
      ((l.foldl (fun result it =>
          match it.2 with
          | some _ => { rows := max result.rows (it.1.row + 1), cols := max result.cols (it.1.col + 1) }
          | none => result) r0).rows = r0.rows ∨
        ∃ k c, (k, some c) ∈ l ∧ (l.foldl (fun result it =>
          match it.2 with
          | some _ => { rows := max result.rows (it.1.row + 1), cols := max result.cols (it.1.col + 1) }
          | none => result) r0).rows = k.row + 1) ∧
      ((l.foldl (fun result it =>
          match it.2 with
          | some _ => { rows := max result.rows (it.1.row + 1), cols := max result.cols (it.1.col + 1) }
          | none => result) r0).cols = r0.cols ∨
        ∃ k c, (k, some c) ∈ l ∧ (l.foldl (fun result it =>
          match it.2 with
          | some _ => { rows := max result.rows (it.1.row + 1), cols := max result.cols (it.1.col + 1) }
          | none => result) r0).cols = k.col + 1) := by
  induction l with
  | nil => intro r0; simp
  | cons hd tl ih =>
    intro r0
    obtain ⟨k0, v⟩ := hd
    cases v with
    | none =>
      obtain ⟨h1, h2, h3, h4⟩ := ih r0
      simp only [List.foldl_cons]
      refine ⟨h1, ?_, ?_, ?_⟩
      · intro k c hkc
        rcases List.mem_cons.1 hkc with e | e
        · simp at e
        · exact h2 k c e
      · rcases h3 with h | ⟨k, c, hkc, h⟩
        · exact Or.inl h
        · exact Or.inr ⟨k, c, List.mem_cons_of_mem _ hkc, h⟩
      · rcases h4 with h | ⟨k, c, hkc, h⟩
        · exact Or.inl h
        · exact Or.inr ⟨k, c, List.mem_cons_of_mem _ hkc, h⟩
    | some c0 =>
      obtain ⟨h1, h2, h3, h4⟩ := ih { rows := max r0.rows (k0.row + 1), cols := max r0.cols (k0.col + 1) }
      simp only [List.foldl_cons]
      simp only at h1 h3 h4
      refine ⟨⟨le_trans (le_max_left _ _) h1.1, le_trans (le_max_left _ _) h1.2⟩, ?_, ?_, ?_⟩
      · intro k c hkc
        rcases List.mem_cons.1 hkc with e | e
        · simp only [Prod.mk.injEq, Option.some.injEq] at e
          rw [e.1]
          exact ⟨le_trans (le_max_right _ _) h1.1, le_trans (le_max_right _ _) h1.2⟩
        · exact h2 k c e
      · rcases h3 with h | ⟨k, c, hkc, h⟩
        · rcases max_choice r0.rows (k0.row + 1) with hm | hm
          · left; rw [h, hm]
          · right; exact ⟨k0, c0, List.mem_cons_self _ _, by rw [h, hm]⟩
        · exact Or.inr ⟨k, c, List.mem_cons_of_mem _ hkc, h⟩
      · rcases h4 with h | ⟨k, c, hkc, h⟩
        · rcases max_choice r0.cols (k0.col + 1) with hm | hm
          · left; rw [h, hm]
          · right; exact ⟨k0, c0, List.mem_cons_self _ _, by rw [h, hm]⟩
        · exact Or.inr ⟨k, c, List.mem_cons_of_mem _ hkc, h⟩

theorem IsValid_nonneg (p : Position) (h : p.IsValid = true) : 0 ≤ p.row ∧ 0 ≤ p.col := by
  unfold Position.IsValid at h
  simp only [Bool.and_eq_true, decide_eq_true_eq] at h
  exact ⟨h.1.1.1, h.1.1.2⟩

/-- The printable size of a well-formed sheet is the bounding box of all its
present cells. -/
theorem printable_size_wf (s : Sheet D) (hw : WellFormed s) :
    (∀ p, (s.cellAt p).isSome →
      p.row + 1 ≤ s.GetPrintableSize.rows ∧ p.col + 1 ≤ s.GetPrintableSize.cols) ∧
    ((∃ p, (s.cellAt p).isSome) →
      (∃ p, (s.cellAt p).isSome ∧ s.GetPrintableSize.rows = p.row + 1) ∧
      (∃ p, (s.cellAt p).isSome ∧ s.GetPrintableSize.cols = p.col + 1)) ∧
    ((∀ p, s.cellAt p = none) → s.GetPrintableSize = { rows := 0, cols := 0 }) := by
  obtain ⟨_, h2, h3, h4⟩ := printable_fold s.cells_ { rows := 0, cols := 0 }
  have hmem : ∀ k c, (k, some c) ∈ s.cells_ → s.cellAt k = some c := by
    intro k c hkc
    rw [Sheet.cellAt_eq_some_iff]
    exact findEntry_of_mem s.cells_ k (some c) hw.nodup hkc
  have hbound : ∀ p, (s.cellAt p).isSome →
      p.row + 1 ≤ s.GetPrintableSize.rows ∧ p.col + 1 ≤ s.GetPrintableSize.cols := by
    intro p hp
    cases hc : s.cellAt p with
    | none => simp [hc] at hp
    | some c =>
      exact h2 p c (findEntry_mem _ _ _ ((Sheet.cellAt_eq_some_iff s p c).1 hc))
  refine ⟨hbound, ?_, ?_⟩
  · rintro ⟨p, hp⟩
    have hb := hbound p hp
    have hv : p.IsValid = true := by
      apply hw.valid p
      intro hn
      have := (Sheet.cellAt_eq_none_iff s p).2 (Or.inl hn)
      simp [this] at hp
    have hnn := IsValid_nonneg p hv
    constructor
    · rcases h3 with h | ⟨k, c, hkc, h⟩
      · exfalso
        have : s.GetPrintableSize.rows = 0 := h
        omega
      · exact ⟨k, by simp [hmem k c hkc], h⟩
    · rcases h4 with h | ⟨k, c, hkc, h⟩
      · exfalso
        have : s.GetPrintableSize.cols = 0 := h
        omega
      · exact ⟨k, by simp [hmem k c hkc], h⟩
  · intro hnone
    have hr : s.GetPrintableSize.rows = 0 := by
      rcases h3 with h | ⟨k, c, hkc, _⟩
      · exact h
      · have := hmem k c hkc
        rw [hnone k] at this
        simp at this
    have hcl : s.GetPrintableSize.cols = 0 := by
      rcases h4 with h | ⟨k, c, hkc, _⟩
      · exact h
      · have := hmem k c hkc
        rw [hnone k] at this
        simp at this
    cases hsz : s.GetPrintableSize with
    | mk r c =>
      rw [hsz] at hr hcl
      simp only at hr hcl
      rw [hr, hcl]

end PrintableSize

/-! ## What `UpdateDependencies` invalidates -/

section InvalidationPost

variable {D : Type}

theorem Sheet.implAt_store (s : Sheet D) (p q : Position) (c : Cell D) (hp : s.find p ≠ none) :
    (s.store p c).implAt q = if q = p then c.impl_ else s.implAt q := by
  unfold Sheet.implAt Sheet.cellOrNew
  rw [Sheet.cellAt_store s p q c hp]
  by_cases h : q = p <;> simp [h]

theorem Sheet.implAt_of_cellAt (s : Sheet D) (q : Position) (c : Cell D) (h : s.cellAt q = some c) :
    s.implAt q = c.impl_ := by
  simp [Sheet.implAt, Sheet.cellOrNew, h]

theorem Sheet.implAt_absent (s : Sheet D) (q : Position) (h : s.cellAt q = none) :
    s.implAt q = .EmptyImpl := by
  simp [Sheet.implAt, Sheet.cellOrNew, h, Cell.new]

theorem Impl.cachedWeight_eq_one_iff (i : Impl D) :
    i.cachedWeight = 1 ↔ ∃ f v, i = .FormulaImpl f (some v) := by
  cases i with
  | EmptyImpl => simp [Impl.cachedWeight]
  | TextImpl t => simp [Impl.cachedWeight]
  | FormulaImpl f cache =>
    cases cache with
    | none => simp [Impl.cachedWeight]
    | some v => simp [Impl.cachedWeight]

theorem HoldsCache_mono (s s1 : Sheet D) (q : Position)
    (h : s1.implAt q = s.implAt q ∨ s1.implAt q = (s.implAt q).InvalidateCache)
    (hc : s1.HoldsCache q) : s.HoldsCache q := by
  unfold Sheet.HoldsCache at hc ⊢
  rcases h with h | h
  · rw [← h]; exact hc
  · rw [h, Impl.cachedWeight_invalidate] at hc
    omega

theorem implAt_step_trans (a b c : Impl D)
    (h1 : b = a ∨ b = a.InvalidateCache) (h2 : c = b ∨ c = b.InvalidateCache) :
    c = a ∨ c = a.InvalidateCache := by
  rcases h1 with h1 | h1 <;> rcases h2 with h2 | h2
  · left; rw [h2, h1]
  · right; rw [h2, h1]
  · right; rw [h2, h1]
  · right; rw [h2, h1, Impl.InvalidateCache_idem]

/-- The loop over the dependents inside `UpdateDependencies`: no cache is
filled, every listed cell ends without a cache, and so does every dependent of
a cell whose cache the loop emptied. -/
theorem foldlM_post (n : Nat)
    (ih : ∀ (s : Sheet D) (x : Position) (s1 : Sheet D),
      UpdateDependencies n s x false = some s1 →
      (∀ q, s1.implAt q = s.implAt q ∨ s1.implAt q = (s.implAt q).InvalidateCache) ∧
      ¬ s1.HoldsCache x ∧
      (∀ q d, d ∈ s.dependents q → (s.HoldsCache q ∧ ¬ s1.HoldsCache q) → ¬ s1.HoldsCache d)) :
    ∀ (l : List Position) (st st1 : Sheet D),
      l.foldlM (fun st incoming => UpdateDependencies n st incoming false) st = some st1 →
      (∀ q, st1.implAt q = st.implAt q ∨ st1.implAt q = (st.implAt q).InvalidateCache) ∧
      (∀ d ∈ l, ¬ st1.HoldsCache d) ∧
      (∀ q d, d ∈ st.dependents q → (st.HoldsCache q ∧ ¬ st1.HoldsCache q) → ¬ st1.HoldsCache d) := by
  intro l
  induction l with
  | nil =>
    intro st st1 h
    simp only [List.foldlM_nil, Option.pure_def, Option.some.injEq] at h
    subst h
    exact ⟨fun q => Or.inl rfl, by simp, fun q d _ hq => absurd hq.1 hq.2⟩
  | cons x tl ihl =>
    intro st st1 h
    simp only [List.foldlM_cons] at h
    cases hx : UpdateDependencies n st x false with
    | none => simp [hx] at h
    | some st2 =>
      simp only [hx, Option.some_bind] at h
      obtain ⟨a1, a2, a3⟩ := ih st x st2 hx
      obtain ⟨b1, b2, b3⟩ := ihl st2 st1 h
      have hdeps : ∀ q, st2.dependents q = st.dependents q :=
        fun q => Sheet.dependents_of_bodies st st2 (UpdateDependencies_bodies _ _ _ _ _ hx) q
      refine ⟨fun q => implAt_step_trans _ _ _ (a1 q) (b1 q), ?_, ?_⟩
      · intro d hd hcache
        rcases List.mem_cons.1 hd with e | e
        · subst e
          exact a2 (HoldsCache_mono st2 st1 d (b1 d) hcache)
        · exact b2 d e hcache
      · intro q d hd hq hcache
        by_cases h2 : st2.HoldsCache q
        · exact b3 q d (by rw [hdeps]; exact hd) ⟨h2, hq.2⟩ hcache
        · exact a3 q d hd ⟨hq.1, h2⟩ (HoldsCache_mono st2 st1 d (b1 d) hcache)

/-- What a call of `UpdateDependencies` on `x` leaves: no cache is filled, `x`
holds none, and neither does any dependent of a cell whose cache the call
emptied, nor any dependent of `x` when the call is forced. -/
theorem UpdateDependencies_post :
    ∀ (fuel : Nat) (s : Sheet D) (x : Position) (force : Bool) (s1 : Sheet D),
      UpdateDependencies fuel s x force = some s1 →
      (∀ q, s1.implAt q = s.implAt q ∨ s1.implAt q = (s.implAt q).InvalidateCache) ∧
      ¬ s1.HoldsCache x ∧
      (∀ q d, d ∈ s.dependents q →
        ((force = true ∧ q = x) ∨ (s.HoldsCache q ∧ ¬ s1.HoldsCache q)) → ¬ s1.HoldsCache d) := by
  intro fuel
  induction fuel with
  | zero => intro s x force s1 h; simp [UpdateDependencies] at h
  | succ n ih =>
    intro s x force s1 h
    simp only [UpdateDependencies] at h
    cases hc : s.cellAt x with
    | none =>
      simp only [hc, Option.some.injEq] at h
      subst h
      refine ⟨fun q => Or.inl rfl, ?_, ?_⟩
      · simp [Sheet.HoldsCache, Sheet.implAt_absent s x hc, Impl.cachedWeight]
      · intro q d hd hq
        rcases hq with ⟨_, hq⟩ | hq
        · subst hq
          simp [Sheet.dependents, hc] at hd
        · exact absurd hq.1 hq.2
    | some c =>
      simp only [hc] at h
      have hfind := Sheet.find_ne_none_of_cellAt s x c hc
      by_cases hg : (c.impl_.HasCache || force) = true
      · simp only [hg, if_true] at h
        have ihf : ∀ (s : Sheet D) (x : Position) (s1 : Sheet D),
            UpdateDependencies n s x false = some s1 →
            (∀ q, s1.implAt q = s.implAt q ∨ s1.implAt q = (s.implAt q).InvalidateCache) ∧
            ¬ s1.HoldsCache x ∧
            (∀ q d, d ∈ s.dependents q → (s.HoldsCache q ∧ ¬ s1.HoldsCache q) → ¬ s1.HoldsCache d) := by
          intro s x s1 hs
          obtain ⟨c1, c2, c3⟩ := ih s x false s1 hs
          exact ⟨c1, c2, fun q d hd hq => c3 q d hd (Or.inr hq)⟩
        obtain ⟨b1, b2, b3⟩ := foldlM_post n ihf _ _ _ h
        have hstore : ∀ q, (s.store x { c with impl_ := c.impl_.InvalidateCache }).implAt q =
            s.implAt q ∨ (s.store x { c with impl_ := c.impl_.InvalidateCache }).implAt q =
              (s.implAt q).InvalidateCache := by
          intro q
          rw [Sheet.implAt_store s x q _ hfind]
          by_cases hq : q = x
          · subst hq
            right
            simp [Sheet.implAt_of_cellAt s q c hc]
          · left; simp [hq]
        have hsx : ¬ (s.store x { c with impl_ := c.impl_.InvalidateCache }).HoldsCache x := by
          unfold Sheet.HoldsCache
          rw [Sheet.implAt_store s x x _ hfind]
          simp [Impl.cachedWeight_invalidate]
        have hbod : (s.store x { c with impl_ := c.impl_.InvalidateCache }).bodies = s.bodies :=
          Sheet.bodies_store s x c _ hc (by simp [Cell.body, Impl.InvalidateCache_idem])
        have hdeps : ∀ q, (s.store x { c with impl_ := c.impl_.InvalidateCache }).dependents q =
            s.dependents q := fun q => Sheet.dependents_of_bodies s _ hbod q
        have hdx : s.dependents x = c.dependent_cells_ := by simp [Sheet.dependents, hc]
        refine ⟨fun q => implAt_step_trans _ _ _ (hstore q) (b1 q), ?_, ?_⟩
        · intro hcache
          exact hsx (HoldsCache_mono _ s1 x (b1 x) hcache)
        · intro q d hd hq
          by_cases hqx : q = x
          · subst hqx
            rw [hdx] at hd
            exact b2 d hd
          · rcases hq with ⟨_, hq⟩ | hq
            · exact absurd hq hqx
            · apply b3 q d (by rw [hdeps]; exact hd)
              refine ⟨?_, hq.2⟩
              unfold Sheet.HoldsCache
              rw [Sheet.implAt_store s x q _ hfind]
              simp only [hqx, if_false]
              exact hq.1
      · simp only [hg, Bool.false_eq_true, if_false, Option.some.injEq] at h
        subst h
        simp only [Bool.or_eq_true, not_or, Bool.not_eq_true] at hg
        refine ⟨fun q => Or.inl rfl, ?_, ?_⟩
        · unfold Sheet.HoldsCache
          rw [Sheet.implAt_of_cellAt s x c hc]
          intro hw
          obtain ⟨f, v, hfv⟩ := (Impl.cachedWeight_eq_one_iff c.impl_).1 hw
          rw [hfv] at hg
          simp [Impl.HasCache] at hg
        · intro q d hd hq
          rcases hq with ⟨hf, _⟩ | hq
          · rw [hg.2] at hf
            simp at hf
          · exact absurd hq.1 hq.2

end InvalidationPost

/-! ## The claims about the dependency graph -/

section GraphClaims

variable {D : Type}

/-- C1: for every sequence of `SetCell` and `ClearCell` calls (and `GetValue`
calls), whether they return or throw, applied to the empty sheet, the graph with
an edge from each cell to the cells of its reference set has no cycle,
self-loops included. -/
theorem C1_reference_graph_acyclic (X : Externals D) (ops : List Op) (s : Sheet D)
    (h : runOps X ops Sheet.empty = some s) : Acyclic s :=
  (runOps_wf X ops Sheet.empty s WellFormed.empty h).acyclic

/-- C1 at the two sequences of the claim: `SetCell(A1, "=A1")`, then
`SetCell(A1, "=B1")` and `SetCell(B1, "=A1")`. -/
theorem C1_witness :
    runOps sampleX [.SetCell A1 "=A1", .SetCell A1 "=B1", .SetCell B1 "=A1"] Sheet.empty =
        some (sampleAfter [.SetCell A1 "=A1", .SetCell A1 "=B1", .SetCell B1 "=A1"]) ∧
      Acyclic (sampleAfter [.SetCell A1 "=A1", .SetCell A1 "=B1", .SetCell B1 "=A1"]) :=
  ⟨by decide,
    C1_reference_graph_acyclic sampleX [.SetCell A1 "=A1", .SetCell A1 "=B1", .SetCell B1 "=A1"] _
      (by decide)⟩

/-- C2: `CheckCyclicDependency(B)` called on the cell `self`, for a candidate
body `B` whose listed positions are valid (on an invalid one `GetCellPtr`
throws), returns `true` iff some present cell at a listed position is `self`
itself or is reached from `self` along dependent edges; it returns `false` when
`B` lists no position; and the sheet it leaves is the sheet it was called on. -/
theorem C2_check_cyclic_dependency (s : Sheet D) (self : Position) (B : Impl D)
    (hvalid : ∀ q ∈ B.GetReferencedCells, q.IsValid = true) :
    ∃ b, Cell.CheckCyclicDependency s self B = .ok b s ∧
      (b = true ↔ ∃ x ∈ B.GetReferencedCells, (s.cellAt x).isSome ∧
        (x = self ∨ Relation.TransGen (DepEdge s) self x)) ∧
      (B.GetReferencedCells = [] → b = false) := by
  obtain ⟨b, hb, hiff⟩ := CheckCyclicDependency_spec s self B hvalid
  refine ⟨b, hb, ?_, ?_⟩
  · rw [hiff]
    constructor
    · rintro ⟨x, hx, hp, hr⟩
      refine ⟨x, hx, hp, ?_⟩
      rcases Relation.reflTransGen_iff_eq_or_transGen.1 hr with e | e
      · exact Or.inl e
      · exact Or.inr e
    · rintro ⟨x, hx, hp, hr⟩
      refine ⟨x, hx, hp, ?_⟩
      rcases hr with e | e
      · rw [e]
      · exact e.to_reflTransGen
  · intro hnil
    cases hbb : b with
    | false => rfl
    | true =>
      obtain ⟨x, hx, _⟩ := hiff.1 hbb
      rw [hnil] at hx
      simp at hx

/-- C2 on the sheet after `SetCell(A1, "=B1")`, for the cell B1 and the body of
`"=A1"`. -/
theorem C2_witness :
    (∀ q ∈ (Impl.FormulaImpl { root := .cell A1, cells := [A1], printed := "A1" } none :
        Impl Int).GetReferencedCells, q.IsValid = true) ∧
      ∃ b, Cell.CheckCyclicDependency (sampleAfter [.SetCell A1 "=B1"]) B1
          (Impl.FormulaImpl { root := .cell A1, cells := [A1], printed := "A1" } none) =
          .ok b (sampleAfter [.SetCell A1 "=B1"]) ∧
        (b = true ↔ ∃ x ∈ (Impl.FormulaImpl { root := .cell A1, cells := [A1], printed := "A1" } none :
            Impl Int).GetReferencedCells,
          ((sampleAfter [.SetCell A1 "=B1"]).cellAt x).isSome ∧
            (x = B1 ∨ Relation.TransGen (DepEdge (sampleAfter [.SetCell A1 "=B1"])) B1 x)) ∧
        ((Impl.FormulaImpl { root := .cell A1, cells := [A1], printed := "A1" } none :
            Impl Int).GetReferencedCells = [] → b = false) :=
  ⟨by decide,
    C2_check_cyclic_dependency (sampleAfter [.SetCell A1 "=B1"]) B1
      (Impl.FormulaImpl { root := .cell A1, cells := [A1], printed := "A1" } none) (by decide)⟩

/-- C3: if `SetCell(pos, text)` throws (`CircularDependencyException`,
`FormulaException` or any other exception), every cell that was present before
the call is the same afterwards: its body and text, its reference set and its
dependent set. -/
theorem C3_failed_SetCell_changes_nothing (X : Externals D) (s s1 : Sheet D) (pos : Position)
    (text : String) (e : Exception) (h : Sheet.SetCell X s pos text = .throws e s1) :
    ∀ q c, s.cellAt q = some c →
      s1.cellAt q = some c ∧ s1.GetText q = s.GetText q ∧
        s1.references q = s.references q ∧ s1.dependents q = s.dependents q := by
  have key : ∀ q c, s.cellAt q = some c → s1.cellAt q = some c := by
    intro q c hc
    rcases SetCell_cases X s pos text with ⟨_, h1⟩ | ⟨_, _, h1⟩ | ⟨_, _, hpres, h1⟩
    · rw [h1] at h
      simp only [Outcome.throws.injEq] at h
      rw [← h.2]; exact hc
    · rw [h1] at h
      simp at h
    · rw [h1] at h
      have := Cell.Set_throws X _ (SetCellFuel_createsEmpty X 0) _ s1 pos text e hpres h
      rw [this, Sheet.ensure_cellAt]
      by_cases hq : q = pos
      · subst hq
        have hf := (Sheet.cellAt_eq_some_iff s q c).1 hc
        simp [hf, hc]
      · simp [hq, hc]
  intro q c hc
  have h1 := key q c hc
  refine ⟨h1, ?_, ?_, ?_⟩
  · simp [Sheet.GetText, h1, hc]
  · simp [Sheet.references, h1, hc]
  · simp [Sheet.dependents, h1, hc]

/-- C3 at `SetCell(A1, "=B1")` followed by the failing `SetCell(B1, "=A1")`. -/
theorem C3_witness :
    Sheet.SetCell sampleX (sampleAfter [.SetCell A1 "=B1"]) B1 "=A1" =
        .throws .CircularDependencyException (sampleAfter [.SetCell A1 "=B1"]) ∧
      ∀ q c, (sampleAfter [.SetCell A1 "=B1"]).cellAt q = some c →
        (sampleAfter [.SetCell A1 "=B1"]).cellAt q = some c ∧
          (sampleAfter [.SetCell A1 "=B1"]).GetText q = (sampleAfter [.SetCell A1 "=B1"]).GetText q ∧
          (sampleAfter [.SetCell A1 "=B1"]).references q = (sampleAfter [.SetCell A1 "=B1"]).references q ∧
          (sampleAfter [.SetCell A1 "=B1"]).dependents q = (sampleAfter [.SetCell A1 "=B1"]).dependents q :=
  ⟨by decide,
    C3_failed_SetCell_changes_nothing sampleX (sampleAfter [.SetCell A1 "=B1"])
      (sampleAfter [.SetCell A1 "=B1"]) B1 "=A1" .CircularDependencyException (by decide)⟩

/-- C4: after every call of any sequence of calls on the empty sheet the edge
sets are symmetric, `r` is in the reference set of `c` iff `c` is in the
dependent set of `r`, and every edge joins two present cells, so none names a
cell that `ClearCell` has removed. -/
theorem C4_edges_symmetric (X : Externals D) (ops : List Op) (s : Sheet D)
    (h : runOps X ops Sheet.empty = some s) :
    (∀ c r, r ∈ s.references c ↔ c ∈ s.dependents r) ∧
      (∀ c r, r ∈ s.references c → (s.cellAt c).isSome ∧ (s.cellAt r).isSome) ∧
      (∀ c d, d ∈ s.dependents c → (s.cellAt c).isSome ∧ (s.cellAt d).isSome) := by
  have hw := runOps_wf X ops Sheet.empty s WellFormed.empty h
  refine ⟨hw.symm, ?_, ?_⟩
  · intro c r hr
    exact ⟨present_of_references s c r hr, present_of_dependents s r c ((hw.symm c r).1 hr)⟩
  · intro c d hd
    exact ⟨present_of_dependents s c d hd, present_of_references s d c ((hw.symm d c).2 hd)⟩

/-- C4 after `SetCell(A1, "=B1")`, `SetCell(C1, "=A1")`, `ClearCell(A1)`, `ClearCell(C1)`. -/
theorem C4_witness :
    runOps sampleX [.SetCell A1 "=B1", .SetCell C1 "=A1", .ClearCell A1, .ClearCell C1] Sheet.empty =
        some (sampleAfter [.SetCell A1 "=B1", .SetCell C1 "=A1", .ClearCell A1, .ClearCell C1]) ∧
      ((∀ c r, r ∈ (sampleAfter [.SetCell A1 "=B1", .SetCell C1 "=A1", .ClearCell A1,
            .ClearCell C1]).references c ↔
          c ∈ (sampleAfter [.SetCell A1 "=B1", .SetCell C1 "=A1", .ClearCell A1,
            .ClearCell C1]).dependents r) ∧
        (∀ c r, r ∈ (sampleAfter [.SetCell A1 "=B1", .SetCell C1 "=A1", .ClearCell A1,
            .ClearCell C1]).references c →
          ((sampleAfter [.SetCell A1 "=B1", .SetCell C1 "=A1", .ClearCell A1,
            .ClearCell C1]).cellAt c).isSome ∧
          ((sampleAfter [.SetCell A1 "=B1", .SetCell C1 "=A1", .ClearCell A1,
            .ClearCell C1]).cellAt r).isSome) ∧
        (∀ c d, d ∈ (sampleAfter [.SetCell A1 "=B1", .SetCell C1 "=A1", .ClearCell A1,
            .ClearCell C1]).dependents c →
          ((sampleAfter [.SetCell A1 "=B1", .SetCell C1 "=A1", .ClearCell A1,
            .ClearCell C1]).cellAt c).isSome ∧
          ((sampleAfter [.SetCell A1 "=B1", .SetCell C1 "=A1", .ClearCell A1,
            .ClearCell C1]).cellAt d).isSome)) :=
  ⟨by decide,
    C4_edges_symmetric sampleX [.SetCell A1 "=B1", .SetCell C1 "=A1", .ClearCell A1, .ClearCell C1] _
      (by decide)⟩

/-- C5 (defect): after `SetCell(B1, "x")` and `ClearCell(B1)` the position B1 is
absent, and `SetCell(A1, "=B1")` does not create it: the re-entrant
`SetCell(B1, "")` finds the entry that `ClearCell` left behind and dereferences
its null pointer. -/
theorem C5_removed_reference_null_deref :
    runOps sampleX [.SetCell B1 "x", .ClearCell B1] Sheet.empty =
        some (sampleAfter [.SetCell B1 "x", .ClearCell B1]) ∧
      (sampleAfter [.SetCell B1 "x", .ClearCell B1]).GetCell B1 = .ok none ∧
      (sampleAfter [.SetCell B1 "x", .ClearCell B1]).find B1 = some none ∧
      Sheet.SetCell sampleX (sampleAfter [.SetCell B1 "x", .ClearCell B1]) A1 "=B1" = .nullDeref := by
  decide

/-- C6 (defect): after `SetCell(A1, "x")` and `ClearCell(A1)` the position A1 is
absent, and `SetCell(A1, "y")` does not instantiate a cell: it finds the entry
that `ClearCell` left behind and dereferences its null pointer. -/
theorem C6_set_after_clear_null_deref :
    runOps sampleX [.SetCell A1 "x", .ClearCell A1] Sheet.empty =
        some (sampleAfter [.SetCell A1 "x", .ClearCell A1]) ∧
      (sampleAfter [.SetCell A1 "x", .ClearCell A1]).GetCell A1 = .ok none ∧
      Sheet.SetCell sampleX (sampleAfter [.SetCell A1 "x", .ClearCell A1]) A1 "y" = .nullDeref ∧
      runOps sampleX [.SetCell A1 "x", .ClearCell A1, .SetCell A1 "y"] Sheet.empty = none := by
  decide

/-- C7: in every sheet reached from the empty one and for every valid position
`p`, `ClearCell(p)` returns and afterwards `GetCell(p)` is null iff no cell
referenced `p` before the call (an absent `p` is referenced by none); when some
cell referenced `p`, `GetCell(p)` is a present Empty cell with the dependent
set `p` had before. -/
theorem C7_clear_vs_remove (X : Externals D) (ops : List Op) (s : Sheet D) (p : Position)
    (h : runOps X ops Sheet.empty = some s) (hv : p.IsValid = true) :
    ∃ s1, Sheet.ClearCell X s p = .ok () s1 ∧
      (s1.GetCell p = .ok none ↔ ¬ ∃ c, p ∈ s.references c) ∧
      ((∃ c, p ∈ s.references c) →
        ∃ c1, s1.GetCell p = .ok (some c1) ∧ c1.impl_ = .EmptyImpl ∧
          ∀ d, d ∈ c1.dependent_cells_ ↔ d ∈ s.dependents p) := by
  have hw := runOps_wf X ops Sheet.empty s WellFormed.empty h
  obtain ⟨s1, h1, _, h3, h4⟩ := ClearCell_spec X s p hw hv
  have hget : s1.GetCell p = .ok (s1.cellAt p) := by simp [Sheet.GetCell, hv]
  have hiff : s.dependents p = [] ↔ ¬ ∃ c, p ∈ s.references c := by
    constructor
    · rintro hnil ⟨c, hc⟩
      have := (hw.symm c p).1 hc
      rw [hnil] at this
      simp at this
    · intro hno
      apply List.eq_nil_iff_forall_not_mem.2
      intro d hd
      exact hno ⟨d, (hw.symm d p).2 hd⟩
  refine ⟨s1, h1, ?_, ?_⟩
  · rw [hget, ← hiff, ← h3]
    simp
  · intro hex
    cases hc1 : s1.cellAt p with
    | none =>
      exfalso
      exact (hiff.1 (h3.1 hc1)) hex
    | some c1 =>
      obtain ⟨h5, _, h6⟩ := h4 c1 hc1
      exact ⟨c1, by rw [hget, hc1], h5, h6⟩

/-- C7 after `SetCell(A1, "=B1")` for the referenced position B1. -/
theorem C7_witness :
    (runOps sampleX [.SetCell A1 "=B1"] Sheet.empty = some (sampleAfter [.SetCell A1 "=B1"]) ∧
      B1.IsValid = true) ∧
    ∃ s1, Sheet.ClearCell sampleX (sampleAfter [.SetCell A1 "=B1"]) B1 = .ok () s1 ∧
      (s1.GetCell B1 = .ok none ↔ ¬ ∃ c, B1 ∈ (sampleAfter [.SetCell A1 "=B1"]).references c) ∧
      ((∃ c, B1 ∈ (sampleAfter [.SetCell A1 "=B1"]).references c) →
        ∃ c1, s1.GetCell B1 = .ok (some c1) ∧ c1.impl_ = .EmptyImpl ∧
          ∀ d, d ∈ c1.dependent_cells_ ↔ d ∈ (sampleAfter [.SetCell A1 "=B1"]).dependents B1) :=
  ⟨⟨by decide, by decide⟩,
    C7_clear_vs_remove sampleX [.SetCell A1 "=B1"] _ B1 (by decide) (by decide)⟩

/-- C10 as stated fails: after only `SetCell(A1, "=B1+5")` the placeholder B1 is
an Empty cell and the printable size is `(1, 2)`, not the `(1, 1)` of the
rectangle over the cells whose body is not Empty. -/
theorem C10_counterexample :
    runOps sampleX [.SetCell A1 "=B1+5"] Sheet.empty = some (sampleAfter [.SetCell A1 "=B1+5"]) ∧
      (sampleAfter [.SetCell A1 "=B1+5"]).GetText B1 = some "" ∧
      specPrintableSize (sampleAfter [.SetCell A1 "=B1+5"]) = { rows := 1, cols := 1 } ∧
      (sampleAfter [.SetCell A1 "=B1+5"]).GetPrintableSize = { rows := 1, cols := 2 } ∧
      (sampleAfter [.SetCell A1 "=B1+5"]).GetPrintableSize ≠
        specPrintableSize (sampleAfter [.SetCell A1 "=B1+5"]) := by
  decide

/-- C10, amended: in every sheet reached from the empty one `GetPrintableSize`
returns the bounding box of all present cells, whatever their body: every
present cell lies inside, when a cell is present `rows` is one more than the row
of a present cell and `cols` one more than the column of a present cell, and
without a present cell the size is `(0, 0)`. -/
theorem C10_printable_size_over_present_cells (X : Externals D) (ops : List Op) (s : Sheet D)
    (h : runOps X ops Sheet.empty = some s) :
    (∀ p, (s.cellAt p).isSome →
      p.row + 1 ≤ s.GetPrintableSize.rows ∧ p.col + 1 ≤ s.GetPrintableSize.cols) ∧
    ((∃ p, (s.cellAt p).isSome) →
      (∃ p, (s.cellAt p).isSome ∧ s.GetPrintableSize.rows = p.row + 1) ∧
      (∃ p, (s.cellAt p).isSome ∧ s.GetPrintableSize.cols = p.col + 1)) ∧
    ((∀ p, s.cellAt p = none) → s.GetPrintableSize = { rows := 0, cols := 0 }) :=
  printable_size_wf s (runOps_wf X ops Sheet.empty s WellFormed.empty h)

/-- C10, amended, after only `SetCell(A1, "=B1+5")`. -/
theorem C10_witness :
    runOps sampleX [.SetCell A1 "=B1+5"] Sheet.empty = some (sampleAfter [.SetCell A1 "=B1+5"]) ∧
    ((∀ p, ((sampleAfter [.SetCell A1 "=B1+5"]).cellAt p).isSome →
      p.row + 1 ≤ (sampleAfter [.SetCell A1 "=B1+5"]).GetPrintableSize.rows ∧
        p.col + 1 ≤ (sampleAfter [.SetCell A1 "=B1+5"]).GetPrintableSize.cols) ∧
    ((∃ p, ((sampleAfter [.SetCell A1 "=B1+5"]).cellAt p).isSome) →
      (∃ p, ((sampleAfter [.SetCell A1 "=B1+5"]).cellAt p).isSome ∧
        (sampleAfter [.SetCell A1 "=B1+5"]).GetPrintableSize.rows = p.row + 1) ∧
      (∃ p, ((sampleAfter [.SetCell A1 "=B1+5"]).cellAt p).isSome ∧
        (sampleAfter [.SetCell A1 "=B1+5"]).GetPrintableSize.cols = p.col + 1)) ∧
    ((∀ p, (sampleAfter [.SetCell A1 "=B1+5"]).cellAt p = none) →
      (sampleAfter [.SetCell A1 "=B1+5"]).GetPrintableSize = { rows := 0, cols := 0 })) :=
  ⟨by decide, C10_printable_size_over_present_cells sampleX [.SetCell A1 "=B1+5"] _ (by decide)⟩

end GraphClaims

/-! ## A returning `SetCell`, step by step -/

section SetCellSteps

variable {D : Type}

/-- `Sheet::SetCell`, when it returns: the position is valid, the cell was
present after the lookup, the body was built, no cycle was found, the references
were rewired and then the caches invalidated. -/
theorem SetCell_ok (X : Externals D) (s s1 : Sheet D) (pos : Position) (text : String)
    (h : Sheet.SetCell X s pos text = .ok () s1) :
    pos.IsValid = true ∧ ((s.ensure pos).cellAt pos).isSome ∧
      ∃ impl s2, buildImpl X text = .ok impl ∧
        Cell.CheckCyclicDependency (s.ensure pos) pos impl = .ok false (s.ensure pos) ∧
        Rewired (s.ensure pos) pos impl s2 ∧
        UpdateDependencies (updateFuel s2) s2 pos true = some s1 := by
  rcases SetCell_cases X s pos text with ⟨_, h1⟩ | ⟨_, _, h1⟩ | ⟨hv, _, hpres, h1⟩
  · rw [h1] at h; simp at h
  · rw [h1] at h; simp at h
  · rw [h1] at h
    exact ⟨hv, hpres, Cell.Set_ok X _ (SetCellFuel_createsEmpty X 0) _ s1 pos text h⟩

theorem Sheet.implAt_ensure (s : Sheet D) (pos q : Position) :
    (s.ensure pos).implAt q = s.implAt q := by
  unfold Sheet.ensure
  cases hf : s.find pos with
  | none => simp only [Sheet.implAt, Sheet.cellOrNew_emplace s pos q hf]
  | some v => rfl

theorem Rewired.implAt_other {s s1 : Sheet D} {self : Position} {impl : Impl D}
    (h : Rewired s self impl s1) (q : Position) (hq : q ≠ self) (hp : (s1.cellAt q).isSome) :
    s1.implAt q = s.implAt q := by
  cases hc : s1.cellAt q with
  | none => simp [hc] at hp
  | some c1 =>
    rw [Sheet.implAt_of_cellAt s1 q c1 hc, h.impl_other q c1 hq hc]
    rfl

end SetCellSteps

/-! ## Evaluation on a sheet whose caches are filled -/

section Settled

variable {D : Type}

theorem extract_settled (X : Externals D)
    (getValue : Sheet D → Position → Outcome (Sheet D) (CellValue D))
    (p : Position) (s : Sheet D) (v : CellValue D) (h : getValue s p = .ok v s) :
    ExtractValueFromCell X getValue p s = Outcome.ofExcept (extractSettled X v) s := by
  unfold ExtractValueFromCell
  cases v with
  | number d => simp [h, Outcome.bind, extractSettled, Outcome.ofExcept]
  | text t =>
    simp only [h, Outcome.bind, extractSettled]
    by_cases he : t.data.isEmpty = true
    · simp [he, Outcome.ofExcept]
    · cases hr : X.readDouble t <;> simp [he, hr, Outcome.ofExcept]
  | error c => simp [h, Outcome.bind, extractSettled, Outcome.ofExcept]

theorem lookup_settled (X : Externals D)
    (getValue : Sheet D → Position → Outcome (Sheet D) (CellValue D))
    (get : Position → Option (CellValue D)) (s : Sheet D)
    (hget : ∀ p v, get p = some v → getValue s p = .ok v s)
    (p : Position) (r : Except Category D) (h : lookupSettled X s get p = some r) :
    lookupValue X getValue p s = Outcome.ofExcept r s := by
  unfold lookupSettled at h
  unfold lookupValue
  by_cases hv : p.IsValid = true
  · simp only [hv, Bool.not_true, Bool.false_eq_true, if_false] at h ⊢
    cases hc : s.cellAt p with
    | none =>
      simp only [hc, Option.some.injEq] at h
      subst h
      rfl
    | some c =>
      simp only [hc] at h
      cases hg : get p with
      | none => simp [hg] at h
      | some v =>
        simp only [hg, Option.map_some', Option.some.injEq] at h
        subst h
        exact extract_settled X getValue p s v (hget p v hg)
  · have hv1 : p.IsValid = false := by simpa using hv
    simp only [hv1, Bool.not_false, if_true, Option.some.injEq] at h ⊢
    subst h
    rfl

theorem execute_settled (X : Externals D) (lookup : Position → Sheet D → Outcome (Sheet D) D)
    (lookupS : Position → Option (Except Category D)) (s : Sheet D)
    (hl : ∀ p r, lookupS p = some r → lookup p s = Outcome.ofExcept r s) :
    ∀ (e : Expr D) (r : Except Category D), e.ExecuteSettled X lookupS = some r →
      e.Execute X lookup s = Outcome.ofExcept r s := by
  intro e
  induction e with
  | number d =>
    intro r h
    simp only [Expr.ExecuteSettled, Option.some.injEq] at h
    subst h
    rfl
  | cell p => intro r h; exact hl p r h
  | unary op e ih =>
    intro r h
    simp only [Expr.ExecuteSettled] at h
    simp only [Expr.Execute]
    cases he : e.ExecuteSettled X lookupS with
    | none => simp [he] at h
    | some re =>
      rw [ih re he]
      cases re with
      | ok v =>
        simp only [he, Option.some.injEq] at h
        subst h
        rfl
      | error c =>
        simp only [he, Option.some.injEq] at h
        subst h
        rfl
  | binary op l r ihl ihr =>
    intro res h
    simp only [Expr.ExecuteSettled] at h
    simp only [Expr.Execute]
    cases hlv : l.ExecuteSettled X lookupS with
    | none => simp [hlv] at h
    | some rl =>
      rw [ihl rl hlv]
      cases rl with
      | error c =>
        simp only [hlv, Option.some.injEq] at h
        subst h
        rfl
      | ok a =>
        simp only [hlv] at h
        simp only [Outcome.ofExcept, Outcome.bind]
        cases hrv : r.ExecuteSettled X lookupS with
        | none => simp [hrv] at h
        | some rr =>
          rw [ihr rr hrv]
          cases rr with
          | ok b =>
            simp only [hrv, Option.some.injEq] at h
            subst h
            rfl
          | error c =>
            simp only [hrv, Option.some.injEq] at h
            subst h
            rfl

theorem evaluate_settled (X : Externals D)
    (getValue : Sheet D → Position → Outcome (Sheet D) (CellValue D))
    (get : Position → Option (CellValue D)) (s : Sheet D)
    (hget : ∀ p v, get p = some v → getValue s p = .ok v s)
    (f : FormulaAST D) (v : FormulaValue D) (h : evaluateSettled X s get f = some v) :
    Formula.Evaluate X getValue f s = .ok v s := by
  unfold evaluateSettled at h
  unfold Formula.Evaluate
  cases hx : f.root.ExecuteSettled X (lookupSettled X s get) with
  | none => simp [hx] at h
  | some r =>
    rw [execute_settled X (lookupValue X getValue) (lookupSettled X s get) s
      (fun p r hr => lookup_settled X getValue get s hget p r hr) f.root r hx]
    cases r with
    | ok d =>
      simp only [hx, Option.some.injEq] at h
      subst h
      simp only [Outcome.ofExcept]
      by_cases hi : X.isinf d = true <;> simp [hi]
    | error c =>
      simp only [hx, Option.some.injEq] at h
      subst h
      rfl

/-- When the settled value of a cell is defined, `Cell::GetValue` returns it
and leaves the sheet as it is. -/
theorem settled_GetValue (X : Externals D) :
    ∀ (n : Nat) (s : Sheet D) (p : Position) (v : CellValue D),
      settledValue X n s p = some v → Cell.GetValue X n s p = .ok v s := by
  intro n
  induction n with
  | zero => intro s p v h; simp [settledValue] at h
  | succ n ih =>
    intro s p v h
    simp only [settledValue] at h
    simp only [Cell.GetValue]
    cases hc : s.cellAt p with
    | none => simp [hc] at h
    | some c =>
      simp only [hc] at h ⊢
      cases hi : c.impl_ with
      | EmptyImpl =>
        simp only [hi, Option.some.injEq] at h
        subst h
        rfl
      | TextImpl t =>
        simp only [hi, Option.some.injEq] at h
        subst h
        rfl
      | FormulaImpl f cache =>
        cases cache with
        | none => simp [hi] at h
        | some w =>
          simp only [hi] at h
          cases hev : evaluateSettled X s (settledValue X n s) f with
          | none => simp [hev] at h
          | some fv =>
            simp only [hev, Option.map_some', Option.some.injEq] at h
            subst h
            have := evaluate_settled X (Cell.GetValue X n) (settledValue X n s) s
              (fun q v hq => ih s q v hq) f fv hev
            simp [Outcome.bind, this]

theorem CacheLe.reflexive (a : Sheet D) : CacheLe a a := ⟨rfl, fun _ h => h⟩

theorem CacheLe.transitive {a b c : Sheet D} (h1 : CacheLe a b) (h2 : CacheLe b c) : CacheLe a c :=
  ⟨h2.1.trans h1.1, fun q h => h2.2 q (h1.2 q h)⟩

theorem CacheLe.cellAt_none {a b : Sheet D} (h : CacheLe a b) (p : Position)
    (hc : a.cellAt p = none) : b.cellAt p = none := by
  have h1 := Sheet.cellAt_of_bodies a b h.1 p
  rw [hc] at h1
  cases hb : b.cellAt p with
  | none => rfl
  | some c => simp [hb] at h1

theorem CacheLe.cellAt_some {a b : Sheet D} (h : CacheLe a b) (p : Position) (c : Cell D)
    (hc : a.cellAt p = some c) :
    ∃ c1, b.cellAt p = some c1 ∧ c1.impl_.InvalidateCache = c.impl_.InvalidateCache := by
  have h1 := Sheet.cellAt_of_bodies a b h.1 p
  rw [hc] at h1
  cases hb : b.cellAt p with
  | none => simp [hb] at h1
  | some c1 =>
    simp only [hb, Option.map_some', Option.some.injEq] at h1
    refine ⟨c1, rfl, ?_⟩
    have := congrArg Cell.impl_ h1
    simpa [Cell.body] using this

/-- A cached formula cell of `a` is the same formula, cached, in a sheet with
at least the caches of `a`. -/
theorem CacheLe.formula {a b : Sheet D} (h : CacheLe a b) (p : Position) (c : Cell D)
    (f : FormulaAST D) (w : FormulaValue D) (hc : a.cellAt p = some c)
    (hi : c.impl_ = .FormulaImpl f (some w)) :
    ∃ c1 w1, b.cellAt p = some c1 ∧ c1.impl_ = .FormulaImpl f (some w1) := by
  obtain ⟨c1, hc1, hinv⟩ := h.cellAt_some p c hc
  have hcache : b.HoldsCache p := by
    apply h.2 p
    unfold Sheet.HoldsCache
    rw [Sheet.implAt_of_cellAt a p c hc, hi]
    rfl
  unfold Sheet.HoldsCache at hcache
  rw [Sheet.implAt_of_cellAt b p c1 hc1] at hcache
  obtain ⟨f1, w1, hfw⟩ := (Impl.cachedWeight_eq_one_iff c1.impl_).1 hcache
  rw [hfw, hi] at hinv
  simp only [Impl.InvalidateCache, Impl.FormulaImpl.injEq, and_true] at hinv
  exact ⟨c1, w1, hc1, by rw [hfw, hinv]⟩

theorem CacheLe.plain {a b : Sheet D} (h : CacheLe a b) (p : Position) (c : Cell D)
    (hc : a.cellAt p = some c) (hi : ∀ f cache, c.impl_ ≠ .FormulaImpl f cache) :
    ∃ c1, b.cellAt p = some c1 ∧ c1.impl_ = c.impl_ := by
  obtain ⟨c1, hc1, hinv⟩ := h.cellAt_some p c hc
  refine ⟨c1, hc1, ?_⟩
  cases hci : c.impl_ with
  | EmptyImpl =>
    rw [hci] at hinv
    cases hc1i : c1.impl_ <;> simp [hc1i, Impl.InvalidateCache] at hinv ⊢
  | TextImpl t =>
    rw [hci] at hinv
    cases hc1i : c1.impl_ <;> simp [hc1i, Impl.InvalidateCache] at hinv ⊢
    exact hinv
  | FormulaImpl f cache => exact absurd hci (hi f cache)

theorem executeSettled_mono (X : Externals D) (lookA lookB : Position → Option (Except Category D))
    (h : ∀ p r, lookA p = some r → lookB p = some r) :
    ∀ (e : Expr D) (r : Except Category D), e.ExecuteSettled X lookA = some r →
      e.ExecuteSettled X lookB = some r := by
  intro e
  induction e with
  | number d => intro r hr; exact hr
  | cell p => intro r hr; exact h p r hr
  | unary op e ih =>
    intro r hr
    simp only [Expr.ExecuteSettled] at hr ⊢
    cases he : e.ExecuteSettled X lookA with
    | none => simp [he] at hr
    | some re =>
      rw [ih re he]
      rw [he] at hr
      exact hr
  | binary op l r ihl ihr =>
    intro res hr
    simp only [Expr.ExecuteSettled] at hr ⊢
    cases hlv : l.ExecuteSettled X lookA with
    | none => simp [hlv] at hr
    | some rl =>
      rw [ihl rl hlv]
      rw [hlv] at hr
      cases rl with
      | error c => exact hr
      | ok a =>
        simp only at hr ⊢
        cases hrv : r.ExecuteSettled X lookA with
        | none => simp [hrv] at hr
        | some rr =>
          rw [ihr rr hrv]
          rw [hrv] at hr
          exact hr

theorem lookupSettled_mono (X : Externals D) (a b : Sheet D) (getA getB : Position → Option (CellValue D))
    (hnone : ∀ p, a.cellAt p = none → b.cellAt p = none)
    (hsome : ∀ p, (a.cellAt p).isSome → (b.cellAt p).isSome)
    (hget : ∀ p v, getA p = some v → getB p = some v)
    (p : Position) (r : Except Category D) (h : lookupSettled X a getA p = some r) :
    lookupSettled X b getB p = some r := by
  unfold lookupSettled at h ⊢
  by_cases hv : p.IsValid = true
  · simp only [hv, Bool.not_true, Bool.false_eq_true, if_false] at h ⊢
    cases hc : a.cellAt p with
    | none =>
      rw [hnone p hc]
      simpa [hc] using h
    | some c =>
      have := hsome p (by simp [hc])
      cases hcb : b.cellAt p with
      | none => simp [hcb] at this
      | some cb =>
        simp only [hc] at h
        simp only
        cases hg : getA p with
        | none => simp [hg] at h
        | some v =>
          rw [hget p v hg]
          simpa [hg] using h
  · have hv1 : p.IsValid = false := by simpa using hv
    simpa [hv1] using h

theorem evaluateSettled_mono (X : Externals D) (a b : Sheet D) (getA getB : Position → Option (CellValue D))
    (hnone : ∀ p, a.cellAt p = none → b.cellAt p = none)
    (hsome : ∀ p, (a.cellAt p).isSome → (b.cellAt p).isSome)
    (hget : ∀ p v, getA p = some v → getB p = some v)
    (f : FormulaAST D) (v : FormulaValue D) (h : evaluateSettled X a getA f = some v) :
    evaluateSettled X b getB f = some v := by
  unfold evaluateSettled at h ⊢
  cases hx : f.root.ExecuteSettled X (lookupSettled X a getA) with
  | none => simp [hx] at h
  | some r =>
    rw [executeSettled_mono X _ (lookupSettled X b getB)
      (fun p r hr => lookupSettled_mono X a b getA getB hnone hsome hget p r hr) f.root r hx]
    rw [hx] at h
    exact h

theorem CacheLe.keeps_present {a b : Sheet D} (h : CacheLe a b) (p : Position)
    (hp : (a.cellAt p).isSome) : (b.cellAt p).isSome := by
  cases hc : a.cellAt p with
  | none => simp [hc] at hp
  | some c =>
    obtain ⟨c1, hc1, _⟩ := h.cellAt_some p c hc
    simp [hc1]

/-- The settled value of a cell stays what it is when caches are added and when
the fuel grows. -/
theorem settledValue_mono (X : Externals D) :
    ∀ (n m : Nat) (a b : Sheet D) (p : Position) (v : CellValue D), CacheLe a b → n ≤ m →
      settledValue X n a p = some v → settledValue X m b p = some v := by
  intro n
  induction n with
  | zero => intro m a b p v _ _ h; simp [settledValue] at h
  | succ n ih =>
    intro m a b p v hle hnm h
    obtain ⟨m1, rfl⟩ : ∃ m1, m = m1 + 1 := ⟨m - 1, by omega⟩
    simp only [settledValue] at h ⊢
    cases hc : a.cellAt p with
    | none => simp [hc] at h
    | some c =>
      simp only [hc] at h
      cases hi : c.impl_ with
      | EmptyImpl =>
        obtain ⟨c1, hc1, hi1⟩ := hle.plain p c hc (by simp [hi])
        simp only [hi] at h
        simp only [hc1, hi1, hi]
        exact h
      | TextImpl t =>
        obtain ⟨c1, hc1, hi1⟩ := hle.plain p c hc (by simp [hi])
        simp only [hi] at h
        simp only [hc1, hi1, hi]
        exact h
      | FormulaImpl f cache =>
        cases cache with
        | none => simp [hi] at h
        | some w =>
          obtain ⟨c1, w1, hc1, hi1⟩ := hle.formula p c f w hc hi
          simp only [hi] at h
          simp only [hc1, hi1]
          cases hev : evaluateSettled X a (settledValue X n a) f with
          | none => simp [hev] at h
          | some fv =>
            rw [evaluateSettled_mono X a b (settledValue X n a) (settledValue X m1 b)
              (fun q hq => hle.cellAt_none q hq) (fun q hq => hle.keeps_present q hq)
              (fun q v hq => ih m1 a b q v hle (by omega) hq) f fv hev]
            rw [hev] at h
            exact h

theorem evaluateSettled_settled_mono (X : Externals D) (n m : Nat) (a b : Sheet D)
    (hle : CacheLe a b) (hnm : n ≤ m) (f : FormulaAST D) (v : FormulaValue D)
    (h : evaluateSettled X a (settledValue X n a) f = some v) :
    evaluateSettled X b (settledValue X m b) f = some v :=
  evaluateSettled_mono X a b (settledValue X n a) (settledValue X m b)
    (fun q hq => hle.cellAt_none q hq) (fun q hq => hle.keeps_present q hq)
    (fun q v hq => settledValue_mono X n m a b q v hle hnm hq) f v h

theorem Sheet.cellAt_setCache (s : Sheet D) (p q : Position) (v : FormulaValue D) :
    (s.setCache p v).cellAt q =
      if q = p then (s.cellAt p).map (fun c =>
        match c.impl_ with
        | .FormulaImpl f _ => { c with impl_ := .FormulaImpl f (some v) }
        | _ => c)
      else s.cellAt q := by
  unfold Sheet.setCache
  rw [Sheet.cellAt_modify]

theorem CacheLe.setCache (s : Sheet D) (p : Position) (v : FormulaValue D) :
    CacheLe s (s.setCache p v) := by
  refine ⟨Sheet.bodies_setCache s p v, ?_⟩
  intro q hq
  unfold Sheet.HoldsCache Sheet.implAt Sheet.cellOrNew at hq ⊢
  rw [Sheet.cellAt_setCache]
  by_cases e : q = p
  · subst e
    cases hc : s.cellAt q with
    | none => simp [hc, Cell.new, Impl.cachedWeight] at hq
    | some c =>
      simp only [hc, Option.getD_some] at hq
      obtain ⟨f, w, hfw⟩ := (Impl.cachedWeight_eq_one_iff c.impl_).1 hq
      simp [hfw, Impl.cachedWeight]
  · simpa [e] using hq

/-- `Cell::GetValue` only adds caches. -/
theorem GetValue_cacheLe (X : Externals D) (fuel : Nat) (s : Sheet D) (p : Position) :
    (Cell.GetValue X fuel s p).StateSat (CacheLe s) :=
  GetValue_rel X CacheLe CacheLe.reflexive (fun _ _ _ h1 h2 => h1.transitive h2)
    (fun s p v => CacheLe.setCache s p v) fuel s p

theorem Evaluate_no_FormulaError (X : Externals D)
    (getValue : Sheet D → Position → Outcome (Sheet D) (CellValue D)) (f : FormulaAST D)
    (s s1 : Sheet D) (c : Category) :
    Formula.Evaluate X getValue f s ≠ .throws (.FormulaError c) s1 := by
  unfold Formula.Evaluate
  cases hx : f.root.Execute X (lookupValue X getValue) s with
  | ok result s2 => by_cases hi : X.isinf result = true <;> simp [hi]
  | throws e s2 => cases e <;> simp
  | nullDeref => simp
  | outOfFuel => simp

theorem GetValue_no_FormulaError (X : Externals D) (n : Nat) (s s1 : Sheet D) (p : Position)
    (c : Category) : Cell.GetValue X n s p ≠ .throws (.FormulaError c) s1 := by
  cases n with
  | zero => simp [Cell.GetValue]
  | succ n =>
    simp only [Cell.GetValue]
    cases hc : s.cellAt p with
    | none => simp
    | some cl =>
      simp only
      cases hi : cl.impl_ with
      | EmptyImpl => simp
      | TextImpl t => simp
      | FormulaImpl f cache =>
        simp only
        have second : ∀ t, (Formula.Evaluate X (Cell.GetValue X n) f t).bind
            (fun value s2 => Outcome.ok value.toCellValue s2) ≠
            (.throws (.FormulaError c) s1 : Outcome (Sheet D) (CellValue D)) := by
          intro t
          cases he : Formula.Evaluate X (Cell.GetValue X n) f t with
          | ok v s2 => simp [Outcome.bind]
          | throws e s2 =>
            simp only [Outcome.bind, ne_eq, Outcome.throws.injEq, not_and]
            intro h1 h2
            exact Evaluate_no_FormulaError X _ f t s1 c (by rw [he, h1, h2])
          | nullDeref => simp [Outcome.bind]
          | outOfFuel => simp [Outcome.bind]
        cases cache with
        | some w =>
          simp only [Outcome.bind]
          exact second s
        | none =>
          simp only
          cases he : Formula.Evaluate X (Cell.GetValue X n) f s with
          | ok v s2 =>
            simp only [Outcome.bind]
            exact second _
          | throws e s2 =>
            simp only [Outcome.bind, ne_eq, Outcome.throws.injEq, not_and]
            intro h1 h2
            exact Evaluate_no_FormulaError X _ f s s1 c (by rw [he, h1, h2])
          | nullDeref => simp [Outcome.bind]
          | outOfFuel => simp [Outcome.bind]

theorem extract_repeat (X : Externals D)
    (getValue : Sheet D → Position → Outcome (Sheet D) (CellValue D))
    (p : Position) (s s1 : Sheet D) (v : CellValue D) (h0 : getValue s p = .ok v s1)
    (h : getValue s1 p = .ok v s1) :
    ExtractValueFromCell X getValue p s = Outcome.ofExcept (extractSettled X v) s1 := by
  unfold ExtractValueFromCell
  cases v with
  | number d => simp [h0, h, Outcome.bind, extractSettled, Outcome.ofExcept]
  | text t =>
    simp only [h0, h, Outcome.bind, extractSettled]
    by_cases he : t.data.isEmpty = true
    · simp [he, Outcome.ofExcept]
    · cases hr : X.readDouble t <;> simp [he, hr, Outcome.ofExcept]
  | error c => simp [h0, h, Outcome.bind, extractSettled, Outcome.ofExcept]

theorem Outcome.ofExcept_ok (r : Except Category D) (s s1 : Sheet D) (d : D)
    (h : Outcome.ofExcept r s = .ok d s1) : r = .ok d ∧ s1 = s := by
  cases r with
  | ok d1 =>
    simp only [Outcome.ofExcept, Outcome.ok.injEq] at h
    exact ⟨by rw [h.1], h.2.symm⟩
  | error c => simp [Outcome.ofExcept] at h

theorem Outcome.ofExcept_throws (r : Except Category D) (s s1 : Sheet D) (c : Category)
    (h : Outcome.ofExcept r s = .throws (.FormulaError c) s1) : r = .error c ∧ s1 = s := by
  cases r with
  | ok d1 => simp [Outcome.ofExcept] at h
  | error c1 =>
    simp only [Outcome.ofExcept, Outcome.throws.injEq, Exception.FormulaError.injEq] at h
    exact ⟨by rw [h.1], h.2.symm⟩

/-- After the lookup of `Formula::Evaluate` has run, its answer can be read off
the sheet it leaves. -/
theorem lookup_after (X : Externals D)
    (getValue : Sheet D → Position → Outcome (Sheet D) (CellValue D))
    (get : Sheet D → Position → Option (CellValue D))
    (hafter : ∀ s p v s1, getValue s p = .ok v s1 → get s1 p = some v)
    (hback : ∀ s p v, get s p = some v → getValue s p = .ok v s)
    (hnoFE : ∀ s p c s1, getValue s p ≠ .throws (.FormulaError c) s1)
    (hrel : ∀ s p, (getValue s p).StateSat (CacheLe s))
    (p : Position) (s s1 : Sheet D) :
    (∀ d, lookupValue X getValue p s = .ok d s1 →
      lookupSettled X s1 (get s1) p = some (.ok d)) ∧
    (∀ c, lookupValue X getValue p s = .throws (.FormulaError c) s1 →
      lookupSettled X s1 (get s1) p = some (.error c)) := by
  unfold lookupValue
  by_cases hv : p.IsValid = true
  · simp only [hv, Bool.not_true, Bool.false_eq_true, if_false]
    cases hc : s.cellAt p with
    | none =>
      simp only [Outcome.ok.injEq, and_imp]
      constructor
      · intro d h1 h2
        subst h1; subst h2
        simp [lookupSettled, hv, hc]
      · intro c h
        simp at h
    | some cl =>
      simp only
      cases hg : getValue s p with
      | ok v s2 =>
        have hget := hafter s p v s2 hg
        have hrep := extract_repeat X getValue p s s2 v hg (hback s2 p v hget)
        have hle := hrel s p s2 (by rw [hg]; rfl)
        have hpres := hle.keeps_present p (by simp [hc])
        rw [hrep]
        constructor
        · intro d h
          obtain ⟨h1, h2⟩ := Outcome.ofExcept_ok _ _ _ _ h
          subst h2
          cases hc2 : s1.cellAt p with
          | none => simp [hc2] at hpres
          | some c2 => simp [lookupSettled, hv, hc2, hget, h1]
        · intro c h
          obtain ⟨h1, h2⟩ := Outcome.ofExcept_throws _ _ _ _ h
          subst h2
          cases hc2 : s1.cellAt p with
          | none => simp [hc2] at hpres
          | some c2 => simp [lookupSettled, hv, hc2, hget, h1]
      | throws e s2 =>
        have hex : ExtractValueFromCell X getValue p s = .throws e s2 := by
          unfold ExtractValueFromCell; simp [hg, Outcome.bind]
        rw [hex]
        constructor
        · intro d h; simp at h
        · intro c h
          simp only [Outcome.throws.injEq] at h
          exact absurd (by rw [hg, h.1, h.2]) (hnoFE s p c s1)
      | nullDeref =>
        have hex : ExtractValueFromCell X getValue p s = .nullDeref := by
          unfold ExtractValueFromCell; simp [hg, Outcome.bind]
        rw [hex]
        exact ⟨fun d h => by simp at h, fun c h => by simp at h⟩
      | outOfFuel =>
        have hex : ExtractValueFromCell X getValue p s = .outOfFuel := by
          unfold ExtractValueFromCell; simp [hg, Outcome.bind]
        rw [hex]
        exact ⟨fun d h => by simp at h, fun c h => by simp at h⟩
  · have hv1 : p.IsValid = false := by simpa using hv
    simp only [hv1, Bool.not_false, if_true]
    constructor
    · intro d h; simp at h
    · intro c h
      simp only [Outcome.throws.injEq, Exception.FormulaError.injEq] at h
      rw [← h.2, ← h.1]
      simp [lookupSettled, hv1]

/-- After an execution has run, its answer can be read off the sheet it leaves. -/
theorem execute_after (X : Externals D) (lookup : Position → Sheet D → Outcome (Sheet D) D)
    (lookS : Sheet D → Position → Option (Except Category D))
    (hl : ∀ p s s1, (∀ d, lookup p s = .ok d s1 → lookS s1 p = some (.ok d)) ∧
      (∀ c, lookup p s = .throws (.FormulaError c) s1 → lookS s1 p = some (.error c)))
    (hmono : ∀ a b p r, CacheLe a b → lookS a p = some r → lookS b p = some r)
    (hrel : ∀ p s, (lookup p s).StateSat (CacheLe s)) :
    ∀ (e : Expr D) (s s1 : Sheet D),
      (∀ d, e.Execute X lookup s = .ok d s1 → e.ExecuteSettled X (lookS s1) = some (.ok d)) ∧
      (∀ c, e.Execute X lookup s = .throws (.FormulaError c) s1 →
        e.ExecuteSettled X (lookS s1) = some (.error c)) := by
  intro e
  induction e with
  | number d =>
    intro s s1
    constructor
    · intro d1 h
      simp only [Expr.Execute, Outcome.ok.injEq] at h
      simp [Expr.ExecuteSettled, h.1]
    · intro c h
      simp [Expr.Execute] at h
  | cell p => intro s s1; exact hl p s s1
  | unary op e ih =>
    intro s s1
    simp only [Expr.Execute, Expr.ExecuteSettled]
    cases he : e.Execute X lookup s with
    | ok v s2 =>
      simp only [Outcome.bind, Outcome.ok.injEq, and_imp]
      constructor
      · intro d h1 h2
        subst h2
        rw [(ih s s2).1 v he]
        simp [h1]
      · intro c h; simp at h
    | throws ex s2 =>
      simp only [Outcome.bind]
      constructor
      · intro d h; simp at h
      · intro c h
        simp only [Outcome.throws.injEq] at h
        rw [(ih s s1).2 c (by rw [he, h.1, h.2])]
    | nullDeref => simp [Outcome.bind]
    | outOfFuel => simp [Outcome.bind]
  | binary op l r ihl ihr =>
    intro s s1
    simp only [Expr.Execute, Expr.ExecuteSettled]
    cases hlx : l.Execute X lookup s with
    | ok a s2 =>
      simp only [Outcome.bind]
      have hla := (ihl s s2).1 a hlx
      have hlift : ∀ t, CacheLe s2 t → l.ExecuteSettled X (lookS t) = some (.ok a) := by
        intro t ht
        exact executeSettled_mono X (lookS s2) (lookS t) (fun p r hr => hmono s2 t p r ht hr) l _ hla
      cases hrx : r.Execute X lookup s2 with
      | ok b s3 =>
        have hle : CacheLe s2 s3 :=
          Execute_rel X CacheLe CacheLe.reflexive (fun _ _ _ h1 h2 => h1.transitive h2) lookup hrel r s2 s3
            (by rw [hrx]; rfl)
        simp only [Outcome.ok.injEq, and_imp]
        constructor
        · intro d h1 h2
          subst h2
          rw [hlift s3 hle, (ihr s2 s3).1 b hrx]
          simp [h1]
        · intro c h; simp at h
      | throws ex s3 =>
        have hle : CacheLe s2 s3 :=
          Execute_rel X CacheLe CacheLe.reflexive (fun _ _ _ h1 h2 => h1.transitive h2) lookup hrel r s2 s3
            (by rw [hrx]; rfl)
        constructor
        · intro d h; simp at h
        · intro c h
          simp only [Outcome.throws.injEq] at h
          obtain ⟨h1, h2⟩ := h
          subst h2
          rw [hlift s3 hle, (ihr s2 s3).2 c (by rw [hrx, h1])]
      | nullDeref => simp
      | outOfFuel => simp
    | throws ex s2 =>
      simp only [Outcome.bind]
      constructor
      · intro d h; simp at h
      · intro c h
        simp only [Outcome.throws.injEq] at h
        rw [(ihl s s1).2 c (by rw [hlx, h.1, h.2])]
    | nullDeref => simp [Outcome.bind]
    | outOfFuel => simp [Outcome.bind]

theorem lookupSettled_cacheLe (X : Externals D) (get : Sheet D → Position → Option (CellValue D))
    (hmono : ∀ a b p v, CacheLe a b → get a p = some v → get b p = some v)
    (a b : Sheet D) (p : Position) (r : Except Category D) (hle : CacheLe a b)
    (h : lookupSettled X a (get a) p = some r) : lookupSettled X b (get b) p = some r :=
  lookupSettled_mono X a b (get a) (get b) (fun q hq => hle.cellAt_none q hq)
    (fun q hq => hle.keeps_present q hq) (fun q v hq => hmono a b q v hle hq) p r h

/-- After `Formula::Evaluate` has run, its value can be read off the sheet it
leaves. -/
theorem evaluate_after (X : Externals D)
    (getValue : Sheet D → Position → Outcome (Sheet D) (CellValue D))
    (get : Sheet D → Position → Option (CellValue D))
    (hafter : ∀ s p v s1, getValue s p = .ok v s1 → get s1 p = some v)
    (hback : ∀ s p v, get s p = some v → getValue s p = .ok v s)
    (hnoFE : ∀ s p c s1, getValue s p ≠ .throws (.FormulaError c) s1)
    (hrel : ∀ s p, (getValue s p).StateSat (CacheLe s))
    (hmono : ∀ a b p v, CacheLe a b → get a p = some v → get b p = some v)
    (f : FormulaAST D) (s s1 : Sheet D) (v : FormulaValue D)
    (h : Formula.Evaluate X getValue f s = .ok v s1) :
    evaluateSettled X s1 (get s1) f = some v := by
  have hex := execute_after X (lookupValue X getValue) (fun t => lookupSettled X t (get t))
    (fun p s s1 => lookup_after X getValue get hafter hback hnoFE hrel p s s1)
    (fun a b p r hle hr => lookupSettled_cacheLe X get hmono a b p r hle hr)
    (fun p s => lookupValue_rel X CacheLe CacheLe.reflexive (fun _ _ _ h1 h2 => h1.transitive h2)
      getValue hrel p s) f.root s s1
  unfold Formula.Evaluate at h
  unfold evaluateSettled
  cases hx : f.root.Execute X (lookupValue X getValue) s with
  | ok result s2 =>
    simp only [hx] at h
    by_cases hi : X.isinf result = true
    · simp only [hi, if_true, Outcome.ok.injEq] at h
      obtain ⟨h1, h2⟩ := h
      subst h2
      rw [hex.1 result hx]
      simp [hi, h1]
    · simp only [hi, Bool.false_eq_true, if_false, Outcome.ok.injEq] at h
      obtain ⟨h1, h2⟩ := h
      subst h2
      rw [hex.1 result hx]
      simp [hi, h1]
  | throws e s2 =>
    cases e with
    | FormulaError c =>
      simp only [hx, Outcome.ok.injEq] at h
      obtain ⟨h1, h2⟩ := h
      subst h2
      rw [hex.2 c hx]
      simp [h1]
    | InvalidPositionException => simp [hx] at h
    | FormulaException => simp [hx] at h
    | CircularDependencyException => simp [hx] at h
    | logic_error => simp [hx] at h
    | bad_variant_access => simp [hx] at h
  | nullDeref => simp [hx] at h
  | outOfFuel => simp [hx] at h

/-- After `Cell::GetValue` has returned, the value it returned is the settled
value of the cell on the sheet it leaves. -/
theorem GetValue_after (X : Externals D) :
    ∀ (n : Nat) (s : Sheet D) (p : Position) (v : CellValue D) (s1 : Sheet D),
      Cell.GetValue X n s p = .ok v s1 → settledValue X n s1 p = some v := by
  intro n
  induction n with
  | zero => intro s p v s1 h; simp [Cell.GetValue] at h
  | succ n ih =>
    intro s p v s1 h
    have hev : ∀ (f : FormulaAST D) (t t1 : Sheet D) (w : FormulaValue D),
        Formula.Evaluate X (Cell.GetValue X n) f t = .ok w t1 →
        evaluateSettled X t1 (settledValue X n t1) f = some w :=
      fun f t t1 w hw => evaluate_after X (Cell.GetValue X n) (settledValue X n) ih
        (settled_GetValue X n) (fun s p c s1 => GetValue_no_FormulaError X n s s1 p c)
        (GetValue_cacheLe X n)
        (fun a b p v hle hv => settledValue_mono X n n a b p v hle (le_refl _) hv) f t t1 w hw
    have hevle : ∀ (f : FormulaAST D) (t t1 : Sheet D) (w : FormulaValue D),
        Formula.Evaluate X (Cell.GetValue X n) f t = .ok w t1 → CacheLe t t1 :=
      fun f t t1 w hw => Evaluate_rel X CacheLe CacheLe.reflexive (fun _ _ _ h1 h2 => h1.transitive h2)
        (Cell.GetValue X n) (GetValue_cacheLe X n) f t t1 (by rw [hw]; rfl)
    simp only [Cell.GetValue] at h
    cases hc : s.cellAt p with
    | none => simp [hc] at h
    | some c =>
      simp only [hc] at h
      cases hi : c.impl_ with
      | EmptyImpl =>
        simp only [hi, Outcome.ok.injEq] at h
        obtain ⟨h1, h2⟩ := h
        subst h2
        simp [settledValue, hc, hi, h1]
      | TextImpl t =>
        simp only [hi, Outcome.ok.injEq] at h
        obtain ⟨h1, h2⟩ := h
        subst h2
        simp [settledValue, hc, hi, h1]
      | FormulaImpl f cache =>
        simp only [hi] at h
        cases cache with
        | some w =>
          simp only [Outcome.bind] at h
          cases he : Formula.Evaluate X (Cell.GetValue X n) f s with
          | ok value s2 =>
            simp only [he, Outcome.ok.injEq] at h
            obtain ⟨h1, h2⟩ := h
            subst h2
            obtain ⟨c1, w1, hc1, hi1⟩ := (hevle f s s2 value he).formula p c f w hc hi
            simp only [settledValue, hc1, hi1]
            rw [hev f s s2 value he]
            simp [h1]
          | throws e s2 => simp [he] at h
          | nullDeref => simp [he] at h
          | outOfFuel => simp [he] at h
        | none =>
          simp only at h
          cases he0 : Formula.Evaluate X (Cell.GetValue X n) f s with
          | ok v0 sa =>
            simp only [he0, Outcome.bind] at h
            cases he : Formula.Evaluate X (Cell.GetValue X n) f (sa.setCache p v0) with
            | ok value s2 =>
              simp only [he, Outcome.ok.injEq] at h
              obtain ⟨h1, h2⟩ := h
              subst h2
              obtain ⟨ca, hca, hinv⟩ := (hevle f s sa v0 he0).cellAt_some p c hc
              rw [hi] at hinv
              have hia : ∃ cache1, ca.impl_ = .FormulaImpl f cache1 := by
                cases hcai : ca.impl_ with
                | EmptyImpl => simp [hcai, Impl.InvalidateCache] at hinv
                | TextImpl t => simp [hcai, Impl.InvalidateCache] at hinv
                | FormulaImpl f1 cache1 =>
                  simp only [hcai, Impl.InvalidateCache, Impl.FormulaImpl.injEq, and_true] at hinv
                  exact ⟨cache1, by rw [hinv]⟩
              obtain ⟨cache1, hia⟩ := hia
              have hcb : (sa.setCache p v0).cellAt p =
                  some { ca with impl_ := .FormulaImpl f (some v0) } := by
                rw [Sheet.cellAt_setCache]
                simp [hca, hia]
              obtain ⟨c1, w1, hc1, hi1⟩ := (hevle f _ s2 value he).formula p _ f v0 hcb rfl
              simp only [settledValue, hc1, hi1]
              rw [hev f _ s2 value he]
              simp [h1]
            | throws e s2 => simp [he] at h
            | nullDeref => simp [he] at h
            | outOfFuel => simp [he] at h
          | throws e s2 => simp [he0, Outcome.bind] at h
          | nullDeref => simp [he0, Outcome.bind] at h
          | outOfFuel => simp [he0, Outcome.bind] at h

/-- `GetValue_rel` for a relation that holds across the cache assignments of
`FormulaImpl::GetValue` only: the assigned value is what `Evaluate` returned. -/
theorem GetValue_rel_eval (X : Externals D) (Rel : Sheet D → Sheet D → Prop)
    (hrefl : ∀ s, Rel s s) (htrans : ∀ a b c, Rel a b → Rel b c → Rel a c) (N : Nat)
    (hcache : ∀ n, n ≤ N → ∀ (s0 s1 : Sheet D) (p : Position) (c : Cell D) (f : FormulaAST D)
      (v : FormulaValue D), s0.cellAt p = some c → c.impl_ = .FormulaImpl f none →
      Formula.Evaluate X (Cell.GetValue X n) f s0 = .ok v s1 → Rel s1 (s1.setCache p v)) :
    ∀ (fuel : Nat), fuel ≤ N + 1 → ∀ (s : Sheet D) (p : Position),
      (Cell.GetValue X fuel s p).StateSat (Rel s) := by
  intro fuel
  induction fuel with
  | zero => intro _ s p s1 h; simp [Cell.GetValue, Outcome.state] at h
  | succ n ih =>
    intro hn s p
    have ihn := ih (by omega)
    simp only [Cell.GetValue]
    cases hc : s.cellAt p with
    | none => intro s1 h; simp [Outcome.state] at h
    | some c =>
      simp only
      cases hi : c.impl_ with
      | EmptyImpl => exact Outcome.StateSat_ok _ _ _ (hrefl s)
      | TextImpl t => exact Outcome.StateSat_ok _ _ _ (hrefl s)
      | FormulaImpl f cache_ =>
        simp only
        have hev := Evaluate_rel X Rel hrefl htrans (Cell.GetValue X n) ihn f
        have second : ∀ t, Rel s t → ((Formula.Evaluate X (Cell.GetValue X n) f t).bind
            (fun value s2 => Outcome.ok value.toCellValue s2)).StateSat (Rel s) := by
          intro t ht
          apply Outcome.StateSat_bind _ _ (Rel s) (Rel s) _ (fun _ h => h)
          · intro v s2 h2
            exact Outcome.StateSat_ok _ _ _ h2
          · intro s2 hs2
            exact htrans _ _ _ ht (hev t s2 hs2)
        cases cache_ with
        | some v =>
          simp only [Outcome.bind]
          exact second s (hrefl s)
        | none =>
          simp only
          cases he : Formula.Evaluate X (Cell.GetValue X n) f s with
          | ok v s1 =>
            simp only [Outcome.bind]
            apply second
            have h1 : Rel s s1 := hev s s1 (by rw [he]; rfl)
            exact htrans _ _ _ h1 (hcache n (by omega) s s1 p c f v hc hi he)
          | throws e s1 =>
            simp only [Outcome.bind]
            exact Outcome.StateSat_throws _ _ _ (hev s s1 (by rw [he]; rfl))
          | nullDeref => intro s1 h; simp [Outcome.bind, Outcome.state] at h
          | outOfFuel => intro s1 h; simp [Outcome.bind, Outcome.state] at h

theorem CachesSound.mono (X : Externals D) (N M : Nat) (s : Sheet D) (h : CachesSound X N s)
    (hNM : N ≤ M) : CachesSound X M s := by
  intro p c f v hc hi
  exact evaluateSettled_settled_mono X N M s s (CacheLe.reflexive s) hNM f v (h p c f v hc hi)

/-- `Cell::GetValue` keeps the caches sound: a cache it fills holds the value
`Evaluate` returned, and the caches it found stay what they were. -/
theorem CachesSound_GetValue (X : Externals D) (N : Nat) (fuel : Nat) (hf : fuel ≤ N + 1)
    (s : Sheet D) (p : Position) (hs : CachesSound X N s) :
    (Cell.GetValue X fuel s p).StateSat (CachesSound X N) := by
  have key := GetValue_rel_eval X
    (fun a b => CacheLe a b ∧ ∀ e c f w, b.cellAt e = some c → c.impl_ = .FormulaImpl f (some w) →
      (∃ c0, a.cellAt e = some c0 ∧ c0.impl_ = .FormulaImpl f (some w)) ∨
        evaluateSettled X b (settledValue X N b) f = some w)
    (fun a => ⟨CacheLe.reflexive a, fun e c f w hc hi => Or.inl ⟨c, hc, hi⟩⟩)
    (by
      intro a b c hab hbc
      refine ⟨hab.1.transitive hbc.1, ?_⟩
      intro e cc f w hc hi
      rcases hbc.2 e cc f w hc hi with ⟨c0, hc0, hi0⟩ | hr
      · rcases hab.2 e c0 f w hc0 hi0 with hl | hr
        · exact Or.inl hl
        · exact Or.inr (evaluateSettled_settled_mono X N N b c hbc.1 (le_refl _) f w hr)
      · exact Or.inr hr)
    N
    (by
      intro n hn s0 s1 q c f v hc hi he
      refine ⟨CacheLe.setCache s1 q v, ?_⟩
      intro e cc g w hcc hii
      rw [Sheet.cellAt_setCache] at hcc
      by_cases heq : e = q
      · subst heq
        right
        have hle : CacheLe s0 s1 := Evaluate_rel X CacheLe CacheLe.reflexive
          (fun _ _ _ h1 h2 => h1.transitive h2) (Cell.GetValue X n) (GetValue_cacheLe X n) f s0 s1
          (by rw [he]; rfl)
        obtain ⟨c1, hc1, hinv⟩ := hle.cellAt_some e c hc
        rw [hi] at hinv
        simp only [if_true, hc1, Option.map_some', Option.some.injEq] at hcc
        cases hc1i : c1.impl_ with
        | EmptyImpl => simp [hc1i, Impl.InvalidateCache] at hinv
        | TextImpl t => simp [hc1i, Impl.InvalidateCache] at hinv
        | FormulaImpl f1 cache1 =>
          simp only [hc1i, Impl.InvalidateCache, Impl.FormulaImpl.injEq, and_true] at hinv
          subst hinv
          rw [hc1i] at hcc
          simp only at hcc
          rw [← hcc] at hii
          simp only [Impl.FormulaImpl.injEq, Option.some.injEq] at hii
          obtain ⟨hfg, hvw⟩ := hii
          subst hfg; subst hvw
          have h1 := evaluate_after X (Cell.GetValue X n) (settledValue X n) (GetValue_after X n)
            (settled_GetValue X n) (fun s p c s1 => GetValue_no_FormulaError X n s s1 p c)
            (GetValue_cacheLe X n)
            (fun a b p v hle hv => settledValue_mono X n n a b p v hle (le_refl _) hv) f1 s0 s1 v he
          exact evaluateSettled_settled_mono X n N s1 _ (CacheLe.setCache s1 e v) hn f1 v h1
      · left
        simp only [heq, if_false] at hcc
        exact ⟨cc, hcc, hii⟩)
    fuel hf s p
  intro s1 hs1
  obtain ⟨hle, hcases⟩ := key s1 hs1
  intro e c f w hc hi
  rcases hcases e c f w hc hi with ⟨c0, hc0, hi0⟩ | hr
  · exact evaluateSettled_settled_mono X N N s s1 hle (le_refl _) f w (hs e c0 f w hc0 hi0)
  · exact hr

theorem executeSettled_congr (X : Externals D) (lookA lookB : Position → Option (Except Category D)) :
    ∀ (e : Expr D), (∀ p ∈ e.positions, ∀ r, lookA p = some r → lookB p = some r) →
      ∀ (r : Except Category D), e.ExecuteSettled X lookA = some r →
        e.ExecuteSettled X lookB = some r := by
  intro e
  induction e with
  | number d => intro _ r hr; exact hr
  | cell p => intro h r hr; exact h p (by simp [Expr.positions]) r hr
  | unary op e ih =>
    intro h r hr
    simp only [Expr.ExecuteSettled] at hr ⊢
    cases he : e.ExecuteSettled X lookA with
    | none => simp [he] at hr
    | some re =>
      rw [ih (fun p hp => h p (by simpa [Expr.positions] using hp)) re he]
      rw [he] at hr
      exact hr
  | binary op l r ihl ihr =>
    intro h res hr
    simp only [Expr.ExecuteSettled] at hr ⊢
    cases hlv : l.ExecuteSettled X lookA with
    | none => simp [hlv] at hr
    | some rl =>
      rw [ihl (fun p hp => h p (by simp [Expr.positions, hp])) rl hlv]
      rw [hlv] at hr
      cases rl with
      | error c => exact hr
      | ok a =>
        simp only at hr ⊢
        cases hrv : r.ExecuteSettled X lookA with
        | none => simp [hrv] at hr
        | some rr =>
          rw [ihr (fun p hp => h p (by simp [Expr.positions, hp])) rr hrv]
          rw [hrv] at hr
          exact hr

theorem settledValue_not_uncached (X : Externals D) (n : Nat) (s : Sheet D) (q : Position)
    (v : CellValue D) (c : Cell D) (hc : s.cellAt q = some c) (h : settledValue X n s q = some v) :
    ∀ g, c.impl_ ≠ .FormulaImpl g none := by
  intro g hg
  cases n with
  | zero => simp [settledValue] at h
  | succ n => simp [settledValue, hc, hg] at h

/-- The value of a kept cached formula is read off `t` as it is read off `s`,
given that the settled values of kept cells transfer. -/
theorem evaluateSettled_transfer (X : Externals D) (s t : Sheet D) (hB : ReadsKept s t) (n : Nat)
    (hih : ∀ q v, settledValue X n s q = some v → Kept s t q → settledValue X n t q = some v)
    (q : Position) (c : Cell D) (f : FormulaAST D) (w : FormulaValue D)
    (hc : s.cellAt q = some c) (hi : c.impl_ = .FormulaImpl f (some w)) (hk : Kept s t q)
    (v : FormulaValue D) (h : evaluateSettled X s (settledValue X n s) f = some v) :
    evaluateSettled X t (settledValue X n t) f = some v := by
  unfold evaluateSettled at h ⊢
  cases hx : f.root.ExecuteSettled X (lookupSettled X s (settledValue X n s)) with
  | none => simp [hx] at h
  | some r =>
    have hlook : ∀ p ∈ f.root.positions, ∀ x,
        lookupSettled X s (settledValue X n s) p = some x →
        lookupSettled X t (settledValue X n t) p = some x := by
      intro p hp x hl
      unfold lookupSettled at hl ⊢
      by_cases hv : p.IsValid = true
      · obtain ⟨cr, hcr, hkeep⟩ := hB q c f w hc hi hk p hp hv
        simp only [hv, Bool.not_true, Bool.false_eq_true, if_false, hcr] at hl ⊢
        cases hg : settledValue X n s p with
        | none => simp [hg] at hl
        | some val =>
          have hkp := hkeep (settledValue_not_uncached X n s p val cr hcr hg)
          obtain ⟨c1, ct, h1, h2, _⟩ := hkp
          simp only [h2]
          rw [hih p val hg ⟨c1, ct, h1, h2, by assumption⟩]
          simpa [hg] using hl
      · have hv1 : p.IsValid = false := by simpa using hv
        simpa [hv1] using hl
    rw [executeSettled_congr X _ _ f.root hlook r hx]
    rw [hx] at h
    exact h

/-- The settled value of a kept cell is read off `t` as it is read off `s`. -/
theorem settledValue_transfer (X : Externals D) (s t : Sheet D) (hB : ReadsKept s t) :
    ∀ (n : Nat) (q : Position) (v : CellValue D), settledValue X n s q = some v → Kept s t q →
      settledValue X n t q = some v := by
  intro n
  induction n with
  | zero => intro q v h; simp [settledValue] at h
  | succ n ih =>
    intro q v h hk
    obtain ⟨c, ct, hc, hct, hii⟩ := hk
    simp only [settledValue, hc] at h
    simp only [settledValue, hct, hii]
    cases hi : c.impl_ with
    | EmptyImpl => simpa [hi] using h
    | TextImpl txt => simpa [hi] using h
    | FormulaImpl f cache =>
      cases cache with
      | none => simp [hi] at h
      | some w =>
        simp only [hi] at h ⊢
        cases hev : evaluateSettled X s (settledValue X n s) f with
        | none => simp [hev] at h
        | some fv =>
          rw [evaluateSettled_transfer X s t hB n ih q c f w hc hi ⟨c, ct, hc, hct, hii⟩ fv hev]
          rw [hev] at h
          exact h

/-- The caches of `t` are sound when every cached formula of `t` is a kept
cached formula of `s` and `s` is sound. -/
theorem CachesSound.transfer (X : Externals D) (s t : Sheet D) (N M : Nat) (hNM : N ≤ M)
    (hs : CachesSound X N s) (hB : ReadsKept s t)
    (hA : ∀ q ct f w, t.cellAt q = some ct → ct.impl_ = .FormulaImpl f (some w) →
      ∃ c, s.cellAt q = some c ∧ ct.impl_ = c.impl_) :
    CachesSound X M t := by
  apply CachesSound.mono X N M t _ hNM
  intro q ct f w hct hi
  obtain ⟨c, hc, hii⟩ := hA q ct f w hct hi
  have hci : c.impl_ = .FormulaImpl f (some w) := by rw [← hii, hi]
  exact evaluateSettled_transfer X s t hB N (settledValue_transfer X s t hB N) q c f w hc hci
    ⟨c, ct, hc, hct, hii⟩ w (hs q c f w hc hci)

theorem mem_uniqueAdjacent (x : Position) : ∀ (l : List Position), x ∈ uniqueAdjacent l ↔ x ∈ l := by
  intro l
  induction l with
  | nil => simp [uniqueAdjacent]
  | cons a tl ih =>
    cases tl with
    | nil => simp [uniqueAdjacent]
    | cons b rest =>
      by_cases hab : a = b
      · subst hab
        simp only [uniqueAdjacent, if_true]
        rw [ih]
        simp
      · simp only [uniqueAdjacent, hab, if_false, List.mem_cons]
        rw [ih]
        simp

/-- In a well-formed, covered sheet a formula cell holds a reference edge to
every position its expression reads. -/
theorem reads_are_references (s : Sheet D) (hw : WellFormed s) (hcov : Covered s) (q : Position)
    (c : Cell D) (f : FormulaAST D) (cache : Option (FormulaValue D)) (hc : s.cellAt q = some c)
    (hi : c.impl_ = .FormulaImpl f cache) (r : Position) (hr : r ∈ f.root.positions) :
    r ∈ s.references q := by
  have h1 := hcov q c f cache hc hi r hr
  have h2 : r ∈ c.impl_.GetReferencedCells := by
    rw [hi]
    simp only [Impl.GetReferencedCells, FormulaAST.GetReferencedCells]
    exact (mem_uniqueAdjacent r f.cells).2 h1
  have h3 := (hw.complete q c hc r).2 h2
  simpa [Sheet.references, hc] using h3

theorem Covered.of_implAt (s t : Sheet D) (hcov : Covered s)
    (h : ∀ q f cache, t.implAt q = .FormulaImpl f cache → ∃ cache0, s.implAt q = .FormulaImpl f cache0) :
    Covered t := by
  intro q ct f cache hct hi r hr
  obtain ⟨cache0, h0⟩ := h q f cache (by rw [Sheet.implAt_of_cellAt t q ct hct, hi])
  cases hc : s.cellAt q with
  | none =>
    rw [Sheet.implAt_absent s q hc] at h0
    simp at h0
  | some c =>
    rw [Sheet.implAt_of_cellAt s q c hc] at h0
    exact hcov q c f cache0 hc h0 r hr

theorem Sheet.implAt_of_bodies (s t : Sheet D) (h : t.bodies = s.bodies) (q : Position) :
    (t.implAt q).InvalidateCache = (s.implAt q).InvalidateCache := by
  have h1 := Sheet.cellAt_of_bodies s t h q
  unfold Sheet.implAt Sheet.cellOrNew
  cases hc : s.cellAt q with
  | none =>
    cases hct : t.cellAt q with
    | none => rfl
    | some ct => simp [hc, hct] at h1
  | some c =>
    cases hct : t.cellAt q with
    | none => simp [hc, hct] at h1
    | some ct =>
      simp only [hc, hct, Option.map_some', Option.some.injEq] at h1
      have := congrArg Cell.impl_ h1
      simpa [Cell.body] using this

theorem Impl.formula_of_invalidate (a b : Impl D) (f : FormulaAST D) (cache : Option (FormulaValue D))
    (h : a.InvalidateCache = b.InvalidateCache) (ha : a = .FormulaImpl f cache) :
    ∃ cache0, b = .FormulaImpl f cache0 := by
  subst ha
  cases b with
  | EmptyImpl => simp [Impl.InvalidateCache] at h
  | TextImpl t => simp [Impl.InvalidateCache] at h
  | FormulaImpl g c0 =>
    simp only [Impl.InvalidateCache, Impl.FormulaImpl.injEq, and_true] at h
    exact ⟨c0, by rw [h]⟩

theorem Covered.bodies_eq (s t : Sheet D) (h : t.bodies = s.bodies) (hcov : Covered s) : Covered t :=
  Covered.of_implAt s t hcov (fun q f cache hq =>
    Impl.formula_of_invalidate _ _ f cache (Sheet.implAt_of_bodies s t h q) hq)

theorem length_le_of_keys (a b : Sheet D) (hnd : (a.cells_.map Prod.fst).Nodup)
    (hsub : ∀ q, b.find q = none → a.find q = none) : a.cells_.length ≤ b.cells_.length := by
  have h1 : a.cells_.map Prod.fst ⊆ b.cells_.map Prod.fst := by
    intro q hq
    by_contra hnot
    have := hsub q ((findEntry_eq_none_iff b.cells_ q).2 hnot)
    exact ((findEntry_eq_none_iff a.cells_ q).1 this) hq
  have h2 := (List.subperm_of_subset hnd h1).length_le
  simpa using h2

/-- The caches stay sound across a change that keeps every present cell. -/
theorem Sound.frame (X : Externals D) (s t : Sheet D) (hs : Sound X s) (hwt : WellFormed t)
    (hlen : evalFuel s ≤ evalFuel t)
    (hkeep : ∀ q c, s.cellAt q = some c → Kept s t q)
    (hnew : ∀ q ct, t.cellAt q = some ct → s.cellAt q = none → ct.impl_ = .EmptyImpl) :
    Sound X t := by
  have hA : ∀ q ct f w, t.cellAt q = some ct → ct.impl_ = .FormulaImpl f (some w) →
      ∃ c, s.cellAt q = some c ∧ ct.impl_ = c.impl_ := by
    intro q ct f w hct hi
    cases hc : s.cellAt q with
    | none =>
      have := hnew q ct hct hc
      rw [hi] at this
      simp at this
    | some c =>
      obtain ⟨c1, ct1, h1, h2, h3⟩ := hkeep q c hc
      rw [hc] at h1
      rw [hct] at h2
      simp only [Option.some.injEq] at h1 h2
      subst h1; subst h2
      exact ⟨c, rfl, h3⟩
  refine ⟨hwt, ?_, ?_⟩
  · intro q ct f cache hct hi r hr
    cases hc : s.cellAt q with
    | none =>
      have := hnew q ct hct hc
      rw [hi] at this
      simp at this
    | some c =>
      obtain ⟨c1, ct1, h1, h2, h3⟩ := hkeep q c hc
      rw [hc] at h1
      rw [hct] at h2
      simp only [Option.some.injEq] at h1 h2
      subst h1; subst h2
      exact hs.covered q c f cache hc (by rw [← h3, hi]) r hr
  · apply CachesSound.transfer X s t (evalFuel s) (evalFuel t) hlen hs.caches _ hA
    intro q c f w hc hi _ r hr _
    have href := reads_are_references s hs.wf hs.covered q c f (some w) hc hi r hr
    have hpres := present_of_dependents s r q ((hs.wf.symm q r).1 href)
    cases hcr : s.cellAt r with
    | none => simp [hcr] at hpres
    | some cr => exact ⟨cr, rfl, fun _ => hkeep r cr hcr⟩

theorem buildImpl_formula (X : Externals D) (text : String) (f : FormulaAST D)
    (cache : Option (FormulaValue D)) (h : buildImpl X text = .ok (.FormulaImpl f cache)) :
    cache = none ∧ ∃ e, X.ParseFormulaAST e = some f := by
  unfold buildImpl at h
  cases hd : text.data with
  | nil => simp [hd] at h
  | cons c rest =>
    simp only [hd] at h
    split at h
    · unfold FormulaImpl.new at h
      simp only [hd] at h
      split at h
      · simp at h
      · unfold ParseFormula at h
        cases hp : X.ParseFormulaAST (String.mk rest) with
        | none => simp [hp] at h
        | some ast =>
          simp only [hp, Except.ok.injEq, Impl.FormulaImpl.injEq] at h
          exact ⟨h.2.symm, String.mk rest, by rw [hp, h.1]⟩
    · unfold TextImpl.new at h
      split at h <;> simp at h

theorem Rewired.stays_present {s s1 : Sheet D} {self : Position} {impl : Impl D}
    (h : Rewired s self impl s1) (q : Position) (hq : (s.cellAt q).isSome) :
    (s1.cellAt q).isSome := by
  cases hc : s1.cellAt q with
  | some c => simp
  | none =>
    exfalso
    rcases (Sheet.cellAt_eq_none_iff s1 q).1 hc with h1 | h1
    · have h2 := (Sheet.cellAt_eq_none_iff s q).2 (Or.inl ((h.find_none q).1 h1).1)
      simp [h2] at hq
    · have h2 := (Sheet.cellAt_eq_none_iff s q).2 (Or.inr ((h.find_null q).1 h1))
      simp [h2] at hq

theorem Rewired.implAt_ne {s s1 : Sheet D} {self : Position} {impl : Impl D}
    (h : Rewired s self impl s1) (q : Position) (hq : q ≠ self) : s1.implAt q = s.implAt q := by
  cases hc : s1.cellAt q with
  | some c1 => exact h.implAt_other q hq (by simp [hc])
  | none =>
    have hs : s.cellAt q = none := by
      cases hcs : s.cellAt q with
      | none => rfl
      | some c =>
        have := h.stays_present q (by simp [hcs])
        simp [hc] at this
    rw [Sheet.implAt_absent s1 q hc, Sheet.implAt_absent s q hs]

theorem Rewired.length_le {s s1 : Sheet D} {self : Position} {impl : Impl D}
    (h : Rewired s self impl s1) (hnd : (s.cells_.map Prod.fst).Nodup) :
    s.cells_.length ≤ s1.cells_.length :=
  length_le_of_keys s s1 hnd (fun q hq => ((h.find_none q).1 hq).1)

theorem evalFuel_of_bodies (s t : Sheet D) (h : t.bodies = s.bodies) : evalFuel t = evalFuel s := by
  have := congrArg List.length (Sheet.keys_of_bodies s t h)
  simp only [List.length_map] at this
  simp [evalFuel, this]

theorem HoldsCache_of_cellAt (s : Sheet D) (q : Position) (c : Cell D) (f : FormulaAST D)
    (w : FormulaValue D) (hc : s.cellAt q = some c) (hi : c.impl_ = .FormulaImpl f (some w)) :
    s.HoldsCache q := by
  unfold Sheet.HoldsCache
  rw [Sheet.implAt_of_cellAt s q c hc, hi]
  rfl

theorem implAt_eq_of_holds (s t : Sheet D) (q : Position)
    (h : t.implAt q = s.implAt q ∨ t.implAt q = (s.implAt q).InvalidateCache)
    (hc : t.HoldsCache q) : t.implAt q = s.implAt q := by
  rcases h with h | h
  · exact h
  · exfalso
    unfold Sheet.HoldsCache at hc
    rw [h, Impl.cachedWeight_invalidate] at hc
    omega

/-- `Cell::Set`, when it returns, keeps the caches sound: the caches it leaves
belong to cells whose evaluation reads nothing the call changed. -/
theorem Cell.Set_sound (X : Externals D) (hX : ListsItsCells X)
    (setCell : Sheet D → Position → String → Outcome (Sheet D) Unit) (hsc : CreatesEmpty setCell)
    (s t : Sheet D) (self : Position) (text : String) (hs : Sound X s)
    (hself : (s.cellAt self).isSome) (h : Cell.Set X setCell s self text = .ok () t) :
    Sound X t := by
  obtain ⟨impl, s2, hb, hcheck, hrew, hupd⟩ := Cell.Set_ok X setCell hsc s t self text h
  have hwt : WellFormed t := Cell.Set_wf X setCell hsc s self text hs.wf hself t (by rw [h]; rfl)
  have hbod := UpdateDependencies_bodies _ _ _ _ _ hupd
  have hw2 : WellFormed s2 := by
    obtain ⟨b, hb1, hiff⟩ := CheckCyclicDependency_spec s self impl hrew.refs_valid
    rw [hcheck] at hb1
    simp only [Outcome.ok.injEq, and_true] at hb1
    subst hb1
    apply WellFormed.rewired s s2 self impl hs.wf hself hrew
    intro hex
    have := hiff.2 hex
    simp at this
  obtain ⟨hstep, hroot, hpost⟩ := UpdateDependencies_post _ _ _ _ _ hupd
  have himpl : ∀ q, t.HoldsCache q → q ≠ self ∧ t.implAt q = s.implAt q := by
    intro q hq
    have hne : q ≠ self := fun e => hroot (e ▸ hq)
    exact ⟨hne, (implAt_eq_of_holds s2 t q (hstep q) hq).trans (hrew.implAt_ne q hne)⟩
  have hA : ∀ q ct f w, t.cellAt q = some ct → ct.impl_ = .FormulaImpl f (some w) →
      ∃ c, s.cellAt q = some c ∧ ct.impl_ = c.impl_ := by
    intro q ct f w hct hi
    obtain ⟨_, heq⟩ := himpl q (HoldsCache_of_cellAt t q ct f w hct hi)
    rw [Sheet.implAt_of_cellAt t q ct hct] at heq
    cases hc : s.cellAt q with
    | none =>
      rw [Sheet.implAt_absent s q hc, hi] at heq
      simp at heq
    | some c =>
      rw [Sheet.implAt_of_cellAt s q c hc] at heq
      exact ⟨c, rfl, heq⟩
  have hB : ReadsKept s t := by
    intro q c f w hc hi hk r hr _
    obtain ⟨c0, ct, hc0, hct, hii⟩ := hk
    rw [hc] at hc0
    simp only [Option.some.injEq] at hc0
    subst hc0
    have hholds : t.HoldsCache q := HoldsCache_of_cellAt t q ct f w hct (by rw [hii, hi])
    obtain ⟨hqne, _⟩ := himpl q hholds
    have href := reads_are_references s hs.wf hs.covered q c f (some w) hc hi r hr
    have href2 : r ∈ s2.references q := (hrew.refs_other q r hqne).2 href
    have hdep2 : q ∈ s2.dependents r := (hw2.symm q r).1 href2
    have hrne : r ≠ self := by
      intro e
      exact hpost self q (e ▸ hdep2) (Or.inl ⟨rfl, rfl⟩) hholds
    have hpres := present_of_dependents s r q ((hs.wf.symm q r).1 href)
    cases hcr : s.cellAt r with
    | none => simp [hcr] at hpres
    | some cr =>
      refine ⟨cr, rfl, ?_⟩
      intro hnot
      have h2 : s2.implAt r = cr.impl_ := by
        rw [hrew.implAt_ne r hrne, Sheet.implAt_of_cellAt s r cr hcr]
      have ht : t.implAt r = cr.impl_ := by
        rcases hstep r with h3 | h3
        · rw [h3, h2]
        · rw [h3, h2]
          cases hcri : cr.impl_ with
          | EmptyImpl => rfl
          | TextImpl txt => rfl
          | FormulaImpl g cache =>
            cases cache with
            | none => exact absurd hcri (hnot g)
            | some w1 =>
              exfalso
              apply hpost r q hdep2 (Or.inr ⟨?_, ?_⟩) hholds
              · unfold Sheet.HoldsCache
                rw [h2, hcri]
                rfl
              · unfold Sheet.HoldsCache
                rw [h3, Impl.cachedWeight_invalidate]
                omega
      have hp2 := present_of_dependents s2 r q hdep2
      have hpt : ∃ ctr, t.cellAt r = some ctr := by
        have h5 := Sheet.cellAt_of_bodies s2 t hbod r
        cases hx : t.cellAt r with
        | some ctr => exact ⟨ctr, rfl⟩
        | none =>
          rw [hx] at h5
          cases hy : s2.cellAt r with
          | none => simp [hy] at hp2
          | some c2 => simp [hy] at h5
      obtain ⟨ctr, hctr⟩ := hpt
      refine ⟨cr, ctr, hcr, hctr, ?_⟩
      rw [← Sheet.implAt_of_cellAt t r ctr hctr]
      exact ht
  have hlen : evalFuel s ≤ evalFuel t := by
    rw [evalFuel_of_bodies s2 t hbod]
    have := hrew.length_le hs.wf.nodup
    simp only [evalFuel]
    omega
  refine ⟨hwt, ?_, CachesSound.transfer X s t _ _ hlen hs.caches hB hA⟩
  intro q ct f cache hct hi r hr
  have h6 := Sheet.implAt_of_bodies s2 t hbod q
  rw [Sheet.implAt_of_cellAt t q ct hct, hi] at h6
  obtain ⟨cache0, h7⟩ := Impl.formula_of_invalidate _ _ f cache h6 rfl
  by_cases hq : q = self
  · subst hq
    have hp2 : (s2.cellAt q).isSome := hrew.stays_present q hself
    cases hc2 : s2.cellAt q with
    | none => simp [hc2] at hp2
    | some c2 =>
      rw [Sheet.implAt_of_cellAt s2 q c2 hc2, hrew.impl_self c2 hc2] at h7
      rw [h7] at hb
      obtain ⟨_, e, he⟩ := buildImpl_formula X text f cache0 hb
      exact hX e f he r hr
  · rw [hrew.implAt_ne q hq] at h7
    cases hc : s.cellAt q with
    | none =>
      rw [Sheet.implAt_absent s q hc] at h7
      simp at h7
    | some c =>
      rw [Sheet.implAt_of_cellAt s q c hc] at h7
      exact hs.covered q c f cache0 hc h7 r hr

theorem Sound.of_empty (X : Externals D) : Sound X (Sheet.empty : Sheet D) where
  wf := WellFormed.empty
  covered := by
    intro p c f cache h
    simp [Sheet.cellAt, Sheet.find, Sheet.empty, findEntry] at h
  caches := by
    intro p c f v h
    simp [Sheet.cellAt, Sheet.find, Sheet.empty, findEntry] at h

theorem Sound.of_ensure (X : Externals D) (s : Sheet D) (pos : Position) (hs : Sound X s)
    (hv : pos.IsValid = true) : Sound X (s.ensure pos) := by
  apply Sound.frame X s (s.ensure pos) hs (WellFormed.ensure s pos hs.wf hv)
  · unfold Sheet.ensure evalFuel
    cases hf : s.find pos with
    | none => simp [Sheet.emplace]
    | some v => simp
  · intro q c hc
    refine ⟨c, c, hc, ?_, rfl⟩
    rw [Sheet.ensure_cellAt]
    by_cases hq : q = pos
    · subst hq
      have hf := (Sheet.cellAt_eq_some_iff s q c).1 hc
      simp [hf, hc]
    · simp [hq, hc]
  · intro q ct hct hc
    rw [Sheet.ensure_cellAt] at hct
    by_cases hq : q = pos ∧ (s.find pos).isNone = true
    · simp only [hq, and_self, if_true, Option.some.injEq] at hct
      rw [← hct]
      rfl
    · simp only [hq, if_false] at hct
      rw [hc] at hct
      simp at hct

/-- `Sheet::SetCell` keeps the caches sound, whether it returns or throws. -/
theorem SetCell_sound (X : Externals D) (hX : ListsItsCells X) (s : Sheet D) (pos : Position)
    (text : String) (hs : Sound X s) : (Sheet.SetCell X s pos text).StateSat (Sound X) := by
  rcases SetCell_cases X s pos text with ⟨_, h⟩ | ⟨_, _, h⟩ | ⟨hv, _, hpres, h⟩
  · rw [h]; exact Outcome.StateSat_throws _ _ _ hs
  · rw [h]; intro s1 hs1; simp [Outcome.state] at hs1
  · rw [h]
    have hse := Sound.of_ensure X s pos hs hv
    have hsc := SetCellFuel_createsEmpty X 0
    intro t ht
    cases ho : Cell.Set X (SetCellFuel X 1) (s.ensure pos) pos text with
    | ok u t1 =>
      simp only [ho, Outcome.state, Option.some.injEq] at ht
      subst ht
      exact Cell.Set_sound X hX _ hsc _ _ pos text hse hpres ho
    | throws e t1 =>
      simp only [ho, Outcome.state, Option.some.injEq] at ht
      subst ht
      rw [Cell.Set_throws X _ hsc _ _ pos text e hpres ho]
      exact hse
    | nullDeref => simp [ho, Outcome.state] at ht
    | outOfFuel => simp [ho, Outcome.state] at ht

/-- Resetting the pointer of a cell that no cell depends on keeps the caches sound. -/
theorem Sound.of_reset (X : Externals D) (s : Sheet D) (p : Position) (hs : Sound X s)
    (hdeps : s.dependents p = []) (hwt : WellFormed (s.reset p)) : Sound X (s.reset p) := by
  have hcell : ∀ q, q ≠ p → (s.reset p).cellAt q = s.cellAt q := by
    intro q hq
    rw [Sheet.cellAt_reset]
    simp [hq]
  have hgone : ∀ q ct, (s.reset p).cellAt q = some ct → q ≠ p ∧ s.cellAt q = some ct := by
    intro q ct hct
    rw [Sheet.cellAt_reset] at hct
    by_cases hq : q = p
    · simp [hq] at hct
    · simp only [hq, if_false] at hct
      exact ⟨hq, hct⟩
  refine ⟨hwt, ?_, ?_⟩
  · intro q ct f cache hct hi r hr
    exact hs.covered q ct f cache (hgone q ct hct).2 hi r hr
  · apply CachesSound.transfer X s (s.reset p) (evalFuel s) _ _ hs.caches
    · intro q c f w hc hi _ r hr _
      have href := reads_are_references s hs.wf hs.covered q c f (some w) hc hi r hr
      have hdep := (hs.wf.symm q r).1 href
      have hrne : r ≠ p := by
        intro e
        rw [e, hdeps] at hdep
        simp at hdep
      have hpres := present_of_dependents s r q hdep
      cases hcr : s.cellAt r with
      | none => simp [hcr] at hpres
      | some cr => exact ⟨cr, rfl, fun _ => ⟨cr, cr, hcr, by rw [hcell r hrne, hcr], rfl⟩⟩
    · intro q ct f w hct _
      exact ⟨ct, (hgone q ct hct).2, rfl⟩
    · simp [evalFuel, Sheet.reset, length_setEntry]

/-- The steps of `Sheet::ClearCell` on a valid position of a well-formed sheet. -/
theorem ClearCell_steps (X : Externals D) (s : Sheet D) (pos : Position) (hw : WellFormed s)
    (hv : pos.IsValid = true) :
    (s.cellAt pos = none ∧ Sheet.ClearCell X s pos = .ok () s) ∨
    (∃ s1, (s.cellAt pos).isSome ∧ Cell.Clear X s pos = .ok () s1 ∧
      ((s1.dependents pos = [] ∧ Sheet.ClearCell X s pos = .ok () (s1.reset pos)) ∨
        (s1.dependents pos ≠ [] ∧ Sheet.ClearCell X s pos = .ok () s1))) := by
  unfold Sheet.ClearCell
  simp only [hv, Bool.not_true, Bool.false_eq_true, if_false]
  cases hc : s.cellAt pos with
  | none =>
    left
    refine ⟨rfl, ?_⟩
    rcases (Sheet.cellAt_eq_none_iff s pos).1 hc with h | h <;> simp [h]
  | some c =>
    right
    have hf := (Sheet.cellAt_eq_some_iff s pos c).1 hc
    obtain ⟨s1, _, hclear, _, _, _⟩ := Cell.Clear_spec X s pos hw (by simp [hc])
    refine ⟨s1, by simp, hclear, ?_⟩
    simp only [hf, hclear, Outcome.bind]
    cases hd : s1.dependents pos with
    | nil => left; simp [Cell.IsReferenced, hd]
    | cons a tl => right; simp [Cell.IsReferenced, hd]

/-- `Sheet::ClearCell` keeps the caches sound. -/
theorem ClearCell_sound (X : Externals D) (hX : ListsItsCells X) (s : Sheet D) (pos : Position)
    (hs : Sound X s) : (Sheet.ClearCell X s pos).StateSat (Sound X) := by
  by_cases hv : pos.IsValid = true
  · have hwf := ClearCell_wf X s pos hs.wf
    rcases ClearCell_steps X s pos hs.wf hv with ⟨_, h⟩ | ⟨s1, hpres, hclear, hcase⟩
    · rw [h]; exact Outcome.StateSat_ok _ _ _ hs
    · have hs1 : Sound X s1 :=
        Cell.Set_sound X hX (Sheet.SetCell X) (SetCell_createsEmpty X) s s1 pos "" hs hpres hclear
      rcases hcase with ⟨hd, h⟩ | ⟨_, h⟩
      · rw [h] at hwf ⊢
        exact Outcome.StateSat_ok _ _ _ (Sound.of_reset X s1 pos hs1 hd (hwf _ rfl))
      · rw [h]; exact Outcome.StateSat_ok _ _ _ hs1
  · have hv1 : pos.IsValid = false := by simpa using hv
    rw [ClearCell_invalid X s pos hv1]
    exact Outcome.StateSat_throws _ _ _ hs

/-- The `GetValue` of a client keeps the caches sound. -/
theorem GetValue_sound (X : Externals D) (s : Sheet D) (pos : Position) (hs : Sound X s) :
    (Sheet.GetValue X s pos).StateSat (Sound X) := by
  unfold Sheet.GetValue
  split
  · exact Outcome.StateSat_throws _ _ _ hs
  · intro s1 hs1
    have hbod := GetValue_bodies X _ s pos s1 hs1
    refine ⟨WellFormed.of_bodies s s1 hbod hs.wf, Covered.bodies_eq s s1 hbod hs.covered, ?_⟩
    rw [evalFuel_of_bodies s s1 hbod]
    exact CachesSound_GetValue X (evalFuel s) (evalFuel s + 1) (le_refl _) s pos hs.caches s1 hs1

theorem Op.apply_sound (X : Externals D) (hX : ListsItsCells X) (s s1 : Sheet D) (op : Op)
    (hs : Sound X s) (h : op.apply X s = some s1) : Sound X s1 := by
  cases op with
  | SetCell pos text => exact SetCell_sound X hX s pos text hs s1 h
  | ClearCell pos => exact ClearCell_sound X hX s pos hs s1 h
  | GetValue pos => exact GetValue_sound X s pos hs s1 h

/-- Every sheet a sequence of calls leaves behind has sound caches. -/
theorem runOps_sound (X : Externals D) (hX : ListsItsCells X) :
    ∀ (ops : List Op) (s s1 : Sheet D), Sound X s → runOps X ops s = some s1 → Sound X s1 := by
  intro ops
  induction ops with
  | nil =>
    intro s s1 hs h
    simp only [runOps, Option.some.injEq] at h
    exact h ▸ hs
  | cons op rest ih =>
    intro s s1 hs h
    simp only [runOps] at h
    cases ha : op.apply X s with
    | none => simp [ha] at h
    | some s2 =>
      simp only [ha] at h
      exact ih s2 s1 (Op.apply_sound X hX s s2 op hs ha) h

theorem sampleX_listsItsCells : ListsItsCells sampleX := by
  intro text ast h p hp
  have h1 : sampleParse text = some ast := h
  unfold sampleParse at h1
  cases hs : sampleSum (sampleSplit text.data []) with
  | none => simp [hs] at h1
  | some ex =>
    simp only [hs, Option.some.injEq] at h1
    subst h1
    exact hp

/-! ### `GetValue` returns on every sound sheet -/

theorem execute_returns (X : Externals D) (lookup : Position → Sheet D → Outcome (Sheet D) D)
    (P : Sheet D → Prop) :
    ∀ (e : Expr D),
      (∀ p ∈ e.positions, ∀ s, P s →
        (∃ d s1, lookup p s = .ok d s1 ∧ P s1) ∨
          (∃ c s1, lookup p s = .throws (.FormulaError c) s1 ∧ P s1)) →
      ∀ s, P s →
        (∃ d s1, e.Execute X lookup s = .ok d s1 ∧ P s1) ∨
          (∃ c s1, e.Execute X lookup s = .throws (.FormulaError c) s1 ∧ P s1) := by
  intro e
  induction e with
  | number d => intro _ s hs; exact Or.inl ⟨d, s, rfl, hs⟩
  | cell p => intro h s hs; exact h p (by simp [Expr.positions]) s hs
  | unary op e ih =>
    intro h s hs
    simp only [Expr.Execute]
    rcases ih (fun p hp => h p (by simpa [Expr.positions] using hp)) s hs with
      ⟨d, s1, h1, hp1⟩ | ⟨c, s1, h1, hp1⟩
    · left; exact ⟨X.unary op d, s1, by simp [h1, Outcome.bind], hp1⟩
    · right; exact ⟨c, s1, by simp [h1, Outcome.bind], hp1⟩
  | binary op l r ihl ihr =>
    intro h s hs
    simp only [Expr.Execute]
    rcases ihl (fun p hp => h p (by simp [Expr.positions, hp])) s hs with
      ⟨a, s1, h1, hp1⟩ | ⟨c, s1, h1, hp1⟩
    · rcases ihr (fun p hp => h p (by simp [Expr.positions, hp])) s1 hp1 with
        ⟨b, s2, h2, hp2⟩ | ⟨c, s2, h2, hp2⟩
      · left; exact ⟨X.binary op a b, s2, by simp [h1, h2, Outcome.bind], hp2⟩
      · right; exact ⟨c, s2, by simp [h1, h2, Outcome.bind], hp2⟩
    · right; exact ⟨c, s1, by simp [h1, Outcome.bind], hp1⟩

theorem evaluate_returns (X : Externals D)
    (getValue : Sheet D → Position → Outcome (Sheet D) (CellValue D)) (P : Sheet D → Prop)
    (f : FormulaAST D)
    (h : ∀ p ∈ f.root.positions, ∀ s, P s →
      (∃ d s1, lookupValue X getValue p s = .ok d s1 ∧ P s1) ∨
        (∃ c s1, lookupValue X getValue p s = .throws (.FormulaError c) s1 ∧ P s1))
    (s : Sheet D) (hs : P s) : ∃ v s1, Formula.Evaluate X getValue f s = .ok v s1 ∧ P s1 := by
  unfold Formula.Evaluate
  rcases execute_returns X (lookupValue X getValue) P f.root h s hs with
    ⟨d, s1, h1, hp1⟩ | ⟨c, s1, h1, hp1⟩
  · rw [h1]
    by_cases hi : X.isinf d = true
    · refine ⟨.error .Arithmetic, s1, ?_, hp1⟩
      simp only [hi, if_true]
    · refine ⟨.number d, s1, ?_, hp1⟩
      simp only [hi, Bool.false_eq_true, if_false]
  · rw [h1]
    exact ⟨_, s1, rfl, hp1⟩

theorem length_le_of_present (s : Sheet D) (l : List Position) (hnd : l.Nodup)
    (hp : ∀ x ∈ l, (s.cellAt x).isSome) : l.length ≤ s.cells_.length := by
  have hsub : l ⊆ s.cells_.map Prod.fst := by
    intro x hx
    by_contra hnot
    have h1 := (findEntry_eq_none_iff s.cells_ x).2 hnot
    have h2 := (Sheet.cellAt_eq_none_iff s x).2 (Or.inl h1)
    have := hp x hx
    simp [h2] at this
  have := (List.subperm_of_subset hnd hsub).length_le
  simpa using this

theorem present_of_bodies (s s0 : Sheet D) (h : s.bodies = s0.bodies) (p : Position) :
    (s.cellAt p).isSome = (s0.cellAt p).isSome := by
  have h1 := Sheet.cellAt_of_bodies s0 s h p
  cases hc : s.cellAt p <;> cases hc0 : s0.cellAt p <;> simp [hc, hc0] at h1 ⊢

/-- On a well-formed, covered sheet `Cell::GetValue` of a present cell returns:
the cells on the way down from the cell first asked are distinct, so the depth
of the recursion stays below the number of cells. -/
theorem GetValue_returns (X : Externals D) (s0 : Sheet D) (hw : WellFormed s0) (hcov : Covered s0) :
    ∀ (n : Nat) (s : Sheet D) (p : Position) (path : List Position), s.bodies = s0.bodies →
      (s0.cellAt p).isSome → path.Nodup →
      (∀ x ∈ path, (s0.cellAt x).isSome ∧ Relation.TransGen (RefEdge s0) x p) →
      s0.cells_.length ≤ n + path.length →
      ∃ v s1, Cell.GetValue X n s p = .ok v s1 ∧ s1.bodies = s0.bodies := by
  intro n
  induction n with
  | zero =>
    intro s p path _ hp hnd hpath hlen
    exfalso
    have hnotin : p ∉ path := fun hin => hw.acyclic p (hpath p hin).2
    have := length_le_of_present s0 (p :: path) (List.nodup_cons.2 ⟨hnotin, hnd⟩) (by
      intro x hx
      rcases List.mem_cons.1 hx with e | e
      · rw [e]; exact hp
      · exact (hpath x e).1)
    simp only [List.length_cons] at this
    omega
  | succ n ih =>
    intro s p path hbod hp hnd hpath hlen
    have hnotin : p ∉ path := fun hin => hw.acyclic p (hpath p hin).2
    have hps : (s.cellAt p).isSome := by rw [present_of_bodies s s0 hbod]; exact hp
    cases hc : s.cellAt p with
    | none => simp [hc] at hps
    | some c =>
      simp only [Cell.GetValue, hc]
      cases hi : c.impl_ with
      | EmptyImpl => exact ⟨_, s, rfl, hbod⟩
      | TextImpl txt => exact ⟨_, s, rfl, hbod⟩
      | FormulaImpl f cache =>
        simp only
        have hf0 : ∃ c0 cache0, s0.cellAt p = some c0 ∧ c0.impl_ = .FormulaImpl f cache0 := by
          have h1 := Sheet.implAt_of_bodies s0 s hbod p
          rw [Sheet.implAt_of_cellAt s p c hc, hi] at h1
          obtain ⟨cache0, h2⟩ := Impl.formula_of_invalidate _ _ f cache h1 rfl
          cases hc0 : s0.cellAt p with
          | none => simp [hc0] at hp
          | some c0 =>
            rw [Sheet.implAt_of_cellAt s0 p c0 hc0] at h2
            exact ⟨c0, cache0, rfl, h2⟩
        obtain ⟨c0, cache0, hc0, hi0⟩ := hf0
        have hlook : ∀ r ∈ f.root.positions, ∀ t, t.bodies = s0.bodies →
            (∃ d t1, lookupValue X (Cell.GetValue X n) r t = .ok d t1 ∧ t1.bodies = s0.bodies) ∨
              (∃ c t1, lookupValue X (Cell.GetValue X n) r t = .throws (.FormulaError c) t1 ∧
                t1.bodies = s0.bodies) := by
          intro r hr t ht
          unfold lookupValue
          by_cases hv : r.IsValid = true
          · simp only [hv, Bool.not_true, Bool.false_eq_true, if_false]
            cases hcr : t.cellAt r with
            | none => exact Or.inl ⟨_, t, rfl, ht⟩
            | some cr =>
              simp only
              have href := reads_are_references s0 hw hcov p c0 f cache0 hc0 hi0 r hr
              have hpr : (s0.cellAt r).isSome := by
                rw [← present_of_bodies t s0 ht]; simp [hcr]
              obtain ⟨v, t1, hg, hb1⟩ := ih t r (p :: path) ht hpr
                (List.nodup_cons.2 ⟨hnotin, hnd⟩)
                (by
                  intro x hx
                  rcases List.mem_cons.1 hx with e | e
                  · rw [e]; exact ⟨hp, Relation.TransGen.single href⟩
                  · exact ⟨(hpath x e).1, Relation.TransGen.tail (hpath x e).2 href⟩)
                (by simp only [List.length_cons]; omega)
              have hrep := extract_repeat X (Cell.GetValue X n) r t t1 v hg
                (settled_GetValue X n t1 r v (GetValue_after X n t r v t1 hg))
              rw [hrep]
              cases hx : extractSettled X v with
              | ok d => exact Or.inl ⟨d, t1, rfl, hb1⟩
              | error ce => exact Or.inr ⟨ce, t1, rfl, hb1⟩
          · have hv1 : r.IsValid = false := by simpa using hv
            simp only [hv1, Bool.not_false, if_true]
            exact Or.inr ⟨_, t, rfl, ht⟩
        have hev := evaluate_returns X (Cell.GetValue X n) (fun t => t.bodies = s0.bodies) f hlook
        cases cache with
        | some w =>
          obtain ⟨v, s1, h1, hb1⟩ := hev s hbod
          refine ⟨v.toCellValue, s1, ?_, hb1⟩
          simp only [Outcome.bind, h1]
        | none =>
          obtain ⟨v0, sa, h1, hba⟩ := hev s hbod
          obtain ⟨v, s1, h2, hb1⟩ := hev (sa.setCache p v0)
            ((Sheet.bodies_setCache sa p v0).trans hba)
          refine ⟨v.toCellValue, s1, ?_, hb1⟩
          simp only [Outcome.bind, h1, h2]

/-- In every sound sheet the `GetValue` of a client on a present cell returns. -/
theorem Sheet.GetValue_total (X : Externals D) (s : Sheet D) (hs : Sound X s) (pos : Position)
    (hp : (s.cellAt pos).isSome) : ∃ v s1, Sheet.GetValue X s pos = .ok v s1 := by
  have hv : pos.IsValid = true := by
    apply hs.wf.valid pos
    intro hn
    have := (Sheet.cellAt_eq_none_iff s pos).2 (Or.inl hn)
    simp [this] at hp
  unfold Sheet.GetValue
  simp only [hv, Bool.not_true, Bool.false_eq_true, if_false]
  obtain ⟨v, s1, h, _⟩ := GetValue_returns X s hs.wf hs.covered (evalFuel s + 1) s pos [] rfl hp
    List.nodup_nil (by simp) (by simp only [evalFuel, List.length_nil]; omega)
  exact ⟨v, s1, h⟩

/-- No public call on a sound sheet exhausts the fuel of the model: the sheets
reached by `runOps` are those the calls of the program reach, short of a call
through a null pointer. -/
theorem Op.apply_fuel (X : Externals D) (s : Sheet D) (hs : Sound X s) (pos : Position)
    (text : String) :
    Sheet.SetCell X s pos text ≠ .outOfFuel ∧ Sheet.ClearCell X s pos ≠ .outOfFuel ∧
      Sheet.GetValue X s pos ≠ .outOfFuel := by
  refine ⟨?_, ?_, ?_⟩
  · rcases SetCell_cases X s pos text with ⟨_, h⟩ | ⟨_, _, h⟩ | ⟨hv, _, hpres, h⟩
    · rw [h]; simp
    · rw [h]; simp
    · rw [h]
      exact Cell.Set_fuel X _ (SetCellFuel_createsEmpty X 0) _ pos text
        (WellFormed.ensure s pos hs.wf hv) hpres
  · by_cases hv : pos.IsValid = true
    · obtain ⟨s1, h1, _⟩ := ClearCell_spec X s pos hs.wf hv
      rw [h1]; simp
    · have hv1 : pos.IsValid = false := by simpa using hv
      rw [ClearCell_invalid X s pos hv1]; simp
  · cases hc : s.cellAt pos with
    | none =>
      unfold Sheet.GetValue
      by_cases hv : pos.IsValid = true
      · simp [hv, Cell.GetValue, hc]
      · have hv1 : pos.IsValid = false := by simpa using hv
        simp [hv1]
    | some c =>
      obtain ⟨v, s1, h⟩ := Sheet.GetValue_total X s hs pos (by simp [hc])
      rw [h]; simp

end Settled

/-! ## The claims about caches -/

section CacheClaims

variable {D : Type}

/-- C8 as stated fails: after `SetCell(C1, "1")`, `SetCell(B1, "=C1")`,
`SetCell(A1, "abc")`, `SetCell(A2, "=A1+B1+A1")` and `GetValue(A2)`, the successful
`SetCell(C1, "2")` leaves the formula cell A2 with `HasCache()` true although A2
depends on C1 through B1. -/
theorem C8_counterexample :
    runOps sampleX sampleShortCircuit Sheet.empty = some (sampleAfter sampleShortCircuit) ∧
      Sheet.SetCell sampleX (sampleAfter sampleShortCircuit) C1 "2" =
        .ok () (sampleAfter (sampleShortCircuit ++ [.SetCell C1 "2"])) ∧
      B1 ∈ (sampleAfter (sampleShortCircuit ++ [.SetCell C1 "2"])).dependents C1 ∧
      A2 ∈ (sampleAfter (sampleShortCircuit ++ [.SetCell C1 "2"])).dependents B1 ∧
      ((sampleAfter (sampleShortCircuit ++ [.SetCell C1 "2"])).cellAt A2).map
        (fun c => (c.impl_.GetText, c.impl_.HasCache)) = some ("=A1+B1+A1", true) ∧
      ((sampleAfter (sampleShortCircuit ++ [.SetCell C1 "2"])).cellAt B1).map
        (fun c => (c.impl_.GetText, c.impl_.HasCache)) = some ("=C1", false) := by
  decide

/-- C8, amended: after a successful `SetCell(p, t)` the cell at `p` holds no
cache, and neither does any formula cell reached from `p` along dependent edges
through cells that each held a cache before the call. -/
theorem C8_invalidation_through_cached_cells (X : Externals D) (s s1 : Sheet D) (p : Position)
    (t : String) (h : Sheet.SetCell X s p t = .ok () s1) :
    ∀ d, Relation.ReflTransGen (fun a b => b ∈ s1.dependents a ∧ (a = p ∨ s.HoldsCache a)) p d →
      ¬ s1.HoldsCache d := by
  obtain ⟨_, _, impl, s2, _, _, hrew, hupd⟩ := SetCell_ok X s s1 p t h
  obtain ⟨_, hroot, hpost⟩ := UpdateDependencies_post _ _ _ _ _ hupd
  have hdeps : ∀ q, s1.dependents q = s2.dependents q :=
    fun q => Sheet.dependents_of_bodies s2 s1 (UpdateDependencies_bodies _ _ _ _ _ hupd) q
  intro d hd
  induction hd with
  | refl => exact hroot
  | @tail a b _ hab ih =>
    obtain ⟨hba, hcase⟩ := hab
    rw [hdeps] at hba
    by_cases hap : a = p
    · exact hpost a b hba (Or.inl ⟨rfl, hap⟩)
    · rcases hcase with e | hca
      · exact absurd e hap
      · apply hpost a b hba (Or.inr ⟨?_, ih⟩)
        unfold Sheet.HoldsCache at hca ⊢
        rw [hrew.implAt_other a hap (present_of_dependents s2 a b hba), Sheet.implAt_ensure]
        exact hca

/-- C8, amended, at `SetCell(C1, "2")` after the calls of `sampleShortCircuit`. -/
theorem C8_witness :
    Sheet.SetCell sampleX (sampleAfter sampleShortCircuit) C1 "2" =
        .ok () (sampleAfter (sampleShortCircuit ++ [.SetCell C1 "2"])) ∧
      ∀ d, Relation.ReflTransGen
          (fun a b => b ∈ (sampleAfter (sampleShortCircuit ++ [.SetCell C1 "2"])).dependents a ∧
            (a = C1 ∨ (sampleAfter sampleShortCircuit).HoldsCache a)) C1 d →
        ¬ (sampleAfter (sampleShortCircuit ++ [.SetCell C1 "2"])).HoldsCache d :=
  ⟨by decide,
    C8_invalidation_through_cached_cells sampleX (sampleAfter sampleShortCircuit)
      (sampleAfter (sampleShortCircuit ++ [.SetCell C1 "2"])) C1 "2" (by decide)⟩

end CacheClaims

/-! ## What a `SetCell` that returns installs -/

section SetCellEdges

variable {D : Type}

theorem Impl.getText_of_invalidate (a b : Impl D) (h : a.InvalidateCache = b.InvalidateCache) :
    a.GetText = b.GetText := by
  cases a <;> cases b <;> simp [Impl.InvalidateCache] at h <;>
    simp [Impl.GetText, h]

/-- After a `SetCell(pos, text)` that returns, the reference set of the cell at
`pos` holds exactly the positions its new body lists, each of them is a present
cell, and one that was absent before is an Empty cell with the text `""`. -/
theorem SetCell_installs (X : Externals D) (s s1 : Sheet D) (pos : Position) (text : String)
    (h : Sheet.SetCell X s pos text = .ok () s1) :
    ∃ impl, buildImpl X text = .ok impl ∧
      (∀ r, r ∈ s1.references pos ↔ r ∈ impl.GetReferencedCells) ∧
      (∀ r ∈ impl.GetReferencedCells, (s1.cellAt r).isSome) ∧
      (∀ r ∈ impl.GetReferencedCells, r ≠ pos → s.cellAt r = none → s1.GetText r = some "") := by
  obtain ⟨_, _, impl, s2, hb, _, hrew, hupd⟩ := SetCell_ok X s s1 pos text h
  have hbod := UpdateDependencies_bodies _ _ _ _ _ hupd
  have hpres2 : ∀ r ∈ impl.GetReferencedCells, (s2.cellAt r).isSome := by
    intro r hr
    exact present_of_dependents s2 r pos ((hrew.deps r pos).2 (Or.inr ⟨rfl, hr⟩))
  have hpres1 : ∀ r ∈ impl.GetReferencedCells, (s1.cellAt r).isSome := by
    intro r hr
    have h1 := Sheet.cellAt_of_bodies s2 s1 hbod r
    have h2 := hpres2 r hr
    cases hc : s1.cellAt r with
    | some c => simp
    | none =>
      cases hc2 : s2.cellAt r with
      | none => simp [hc2] at h2
      | some c2 => simp [hc, hc2] at h1
  refine ⟨impl, hb, ?_, hpres1, ?_⟩
  · intro r
    rw [Sheet.references_of_bodies s2 s1 hbod pos]
    exact hrew.refs_self r
  · intro r hr hne hnone
    have h1 := hpres1 r hr
    have h2 := hpres2 r hr
    cases hc : s1.cellAt r with
    | none => simp [hc] at h1
    | some c =>
      cases hc2 : s2.cellAt r with
      | none => simp [hc2] at h2
      | some c2 =>
        have himpl := hrew.impl_other r c2 hne hc2
        have hens : (s.ensure pos).cellAt r = none := by
          rw [Sheet.ensure_cellAt]
          simp [hne, hnone]
        have hempty : c2.impl_ = .EmptyImpl := by
          rw [himpl]
          simp [Sheet.cellOrNew, hens, Cell.new]
        have hinv := Sheet.implAt_of_bodies s2 s1 hbod r
        rw [Sheet.implAt_of_cellAt s1 r c hc, Sheet.implAt_of_cellAt s2 r c2 hc2, hempty] at hinv
        have hg := Impl.getText_of_invalidate _ _ hinv
        simp only [Sheet.GetText, hc, Option.map_some', hg]
        rfl

end SetCellEdges

/-! ## The claims about evaluation and bodies -/

section EvaluationClaims

variable {D : Type}

/-- The reader of `ExtractValueFromCell` on a non-empty string: it gives the
number when, after the leading whitespace, the conversion reads a number and
consumes every character; otherwise it gives none. -/
theorem readDouble_cases (X : Externals D) (value : String) :
    (∀ d, skipSpace value.data ≠ [] → X.extractDouble (skipSpace value.data) = some (d, []) →
      X.readDouble value = some d) ∧
    ((skipSpace value.data = [] ∨ X.extractDouble (skipSpace value.data) = none ∨
        ∃ d c rest, X.extractDouble (skipSpace value.data) = some (d, c :: rest)) →
      X.readDouble value = none) := by
  unfold Externals.readDouble
  constructor
  · intro d hne hx
    cases hs : skipSpace value.data with
    | nil => exact absurd hs hne
    | cons c rest =>
      rw [hs] at hx
      simp [hx]
  · intro h
    cases hs : skipSpace value.data with
    | nil => rfl
    | cons c rest =>
      rw [hs] at h
      rcases h with h | h | ⟨d, c1, rest1, h⟩
      · simp at h
      · simp [h]
      · simp [h]

/-- C11 as stated fails for a string with a leading blank: after
`SetCell(A1, " 5")` the value of A1 is the string `" 5"`, which is not empty and
not entirely a decimal number, yet the lookup returns 5 instead of throwing
`FormulaError(Value)`, and the formula `=A1` of B1 evaluates to 5. -/
theorem C11_counterexample :
    runOps sampleX [.SetCell A1 " 5", .SetCell B1 "=A1"] Sheet.empty =
        some (sampleAfter [.SetCell A1 " 5", .SetCell B1 "=A1"]) ∧
      Cell.GetValue sampleX 3 (sampleAfter [.SetCell A1 " 5", .SetCell B1 "=A1"]) A1 =
        .ok (.text " 5") (sampleAfter [.SetCell A1 " 5", .SetCell B1 "=A1"]) ∧
      lookupValue sampleX (Cell.GetValue sampleX 3) A1
          (sampleAfter [.SetCell A1 " 5", .SetCell B1 "=A1"]) =
        .ok 5 (sampleAfter [.SetCell A1 " 5", .SetCell B1 "=A1"]) ∧
      lookupValue sampleX (Cell.GetValue sampleX 3) A1
          (sampleAfter [.SetCell A1 " 5", .SetCell B1 "=A1"]) ≠
        .throws (.FormulaError .Value) (sampleAfter [.SetCell A1 " 5", .SetCell B1 "=A1"]) ∧
      (Sheet.GetValue sampleX (sampleAfter [.SetCell A1 " 5", .SetCell B1 "=A1"]) B1).forget =
        .ok (.number 5) () := by
  decide

/-- C11, amended: the lookup that `Formula::Evaluate` hands to the AST throws
`FormulaError(Ref)` on an invalid position and returns `0.0` when the cell is
absent; when `GetValue` of the cell returns a number it returns that number, for
the empty string it returns `0.0`, and a `FormulaError` it throws again.  For a
non-empty string it skips the leading whitespace and returns the number the
conversion reads when that consumes every character; it throws
`FormulaError(Value)` when only whitespace is left, when no number can be read,
or when a character remains after the number.  A `FormulaError` that leaves the
execution of the AST is the value `Evaluate` returns. -/
theorem C11_lookup_contract (X : Externals D) (n : Nat) (s : Sheet D) (p : Position) :
    (p.IsValid = false →
      lookupValue X (Cell.GetValue X n) p s = .throws (.FormulaError .Ref) s) ∧
    (p.IsValid = true → s.cellAt p = none →
      lookupValue X (Cell.GetValue X n) p s = .ok X.zero s) ∧
    (p.IsValid = true → (s.cellAt p).isSome →
      ∀ v s1, Cell.GetValue X n s p = .ok v s1 →
        (∀ d, v = .number d → lookupValue X (Cell.GetValue X n) p s = .ok d s1) ∧
        (v = .text "" → lookupValue X (Cell.GetValue X n) p s = .ok X.zero s1) ∧
        (∀ value, v = .text value → value ≠ "" →
          (∀ d, skipSpace value.data ≠ [] →
            X.extractDouble (skipSpace value.data) = some (d, []) →
            lookupValue X (Cell.GetValue X n) p s = .ok d s1) ∧
          ((skipSpace value.data = [] ∨ X.extractDouble (skipSpace value.data) = none ∨
              ∃ d c rest, X.extractDouble (skipSpace value.data) = some (d, c :: rest)) →
            lookupValue X (Cell.GetValue X n) p s = .throws (.FormulaError .Value) s1)) ∧
        (∀ c, v = .error c →
          lookupValue X (Cell.GetValue X n) p s = .throws (.FormulaError c) s1)) ∧
    (∀ (f : FormulaAST D) (c : Category) (s1 : Sheet D),
      f.root.Execute X (lookupValue X (Cell.GetValue X n)) s = .throws (.FormulaError c) s1 →
        Formula.Evaluate X (Cell.GetValue X n) f s = .ok (.error c) s1) := by
  refine ⟨?_, ?_, ?_, ?_⟩
  · intro hv
    simp [lookupValue, hv]
  · intro hv hc
    simp [lookupValue, hv, hc]
  · intro hv hp v s1 hg
    cases hc : s.cellAt p with
    | none => simp [hc] at hp
    | some c =>
      have hrep := extract_repeat X (Cell.GetValue X n) p s s1 v hg
        (settled_GetValue X n s1 p v (GetValue_after X n s p v s1 hg))
      have hlook : lookupValue X (Cell.GetValue X n) p s =
          Outcome.ofExcept (extractSettled X v) s1 := by
        simp only [lookupValue, hv, Bool.not_true, Bool.false_eq_true, if_false, hc, hrep]
      rw [hlook]
      refine ⟨?_, ?_, ?_, ?_⟩
      · intro d hd
        rw [hd]; rfl
      · intro ht
        rw [ht]; rfl
      · intro value ht hne
        rw [ht]
        have hne1 : ¬ value.data.isEmpty = true := by
          intro h
          rw [List.isEmpty_iff] at h
          exact hne (String.ext h)
        obtain ⟨hok, hbad⟩ := readDouble_cases X value
        constructor
        · intro d hs hx
          simp only [extractSettled, hne1, Bool.false_eq_true, if_false, hok d hs hx]
          rfl
        · intro h
          simp only [extractSettled, hne1, Bool.false_eq_true, if_false, hbad h]
          rfl
      · intro c1 he
        rw [he]; rfl
  · intro f c s1 h
    simp [Formula.Evaluate, h]

/-- C11, amended, on the sheet after `SetCell(A1, "5 ")`: a blank remains after
the number, and the lookup throws `FormulaError(Value)`. -/
theorem C11_witness :
    (A1.IsValid = true ∧
      ((sampleAfter [.SetCell A1 "5 "]).cellAt A1).isSome ∧
      Cell.GetValue sampleX 3 (sampleAfter [.SetCell A1 "5 "]) A1 =
        .ok (.text "5 ") (sampleAfter [.SetCell A1 "5 "]) ∧
      "5 " ≠ "" ∧
      ∃ d c rest, sampleX.extractDouble (skipSpace "5 ".data) = some (d, c :: rest)) ∧
    lookupValue sampleX (Cell.GetValue sampleX 3) A1 (sampleAfter [.SetCell A1 "5 "]) =
      .throws (.FormulaError .Value) (sampleAfter [.SetCell A1 "5 "]) :=
  ⟨⟨by decide, by decide, by decide, by decide, 5, ' ', [], by decide⟩,
    (((C11_lookup_contract sampleX 3 (sampleAfter [.SetCell A1 "5 "]) A1).2.2.1
      (by decide) (by decide) (.text "5 ") (sampleAfter [.SetCell A1 "5 "])
      (by decide)).2.2.1 "5 " rfl (by decide)).2
      (Or.inr (Or.inr ⟨5, ' ', [], by decide⟩))⟩

end EvaluationClaims

/-! ## The claims about the body built by `Cell::Set` -/

section BodyClaims

variable {D : Type}

theorem buildImpl_eq_spec (X : Externals D) (t : String) : buildImpl X t = specBuildImpl X t := by
  unfold buildImpl specBuildImpl
  cases hd : t.data with
  | nil =>
    have ht : t = "" := String.ext hd
    simp [ht]
  | cons c rest =>
    have hne : t ≠ "" := by
      intro h
      rw [h] at hd
      simp at hd
    have hlen : t.length = rest.length + 1 := by
      simp [String.length, hd]
    simp only [hne, if_false, List.head?_cons, Option.some.injEq, hlen, List.tail_cons]
    by_cases hc : c = '='
    · subst hc
      by_cases hr : rest.length + 1 > 1
      · simp only [hr, decide_True, FORMULA_SIGN, Bool.and_self, if_true, and_self,
          FormulaImpl.new, hd, ne_eq, not_true_eq_false, if_false, ParseFormula]
        cases hp : X.ParseFormulaAST (String.mk rest) <;> rfl
      · simp only [hr, decide_False, Bool.false_and, Bool.false_eq_true, if_false, and_false,
          TextImpl.new, hd, List.isEmpty_cons]
    · have hc1 : ¬ c = FORMULA_SIGN := hc
      simp only [hc1, hc, decide_False, Bool.and_false, Bool.false_eq_true, if_false, false_and,
        TextImpl.new, hd, List.isEmpty_cons]

theorem Impl.invalidate_of_spec (X : Externals D) (t : String) (impl : Impl D)
    (h : specBuildImpl X t = .ok impl) : impl.InvalidateCache = impl := by
  rw [← buildImpl_eq_spec] at h
  cases impl with
  | EmptyImpl => rfl
  | TextImpl x => rfl
  | FormulaImpl f cache =>
    obtain ⟨hc, _⟩ := buildImpl_formula X t f cache h
    rw [hc]; rfl

/-- After a `SetCell(pos, t)` that returns, the cell at `pos` holds the body
built from `t`. -/
theorem SetCell_body (X : Externals D) (s s1 : Sheet D) (pos : Position) (t : String)
    (h : Sheet.SetCell X s pos t = .ok () s1) :
    ∃ c, s1.cellAt pos = some c ∧ specBuildImpl X t = .ok c.impl_ := by
  obtain ⟨_, hpres, impl, s2, hb, _, hrew, hupd⟩ := SetCell_ok X s s1 pos t h
  rw [buildImpl_eq_spec] at hb
  have hinv := Impl.invalidate_of_spec X t impl hb
  have hp2 : (s2.cellAt pos).isSome := hrew.stays_present pos hpres
  have hbod := UpdateDependencies_bodies _ _ _ _ _ hupd
  have hp1 : (s1.cellAt pos).isSome := by
    rw [present_of_bodies s1 s2 hbod]; exact hp2
  cases hc1 : s1.cellAt pos with
  | none => simp [hc1] at hp1
  | some c =>
    refine ⟨c, rfl, ?_⟩
    cases hc2 : s2.cellAt pos with
    | none => simp [hc2] at hp2
    | some c2 =>
      have h2 : s2.implAt pos = impl := by
        rw [Sheet.implAt_of_cellAt s2 pos c2 hc2]
        exact hrew.impl_self c2 hc2
      obtain ⟨hpost, _, _⟩ := UpdateDependencies_post _ _ _ _ _ hupd
      have h1 : s1.implAt pos = impl := by
        rcases hpost pos with e | e
        · rw [e, h2]
        · rw [e, h2, hinv]
      rw [Sheet.implAt_of_cellAt s1 pos c hc1] at h1
      rw [h1]; exact hb

/-- C12: for every text `t`, `Cell::Set(t)` builds its body by the rule of the
specification (`""` gives Empty, `=` followed by at least one character gives
the formula parsed from the rest, anything else gives Text), and a `SetCell`
that returns leaves that body in the cell; in particular `"="` gives, whatever
the parser, a Text body whose `GetText()` and `GetValue()` are `"="`. -/
theorem C12_body_rule (X : Externals D) (t : String) :
    buildImpl X t = specBuildImpl X t ∧
    (∀ s s1 pos, Sheet.SetCell X s pos t = .ok () s1 →
      ∃ c, s1.cellAt pos = some c ∧ specBuildImpl X t = .ok c.impl_) ∧
    (buildImpl X "=" = .ok (.TextImpl "=") ∧
      (Impl.TextImpl "=" : Impl D).GetText = "=" ∧ TextImpl.GetValue "=" = "=" ∧
      ∀ s s1 pos, Sheet.SetCell X s pos "=" = .ok () s1 →
        s1.GetText pos = some "=" ∧ Sheet.GetValue X s1 pos = .ok (.text "=") s1) := by
  refine ⟨buildImpl_eq_spec X t, fun s s1 pos h => SetCell_body X s s1 pos t h, rfl, rfl, rfl, ?_⟩
  intro s s1 pos h
  obtain ⟨c, hc, hb⟩ := SetCell_body X s s1 pos "=" h
  have hv := (SetCell_ok X s s1 pos "=" h).1
  have hi : c.impl_ = .TextImpl "=" := by
    have : specBuildImpl X "=" = .ok (.TextImpl "=") := rfl
    rw [this] at hb
    simp only [Except.ok.injEq] at hb
    exact hb.symm
  refine ⟨by simp [Sheet.GetText, hc, hi, Impl.GetText], ?_⟩
  simp only [Sheet.GetValue, hv, Bool.not_true, Bool.false_eq_true, if_false, Cell.GetValue, hc, hi]
  rfl

/-- C12 at `SetCell(A1, "=")` on the empty sheet. -/
theorem C12_witness :
    Sheet.SetCell sampleX Sheet.empty A1 "=" = .ok () (sampleAfter [.SetCell A1 "="]) ∧
      (sampleAfter [.SetCell A1 "="]).GetText A1 = some "=" ∧
      Sheet.GetValue sampleX (sampleAfter [.SetCell A1 "="]) A1 =
        .ok (.text "=") (sampleAfter [.SetCell A1 "="]) :=
  ⟨by decide,
    (C12_body_rule sampleX "=").2.2.2.2.2 Sheet.empty (sampleAfter [.SetCell A1 "="]) A1 (by decide)⟩

end BodyClaims

/-! ## The escape sign -/

section EscapeClaims

variable {D : Type}

/-- C13: after a `SetCell(p, t)` that returns, where `t` is the escape sign
followed by any string `str` (empty or not, and whatever `str` starts with),
`GetText(p)` is `t` and `GetValue(p)` is the string `str`. -/
theorem C13_escape_round_trip (X : Externals D) (s s1 : Sheet D) (p : Position) (str : String)
    (h : Sheet.SetCell X s p (String.singleton ESCAPE_SIGN ++ str) = .ok () s1) :
    s1.GetText p = some (String.singleton ESCAPE_SIGN ++ str) ∧
      Sheet.GetValue X s1 p = .ok (.text str) s1 := by
  obtain ⟨c, hc, hb⟩ := SetCell_body X s s1 p _ h
  have hv := (SetCell_ok X s s1 p _ h).1
  have hdata : (String.singleton ESCAPE_SIGN ++ str).data = ESCAPE_SIGN :: str.data := by
    simp [String.singleton, String.data_append]
  have hne : String.singleton ESCAPE_SIGN ++ str ≠ "" := by
    intro h0
    rw [h0] at hdata
    simp at hdata
  have hi : c.impl_ = .TextImpl (String.singleton ESCAPE_SIGN ++ str) := by
    unfold specBuildImpl at hb
    have hesc : ¬ ESCAPE_SIGN = '=' := by decide
    simp only [hne, if_false, hdata, List.head?_cons, Option.some.injEq, hesc, false_and,
      Except.ok.injEq] at hb
    exact hb.symm
  refine ⟨by simp [Sheet.GetText, hc, hi, Impl.GetText], ?_⟩
  simp only [Sheet.GetValue, hv, Bool.not_true, Bool.false_eq_true, if_false, Cell.GetValue, hc, hi,
    TextImpl.GetValue, hdata, if_true]

/-- C13 at the text of the escape sign followed by `=1+2`, set at A1 on the empty sheet. -/
theorem C13_witness :
    Sheet.SetCell sampleX Sheet.empty A1 (String.singleton ESCAPE_SIGN ++ "=1+2") =
        .ok () (sampleAfter [.SetCell A1 (String.singleton ESCAPE_SIGN ++ "=1+2")]) ∧
      (sampleAfter [.SetCell A1 (String.singleton ESCAPE_SIGN ++ "=1+2")]).GetText A1 =
        some (String.singleton ESCAPE_SIGN ++ "=1+2") ∧
      Sheet.GetValue sampleX (sampleAfter [.SetCell A1 (String.singleton ESCAPE_SIGN ++ "=1+2")]) A1 =
        .ok (.text "=1+2") (sampleAfter [.SetCell A1 (String.singleton ESCAPE_SIGN ++ "=1+2")]) :=
  ⟨by decide,
    C13_escape_round_trip sampleX Sheet.empty
      (sampleAfter [.SetCell A1 (String.singleton ESCAPE_SIGN ++ "=1+2")]) A1 "=1+2" (by decide)⟩

end EscapeClaims

/-! ## Invalid positions -/

section PositionClaims

variable {D : Type}

theorem Cell.Set_empty_no_throw (X : Externals D)
    (setCell : Sheet D → Position → String → Outcome (Sheet D) Unit) (s s1 : Sheet D)
    (self : Position) (e : Exception) : Cell.Set X setCell s self "" ≠ .throws e s1 := by
  have hb : buildImpl X "" = .ok .EmptyImpl := rfl
  have hc : Cell.CheckCyclicDependency s self (.EmptyImpl : Impl D) = .ok false s := rfl
  simp only [Cell.Set, hb, hc, Outcome.bind, Bool.false_eq_true, if_false]
  unfold Cell.UpdateReferences
  cases hcell : s.cellAt self with
  | none => simp
  | some c =>
    simp only [Impl.GetReferencedCells, linkReferences]
    split <;> simp

theorem ClearCell_no_throw (X : Externals D) (s s1 : Sheet D) (pos : Position) (e : Exception)
    (hv : pos.IsValid = true) : Sheet.ClearCell X s pos ≠ .throws e s1 := by
  unfold Sheet.ClearCell
  simp only [hv, Bool.not_true, Bool.false_eq_true, if_false]
  cases hf : s.find pos with
  | none => simp
  | some oc =>
    cases oc with
    | none => simp
    | some c =>
      simp only
      cases hx : Cell.Clear X s pos with
      | ok a s2 =>
        simp only [Outcome.bind]
        split <;> simp
      | throws e2 s2 => exact absurd hx (Cell.Set_empty_no_throw X _ s s2 pos e2)
      | nullDeref => simp [Outcome.bind]
      | outOfFuel => simp [Outcome.bind]

theorem buildImpl_error (X : Externals D) (text : String) (e : Exception)
    (h : buildImpl X text = .error e) : e = .FormulaException := by
  rw [buildImpl_eq_spec] at h
  unfold specBuildImpl at h
  split at h
  · simp at h
  · split at h
    · split at h
      · simp at h
      · simp only [Except.error.injEq] at h
        exact h.symm
    · simp at h

/-- A `SetCell` on a valid position whose body lists valid positions only does
not throw `InvalidPositionException`. -/
theorem SetCell_no_invalid_position (X : Externals D) (s s1 : Sheet D) (pos : Position)
    (text : String) (hv : pos.IsValid = true)
    (hlist : ∀ q ∈ candidateReferences X text, q.IsValid = true) :
    Sheet.SetCell X s pos text ≠ .throws .InvalidPositionException s1 := by
  rcases SetCell_cases X s pos text with ⟨hv0, _⟩ | ⟨_, _, h⟩ | ⟨_, _, hpres, h⟩
  · rw [hv] at hv0; simp at hv0
  · rw [h]; simp
  · rw [h]
    unfold Cell.Set
    cases hb : buildImpl X text with
    | error e =>
      have := buildImpl_error X text e hb
      subst this
      simp
    | ok impl =>
      simp only
      have hvalid : ∀ q ∈ impl.GetReferencedCells, q.IsValid = true := by
        intro q hq
        apply hlist
        simp only [candidateReferences, hb]
        exact hq
      obtain ⟨b, hc, _⟩ := CheckCyclicDependency_spec (s.ensure pos) pos impl hvalid
      rw [hc]
      simp only [Outcome.bind]
      cases b with
      | true => simp
      | false =>
        simp only [Bool.false_eq_true, if_false]
        rcases UpdateReferences_outcome (SetCellFuel X 1) (SetCellFuel_createsEmpty X 0)
          (s.ensure pos) pos impl hpres hvalid with ⟨⟨s2, hu⟩, _⟩ | ⟨hu, _⟩
        · rw [hu]
          simp only
          split <;> simp
        · rw [hu]; simp

/-- A `SetCell` on a valid position whose entry is not a null pointer throws
`InvalidPositionException` when the body built from the text lists an invalid
position: `CheckCyclicDependency` asks `GetCellPtr` for it. -/
theorem SetCell_invalid_reference (X : Externals D) (s : Sheet D) (pos : Position) (text : String)
    (hv : pos.IsValid = true) (hf : s.find pos ≠ some none)
    (hlist : ∃ q ∈ candidateReferences X text, q.IsValid = false) :
    Sheet.SetCell X s pos text = .throws .InvalidPositionException (s.ensure pos) := by
  rcases SetCell_cases X s pos text with ⟨hv0, _⟩ | ⟨_, hf0, _⟩ | ⟨_, _, hpres, h⟩
  · rw [hv] at hv0; simp at hv0
  · exact absurd hf0 hf
  · rw [h]
    unfold Cell.Set
    obtain ⟨q, hq, hqv⟩ := hlist
    cases hb : buildImpl X text with
    | error e => simp [candidateReferences, hb] at hq
    | ok impl =>
      simp only [candidateReferences, hb] at hq
      rcases CheckCyclicDependency_cases (s.ensure pos) pos impl with ⟨b, _, hvalid⟩ | ⟨hc, _⟩
      · rw [hvalid q hq] at hqv; simp at hqv
      · simp only [hc, Outcome.bind]

/-- C14: on an invalid position `SetCell`, `GetCell` and `ClearCell` throw
`InvalidPositionException` and leave the sheet as it is; on a valid position
`GetCell` and `ClearCell` do not throw it, and neither does `SetCell` when the
body built from the text lists valid positions only. -/
theorem C14_invalid_position (X : Externals D) (s : Sheet D) (pos : Position) (text : String) :
    (pos.IsValid = false →
      Sheet.SetCell X s pos text = .throws .InvalidPositionException s ∧
      s.GetCell pos = .error .InvalidPositionException ∧
      Sheet.ClearCell X s pos = .throws .InvalidPositionException s) ∧
    (pos.IsValid = true →
      ((∀ q ∈ candidateReferences X text, q.IsValid = true) →
        ∀ s1, Sheet.SetCell X s pos text ≠ .throws .InvalidPositionException s1) ∧
      s.GetCell pos = .ok (s.cellAt pos) ∧
      (∀ e s1, Sheet.ClearCell X s pos ≠ .throws e s1)) := by
  constructor
  · intro hv
    refine ⟨?_, by simp [Sheet.GetCell, hv], ClearCell_invalid X s pos hv⟩
    rcases SetCell_cases X s pos text with ⟨_, h⟩ | ⟨hv0, _⟩ | ⟨hv0, _⟩
    · exact h
    · rw [hv] at hv0; simp at hv0
    · rw [hv] at hv0; simp at hv0
  · intro hv
    refine ⟨fun hlist s1 => SetCell_no_invalid_position X s s1 pos text hv hlist,
      by simp [Sheet.GetCell, hv], fun e s1 => ClearCell_no_throw X s s1 pos e hv⟩

/-- C14 at the invalid position `(-1, 0)` and at the valid position A1 with the
text `=B1`, after `SetCell(A1, "x")`. -/
theorem C14_witness :
    (({ row := -1, col := 0 } : Position).IsValid = false ∧ A1.IsValid = true ∧
      ∀ q ∈ candidateReferences sampleX "=B1", q.IsValid = true) ∧
    (Sheet.SetCell sampleX (sampleAfter [.SetCell A1 "x"]) { row := -1, col := 0 } "y" =
        .throws .InvalidPositionException (sampleAfter [.SetCell A1 "x"]) ∧
      (sampleAfter [.SetCell A1 "x"]).GetCell { row := -1, col := 0 } =
        .error .InvalidPositionException ∧
      Sheet.ClearCell sampleX (sampleAfter [.SetCell A1 "x"]) { row := -1, col := 0 } =
        .throws .InvalidPositionException (sampleAfter [.SetCell A1 "x"])) ∧
    ∀ s1, Sheet.SetCell sampleX (sampleAfter [.SetCell A1 "x"]) A1 "=B1" ≠
      .throws .InvalidPositionException s1 :=
  ⟨⟨by decide, by decide, by decide⟩,
    (C14_invalid_position sampleX (sampleAfter [.SetCell A1 "x"]) { row := -1, col := 0 } "y").1
      (by decide),
    ((C14_invalid_position sampleX (sampleAfter [.SetCell A1 "x"]) A1 "=B1").2 (by decide)).1
      (by decide)⟩

end PositionClaims

/-! ## `Formula::GetReferencedCells` -/

section ReferencedCellsClaims

variable {D : Type}

theorem Position.lt_irrefl (a : Position) : ¬ Position.lt a a := by
  unfold Position.lt
  omega

theorem Position.lt_trans (a b c : Position) (h1 : Position.lt a b) (h2 : Position.lt b c) :
    Position.lt a c := by
  unfold Position.lt at *
  omega

theorem uniqueAdjacent_head (b : Position) :
    ∀ (rest : List Position), (uniqueAdjacent (b :: rest)).head? = some b := by
  intro rest
  induction rest generalizing b with
  | nil => rfl
  | cons c rest ih =>
    simp only [uniqueAdjacent]
    by_cases h : b = c
    · simp only [h, if_true]
      exact ih c
    · simp [h]

theorem uniqueAdjacent_chain : ∀ (l : List Position), List.Chain' (fun a b => a ≠ b) (uniqueAdjacent l) := by
  intro l
  induction l with
  | nil => simp [uniqueAdjacent]
  | cons a l ih =>
    cases l with
    | nil => simp [uniqueAdjacent]
    | cons b rest =>
      simp only [uniqueAdjacent]
      by_cases h : a = b
      · simp only [h, if_true]
        exact ih
      · simp only [h, if_false]
        rw [List.chain'_cons']
        refine ⟨?_, ih⟩
        intro y hy
        rw [uniqueAdjacent_head b rest] at hy
        simp only [Option.mem_def, Option.some.injEq] at hy
        rw [← hy]
        exact h

theorem uniqueAdjacent_sorted (lt : Position → Position → Prop) (hirr : ∀ a, ¬ lt a a)
    (htr : ∀ a b c, lt a b → lt b c → lt a c) :
    ∀ (l : List Position), l.Pairwise (fun a b => a = b ∨ lt a b) →
      (uniqueAdjacent l).Pairwise lt := by
  intro l
  induction l with
  | nil => intro _; simp [uniqueAdjacent]
  | cons a l ih =>
    intro hp
    cases l with
    | nil => simp [uniqueAdjacent]
    | cons b rest =>
      have hp1 := List.pairwise_cons.1 hp
      simp only [uniqueAdjacent]
      by_cases h : a = b
      · simp only [h, if_true]
        exact ih hp1.2
      · simp only [h, if_false]
        refine List.pairwise_cons.2 ⟨?_, ih hp1.2⟩
        intro x hx
        have hxm : x ∈ b :: rest := (mem_uniqueAdjacent x (b :: rest)).1 hx
        have hab : lt a b := by
          rcases hp1.1 b (List.mem_cons_self _ _) with e | e
          · exact absurd e h
          · exact e
        rcases hp1.1 x hxm with e | e
        · exfalso
          rcases List.mem_cons.1 hxm with e1 | e1
          · exact h (e.trans e1)
          · have hbx := (List.pairwise_cons.1 hp1.2).1 x e1
            rcases hbx with e2 | e2
            · exact h (e.trans e2.symm)
            · rw [← e] at e2
              exact hirr a (htr a b a hab e2)
        · exact e

/-- C15 as stated fails: for an AST that lists the cells A1, B1, A1 in this
order, `Formula::GetReferencedCells()` returns A1, B1, A1, where A1 occurs
twice. -/
theorem C15_counterexample :
    ({ root := .binary .Add (.cell A1) (.binary .Add (.cell B1) (.cell A1)),
       cells := [A1, B1, A1], printed := "A1+B1+A1" } : FormulaAST Int).GetReferencedCells =
        [A1, B1, A1] ∧
      ¬ ({ root := .binary .Add (.cell A1) (.binary .Add (.cell B1) (.cell A1)),
           cells := [A1, B1, A1], printed := "A1+B1+A1" } : FormulaAST Int).GetReferencedCells.Nodup := by
  decide

/-- C15, amended: the sequence `Formula::GetReferencedCells()` returns contains
exactly the positions the AST lists and no two neighbours in it are equal; when
the AST lists its positions in sorted order (equal positions next to each
other), the sequence contains no position twice. -/
theorem C15_referenced_cells_of_sorted_list (f : FormulaAST D) :
    (∀ p, p ∈ f.GetReferencedCells ↔ p ∈ f.cells) ∧
    List.Chain' (fun a b => a ≠ b) f.GetReferencedCells ∧
    (f.cells.Pairwise (fun a b => a = b ∨ Position.lt a b) → f.GetReferencedCells.Nodup) := by
  refine ⟨fun p => mem_uniqueAdjacent p f.cells, uniqueAdjacent_chain f.cells, ?_⟩
  intro hs
  have h := uniqueAdjacent_sorted Position.lt Position.lt_irrefl Position.lt_trans f.cells hs
  exact h.imp (by intro a b hab e; subst e; exact Position.lt_irrefl a hab)

/-- C15, amended, for an AST that lists A1, A1, B1, A2 in sorted order. -/
theorem C15_witness :
    ([A1, A1, B1, A2].Pairwise (fun a b => a = b ∨ Position.lt a b)) ∧
      ({ root := .binary .Add (.cell A1) (.binary .Add (.cell A2) (.binary .Add (.cell B1) (.cell A1))),
         cells := [A1, A1, B1, A2], printed := "A1+A2+B1+A1" } : FormulaAST Int).GetReferencedCells.Nodup :=
  ⟨by decide,
    (C15_referenced_cells_of_sorted_list
      ({ root := .binary .Add (.cell A1) (.binary .Add (.cell A2) (.binary .Add (.cell B1) (.cell A1))),
         cells := [A1, A1, B1, A2], printed := "A1+A2+B1+A1" } : FormulaAST Int)).2.2 (by decide)⟩

end ReferencedCellsClaims

/-! ## A `SetCell` that fails on an absent position -/

section FailedSetCellClaims

variable {D : Type}

/-- A `SetCell` that throws on a valid position leaves the sheet that the
`emplace` at its start made: a position without an entry now holds a fresh
Empty cell. -/
theorem SetCell_throws_state (X : Externals D) (s s1 : Sheet D) (pos : Position) (text : String)
    (e : Exception) (hv : pos.IsValid = true) (h : Sheet.SetCell X s pos text = .throws e s1) :
    s1 = s.ensure pos := by
  rcases SetCell_cases X s pos text with ⟨hv0, _⟩ | ⟨_, _, h1⟩ | ⟨_, _, hpres, h1⟩
  · rw [hv] at hv0; simp at hv0
  · rw [h1] at h; simp at h
  · rw [h1] at h
    exact Cell.Set_throws X _ (SetCellFuel_createsEmpty X 0) _ s1 pos text e hpres h

/-- C18 (defect): on the empty sheet `GetCell(C3)` is null and the printable size
is `(0, 0)`; `SetCell(C3, "=C3")` throws `CircularDependencyException` and
`SetCell(C3, "=+")` throws `FormulaException`, and after either `GetCell(C3)` is
the Empty cell that `Sheet::SetCell` emplaced before `Cell::Set` threw, and the
printable size is `(3, 3)`. -/
theorem C18_failed_SetCell_leaves_empty_cell :
    (Sheet.empty : Sheet Int).GetCell C3 = .ok none ∧
      (Sheet.empty : Sheet Int).GetPrintableSize = { rows := 0, cols := 0 } ∧
      Sheet.SetCell sampleX Sheet.empty C3 "=C3" =
        .throws .CircularDependencyException (sampleAfter [.SetCell C3 "=C3"]) ∧
      (sampleAfter [.SetCell C3 "=C3"]).GetCell C3 = .ok (some Cell.new) ∧
      (sampleAfter [.SetCell C3 "=C3"]).GetPrintableSize = { rows := 3, cols := 3 } ∧
      Sheet.SetCell sampleX Sheet.empty C3 "=+" =
        .throws .FormulaException (sampleAfter [.SetCell C3 "=+"]) ∧
      (sampleAfter [.SetCell C3 "=+"]).GetCell C3 = .ok (some Cell.new) ∧
      (sampleAfter [.SetCell C3 "=+"]).GetPrintableSize = { rows := 3, cols := 3 } := by
  decide

end FailedSetCellClaims

/-! ## Termination of the invalidation -/

section InvalidationClaims

variable {D : Type}

/-- The flag `force` makes no difference on a cell whose body reports
`HasCache()`. -/
theorem UpdateDependencies_force (fuel : Nat) (s : Sheet D) (x : Position)
    (h : (s.implAt x).HasCache = true) :
    UpdateDependencies fuel s x false = UpdateDependencies fuel s x true := by
  cases fuel with
  | zero => rfl
  | succ n =>
    simp only [UpdateDependencies]
    cases hc : s.cellAt x with
    | none => rfl
    | some c =>
      rw [Sheet.implAt_of_cellAt s x c hc] at h
      simp [h]

/-- `UpdateDependencies(force)` returns, for both values of `force`, on a sheet
whose dependents are formula cells. -/
theorem UpdateDependencies_total_any (s : Sheet D) (hdf : s.DepsFormula) (x : Position)
    (force : Bool) : ∃ s1, UpdateDependencies (updateFuel s) s x force = some s1 := by
  cases force with
  | true => exact UpdateDependencies_total s hdf x
  | false =>
    by_cases h : (s.implAt x).HasCache = true
    · rw [UpdateDependencies_force _ s x h]
      exact UpdateDependencies_total s hdf x
    · unfold updateFuel
      simp only [UpdateDependencies]
      cases hc : s.cellAt x with
      | none => exact ⟨s, rfl⟩
      | some c =>
        rw [Sheet.implAt_of_cellAt s x c hc] at h
        simp [h]

theorem HoldsCache_of_formula (s : Sheet D) (a : Position) (hf : s.IsFormulaAt a)
    (h : (s.implAt a).HasCache = true) : s.HoldsCache a := by
  obtain ⟨c, f, cache, hc, hi⟩ := hf
  unfold Sheet.HoldsCache
  rw [Sheet.implAt_of_cellAt s a c hc, hi] at h ⊢
  exact Impl.cachedWeight_of_hasCache f cache h

/-- C19: in every sheet reached from the empty one, `UpdateDependencies(force)`
returns for every cell and both values of `force`; it leaves every cell with the
body, the reference set and the dependent set it had, the caches apart; and every
formula cell it reached (the cell itself, and the dependents of each reached
cell that passed the test `HasCache() || force`) has `HasCache()` false. -/
theorem C19_update_dependencies_terminates (X : Externals D) (ops : List Op) (s : Sheet D)
    (h : runOps X ops Sheet.empty = some s) (x : Position) (force : Bool) :
    ∃ s1, UpdateDependencies (updateFuel s) s x force = some s1 ∧
      (∀ q, (s1.cellAt q).map Cell.body = (s.cellAt q).map Cell.body) ∧
      ∀ d, Relation.ReflTransGen
          (fun a b => b ∈ s.dependents a ∧ ((s.implAt a).HasCache = true ∨ (a = x ∧ force = true)))
          x d →
        ∀ c f cache, s1.cellAt d = some c → c.impl_ = .FormulaImpl f cache →
          c.impl_.HasCache = false := by
  have hw := runOps_wf X ops Sheet.empty s WellFormed.empty h
  have hdf := WellFormed.depsFormula s hw
  obtain ⟨s1, hrun⟩ := UpdateDependencies_total_any s hdf x force
  refine ⟨s1, hrun, fun q => Sheet.cellAt_of_bodies s s1 (UpdateDependencies_bodies _ _ _ _ _ hrun) q, ?_⟩
  have hno : ∀ d, Relation.ReflTransGen
      (fun a b => b ∈ s.dependents a ∧ ((s.implAt a).HasCache = true ∨ (a = x ∧ force = true)))
      x d → ¬ s1.HoldsCache d := by
    by_cases hh : (s.implAt x).HasCache = true ∨ force = true
    · have hrun1 : UpdateDependencies (updateFuel s) s x true = some s1 := by
        rcases hh with h1 | h1
        · cases force with
          | true => exact hrun
          | false => rw [← UpdateDependencies_force _ s x h1]; exact hrun
        · rw [← h1]; exact hrun
      obtain ⟨_, hroot, hpost⟩ := UpdateDependencies_post _ _ _ _ _ hrun1
      intro d hd
      have key : ¬ s1.HoldsCache d ∧ (d = x ∨ s.IsFormulaAt d) := by
        induction hd with
        | refl => exact ⟨hroot, Or.inl rfl⟩
        | @tail a b _ hab ih =>
          refine ⟨?_, Or.inr (hdf a b hab.1)⟩
          by_cases hax : a = x
          · exact hpost a b hab.1 (Or.inl ⟨rfl, hax⟩)
          · have hfa : s.IsFormulaAt a := by
              rcases ih.2 with e | e
              · exact absurd e hax
              · exact e
            have hca : (s.implAt a).HasCache = true := by
              rcases hab.2 with e | e
              · exact e
              · exact absurd e.1 hax
            exact hpost a b hab.1 (Or.inr ⟨HoldsCache_of_formula s a hfa hca, ih.1⟩)
      exact key.1
    · obtain ⟨_, hroot, _⟩ := UpdateDependencies_post _ _ _ _ _ hrun
      intro d hd
      have key : d = x := by
        induction hd with
        | refl => rfl
        | @tail a b _ hab ih =>
          exfalso
          apply hh
          rcases hab.2 with e | e
          · left; rw [← ih]; exact e
          · right; exact e.2
      rw [key]; exact hroot
  intro d hd c f cache hc hi
  have hn := hno d hd
  unfold Sheet.HoldsCache at hn
  rw [Sheet.implAt_of_cellAt s1 d c hc, hi] at hn
  rw [hi]
  cases cache with
  | none => rfl
  | some v => exact absurd rfl hn

/-- C19 after `SetCell(C1, "1")`, `SetCell(B1, "=C1")`, `SetCell(A1, "=B1")` and
`GetValue(A1)`, for the call on C1 without `force`. -/
theorem C19_witness :
    runOps sampleX [.SetCell C1 "1", .SetCell B1 "=C1", .SetCell A1 "=B1", .GetValue A1]
        Sheet.empty =
      some (sampleAfter [.SetCell C1 "1", .SetCell B1 "=C1", .SetCell A1 "=B1", .GetValue A1]) ∧
    ∃ s1, UpdateDependencies
        (updateFuel (sampleAfter [.SetCell C1 "1", .SetCell B1 "=C1", .SetCell A1 "=B1", .GetValue A1]))
        (sampleAfter [.SetCell C1 "1", .SetCell B1 "=C1", .SetCell A1 "=B1", .GetValue A1])
        C1 false = some s1 ∧
      (∀ q, (s1.cellAt q).map Cell.body =
        ((sampleAfter [.SetCell C1 "1", .SetCell B1 "=C1", .SetCell A1 "=B1", .GetValue A1]).cellAt
          q).map Cell.body) ∧
      ∀ d, Relation.ReflTransGen
          (fun a b =>
            b ∈ (sampleAfter [.SetCell C1 "1", .SetCell B1 "=C1", .SetCell A1 "=B1",
              .GetValue A1]).dependents a ∧
            (((sampleAfter [.SetCell C1 "1", .SetCell B1 "=C1", .SetCell A1 "=B1",
              .GetValue A1]).implAt a).HasCache = true ∨ (a = C1 ∧ false = true)))
          C1 d →
        ∀ c f cache, s1.cellAt d = some c → c.impl_ = .FormulaImpl f cache →
          c.impl_.HasCache = false :=
  ⟨by decide,
    C19_update_dependencies_terminates sampleX
      [.SetCell C1 "1", .SetCell B1 "=C1", .SetCell A1 "=B1", .GetValue A1] _ (by decide) C1 false⟩

end InvalidationClaims

/-! ## Termination of the cycle check -/

section TraversalClaims

variable {D : Type}

/-- C20: on every sheet, whatever its dependent edges (cycles among them
included), the loop of `Cell::HasCycle` started on the stack that holds the
start cell and an empty visited set returns, and when it returns `false` the
visited set holds exactly the cells reached from the start cell along dependent
edges. -/
theorem C20_has_cycle_terminates (s : Sheet D) (referenced : List (Option Position))
    (start : Position) :
    ∃ b vis, HasCycle s (hasCycleFuel s) referenced [] [start] = some (b, vis) ∧
      (b = false → ∀ x, x ∈ vis ↔ Relation.ReflTransGen (DepEdge s) start x) := by
  obtain ⟨⟨b, vis⟩, hr⟩ := HasCycle_hasCycleFuel s referenced start
  refine ⟨b, vis, hr, ?_⟩
  intro hb x
  obtain ⟨_, h2, h3⟩ := HasCycle_spec s _ referenced [] [start] b vis hr
  obtain ⟨hsub, hclosed⟩ := h2 hb (by simp)
  constructor
  · intro hx
    rcases h3 hb x hx with h | ⟨y, hy, hyx⟩
    · simp at h
    · simp only [List.mem_singleton] at hy
      rw [← hy]; exact hyx
  · intro hx
    induction hx with
    | refl => exact hsub start (Or.inr (List.mem_singleton_self _))
    | @tail a c _ hac ih => exact (hclosed a ih).2 c hac

/-- C20 on `sampleTangle`, started at A1: B1 is pushed twice, the loop returns
`false` and has visited A1, B1, C1 and A2, the cells reached from A1. -/
theorem C20_witness :
    HasCycle sampleTangle (hasCycleFuel sampleTangle) [] [] [A1] = some (false, [B1, A2, C1, A1]) ∧
      ∀ x, x ∈ [B1, A2, C1, A1] ↔ Relation.ReflTransGen (DepEdge sampleTangle) A1 x := by
  have h0 : HasCycle sampleTangle (hasCycleFuel sampleTangle) [] [] [A1] =
      some (false, [B1, A2, C1, A1]) := by decide
  obtain ⟨b, vis, h1, h2⟩ := C20_has_cycle_terminates sampleTangle [] A1
  rw [h0] at h1
  simp only [Option.some.injEq, Prod.mk.injEq] at h1
  refine ⟨h0, ?_⟩
  rw [h1.2]
  exact h2 h1.1.symm

end TraversalClaims

/-! ## The layout of `Sheet::Print` -/

section PrintLayout

variable {D : Type}

theorem foldl_append_eq (l : List String) : ∀ (acc : String),
    l.foldl (fun r s => r ++ s) acc = acc ++ l.foldl (fun r s => r ++ s) "" := by
  induction l with
  | nil => intro acc; simp
  | cons a l ih =>
    intro acc
    simp only [List.foldl_cons]
    rw [ih (acc ++ a), ih ("" ++ a)]
    simp [String.append_assoc]

theorem join_cons_eq (a : String) (l : List String) : String.join (a :: l) = a ++ String.join l := by
  unfold String.join
  simp only [List.foldl_cons]
  rw [foldl_append_eq l ("" ++ a)]
  simp

theorem join_nil_eq : String.join [] = "" := rfl

theorem join_append_eq (l1 l2 : List String) :
    String.join (l1 ++ l2) = String.join l1 ++ String.join l2 := by
  induction l1 with
  | nil => simp [join_nil_eq]
  | cons a l ih => simp only [List.cons_append, join_cons_eq, ih, String.append_assoc]

theorem intercalate_go_eq (sep : String) (l : List String) : ∀ (acc : String),
    String.intercalate.go acc sep l = acc ++ String.join (l.map (fun x => sep ++ x)) := by
  induction l with
  | nil => intro acc; simp [String.intercalate.go, join_nil_eq]
  | cons a l ih =>
    intro acc
    simp only [String.intercalate.go, List.map_cons, join_cons_eq]
    rw [ih]
    simp [String.append_assoc]

/-- Writing a tab before every column but the first is joining the entries by
tabs. -/
theorem tabs_eq_intercalate (e : Nat → String) (C : Nat) :
    String.join ((List.range C).map (fun col => (if col > 0 then "\t" else "") ++ e col)) =
      String.intercalate "\t" ((List.range C).map e) := by
  cases C with
  | zero => rfl
  | succ n =>
    rw [List.range_succ_eq_map]
    simp only [List.map_cons, List.map_map, join_cons_eq, String.intercalate, intercalate_go_eq]
    simp only [Nat.lt_irrefl, if_false, String.empty_append]
    congr 2
    apply List.map_congr_left
    intro a _
    simp

theorem printCols_layout (getValue : Sheet D → Position → Outcome (Sheet D) String)
    (P : Sheet D → Prop) (s0 : Sheet D) (E : Nat → Nat → String) (row : Nat)
    (hpres : ∀ t, P t → ∀ p, (t.cellAt p).isSome = (s0.cellAt p).isSome)
    (habs : ∀ (r c : Nat), s0.cellAt { row := r, col := c } = none → E r c = "")
    (hget : ∀ (t : Sheet D) (r c : Nat), P t → (t.cellAt { row := r, col := c }).isSome →
      ∃ t1, getValue t { row := r, col := c } = .ok (E r c) t1 ∧ P t1) :
    ∀ (l : List Nat) (output : String) (t : Sheet D), P t →
      ∃ t1, Sheet.printCols getValue row l output t =
          .ok (output ++ String.join (l.map (fun col => (if col > 0 then "\t" else "") ++ E row col))) t1 ∧
        P t1 := by
  intro l
  induction l with
  | nil =>
    intro output t ht
    exact ⟨t, by simp [Sheet.printCols, join_nil_eq], ht⟩
  | cons col rest ih =>
    intro output t ht
    simp only [Sheet.printCols, List.map_cons, join_cons_eq]
    have hout : (if col > 0 then output ++ "\t" else output) =
        output ++ (if col > 0 then "\t" else "") := by
      by_cases h : col > 0 <;> simp [h]
    rw [hout]
    cases hc : t.cellAt { row := row, col := col } with
    | none =>
      have h0 : s0.cellAt { row := row, col := col } = none := by
        have := hpres t ht { row := row, col := col }
        rw [hc] at this
        cases hx : s0.cellAt { row := (row : Int), col := (col : Int) } with
        | none => rfl
        | some c => simp [hx] at this
      obtain ⟨t1, h1, hp1⟩ := ih (output ++ (if col > 0 then "\t" else "")) t ht
      refine ⟨t1, ?_, hp1⟩
      simp only
      rw [h1, habs row col h0]
      simp only [String.append_assoc, String.empty_append]
    | some c =>
      obtain ⟨t1, h1, hp1⟩ := hget t row col ht (by simp [hc])
      obtain ⟨t2, h2, hp2⟩ := ih (output ++ (if col > 0 then "\t" else "") ++ E row col) t1 hp1
      refine ⟨t2, ?_, hp2⟩
      simp only [h1, Outcome.bind]
      rw [h2]
      simp only [String.append_assoc]

theorem printRows_layout (getValue : Sheet D → Position → Outcome (Sheet D) String)
    (P : Sheet D → Prop) (s0 : Sheet D) (E : Nat → Nat → String) (C : Nat)
    (hpres : ∀ t, P t → ∀ p, (t.cellAt p).isSome = (s0.cellAt p).isSome)
    (habs : ∀ (r c : Nat), s0.cellAt { row := r, col := c } = none → E r c = "")
    (hget : ∀ (t : Sheet D) (r c : Nat), P t → (t.cellAt { row := r, col := c }).isSome →
      ∃ t1, getValue t { row := r, col := c } = .ok (E r c) t1 ∧ P t1) :
    ∀ (rows : List Nat) (output : String) (t : Sheet D), P t →
      ∃ t1, Sheet.printRows getValue C rows output t =
          .ok (output ++ String.join (rows.map (fun r =>
            String.intercalate "\t" ((List.range C).map (E r)) ++ "\n"))) t1 ∧
        P t1 := by
  intro rows
  induction rows with
  | nil =>
    intro output t ht
    exact ⟨t, by simp [Sheet.printRows, join_nil_eq], ht⟩
  | cons r rest ih =>
    intro output t ht
    obtain ⟨t1, h1, hp1⟩ := printCols_layout getValue P s0 E r hpres habs hget (List.range C) output t ht
    obtain ⟨t2, h2, hp2⟩ := ih (output ++ String.join ((List.range C).map
      (fun col => (if col > 0 then "\t" else "") ++ E r col)) ++ "\n") t1 hp1
    refine ⟨t2, ?_, hp2⟩
    rw [tabs_eq_intercalate (E r) C] at h1 h2
    simp only [Sheet.printRows, h1, Outcome.bind, List.map_cons, join_cons_eq]
    rw [h2]
    simp only [String.append_assoc]

/-- `Sheet::Print` writes the layout of the specification when every call of
`getValue` on a present cell returns the entry of that cell. -/
theorem Print_layout (getValue : Sheet D → Position → Outcome (Sheet D) String)
    (P : Sheet D → Prop) (s0 : Sheet D) (E : Nat → Nat → String)
    (hpres : ∀ t, P t → ∀ p, (t.cellAt p).isSome = (s0.cellAt p).isSome)
    (habs : ∀ (r c : Nat), s0.cellAt { row := r, col := c } = none → E r c = "")
    (hget : ∀ (t : Sheet D) (r c : Nat), P t → (t.cellAt { row := r, col := c }).isSome →
      ∃ t1, getValue t { row := r, col := c } = .ok (E r c) t1 ∧ P t1)
    (h0 : P s0) :
    ∃ t1, s0.Print getValue =
        .ok (specPrint s0.GetPrintableSize.rows.toNat s0.GetPrintableSize.cols.toNat E) t1 ∧ P t1 := by
  obtain ⟨t1, h1, hp1⟩ := printRows_layout getValue P s0 E s0.GetPrintableSize.cols.toNat hpres habs
    hget (List.range s0.GetPrintableSize.rows.toNat) "" s0 h0
  refine ⟨t1, ?_, hp1⟩
  unfold Sheet.Print specPrint
  rw [h1]
  simp

/-- `PrintTexts` writes the layout of the specification and leaves the sheet as
it is. -/
theorem PrintTexts_layout (s : Sheet D) :
    s.PrintTexts =
      .ok (specPrint s.GetPrintableSize.rows.toNat s.GetPrintableSize.cols.toNat (textEntry s)) s := by
  obtain ⟨t1, h1, hp1⟩ := Print_layout
    (fun s1 p => match s1.cellAt p with
      | some c => Outcome.ok c.impl_.GetText s1
      | none => Outcome.nullDeref)
    (fun t => t = s) s (textEntry s) (fun t ht p => by rw [ht])
    (fun r c h => by simp [textEntry, h])
    (fun t r c ht hp => by
      subst ht
      cases hc : t.cellAt { row := (r : Int), col := (c : Int) } with
      | none => simp [hc] at hp
      | some cell => exact ⟨t, by simp [textEntry, hc], rfl⟩)
    rfl
  unfold Sheet.PrintTexts
  rw [h1, hp1]

end PrintLayout

/-! ## The value of a cell does not depend on the caches -/

section PureValue

variable {D : Type}

theorem SameImpls.symm {a b : Sheet D} (h : SameImpls a b) : SameImpls b a :=
  fun q => ⟨(h q).1.symm, (h q).2.symm⟩

theorem SameImpls.from_bodies (a b : Sheet D) (h : b.bodies = a.bodies) : SameImpls a b :=
  fun q => ⟨(present_of_bodies b a h q).symm, (Sheet.implAt_of_bodies a b h q).symm⟩

theorem SameImpls.cell {a b : Sheet D} (h : SameImpls a b) (p : Position) (c : Cell D)
    (hc : a.cellAt p = some c) :
    ∃ cb, b.cellAt p = some cb ∧ cb.impl_.InvalidateCache = c.impl_.InvalidateCache := by
  have h1 := (h p).1
  have h2 := (h p).2
  rw [hc] at h1
  cases hb : b.cellAt p with
  | none => simp [hb] at h1
  | some cb =>
    rw [Sheet.implAt_of_cellAt a p c hc, Sheet.implAt_of_cellAt b p cb hb] at h2
    exact ⟨cb, rfl, h2.symm⟩

theorem SameImpls.none {a b : Sheet D} (h : SameImpls a b) (p : Position)
    (hc : a.cellAt p = none) : b.cellAt p = none := by
  have h1 := (h p).1
  rw [hc] at h1
  cases hb : b.cellAt p with
  | none => rfl
  | some cb => simp [hb] at h1

/-- The value read off the bodies is the same on two sheets with the same
bodies, and stays when the fuel grows. -/
theorem pureValue_mono (X : Externals D) :
    ∀ (n m : Nat) (a b : Sheet D) (p : Position) (v : CellValue D), SameImpls a b → n ≤ m →
      pureValue X n a p = some v → pureValue X m b p = some v := by
  intro n
  induction n with
  | zero => intro m a b p v _ _ h; simp [pureValue] at h
  | succ n ih =>
    intro m a b p v hab hnm h
    obtain ⟨m1, rfl⟩ : ∃ m1, m = m1 + 1 := ⟨m - 1, by omega⟩
    simp only [pureValue] at h ⊢
    cases hc : a.cellAt p with
    | none => simp [hc] at h
    | some c =>
      obtain ⟨cb, hcb, hinv⟩ := hab.cell p c hc
      simp only [hc] at h
      simp only [hcb]
      cases hi : c.impl_ with
      | EmptyImpl =>
        rw [hi] at hinv h
        cases hib : cb.impl_ <;> simp [hib, Impl.InvalidateCache] at hinv
        simpa using h
      | TextImpl t =>
        rw [hi] at hinv h
        cases hib : cb.impl_ <;> simp [hib, Impl.InvalidateCache] at hinv
        subst hinv
        simpa using h
      | FormulaImpl f cache =>
        obtain ⟨cache0, hib⟩ := Impl.formula_of_invalidate c.impl_ cb.impl_ f cache hinv.symm hi
        rw [hi] at h
        rw [hib]
        simp only at h ⊢
        cases he : evaluateSettled X a (pureValue X n a) f with
        | none => simp [he] at h
        | some w =>
          rw [evaluateSettled_mono X a b (pureValue X n a) (pureValue X m1 b)
            (fun q hq => hab.none q hq)
            (fun q hq => by rw [← (hab q).1]; exact hq)
            (fun q u hq => ih m1 a b q u hab (by omega) hq) f w he]
          rw [he] at h
          exact h

theorem SameImpls.same_sheet (a : Sheet D) : SameImpls a a := fun _ => ⟨rfl, rfl⟩

/-- A settled value is the value read off the bodies. -/
theorem settled_pure (X : Externals D) :
    ∀ (n : Nat) (s : Sheet D) (p : Position) (v : CellValue D),
      settledValue X n s p = some v → pureValue X n s p = some v := by
  intro n
  induction n with
  | zero => intro s p v h; simp [settledValue] at h
  | succ n ih =>
    intro s p v h
    simp only [settledValue] at h
    simp only [pureValue]
    cases hc : s.cellAt p with
    | none => simp [hc] at h
    | some c =>
      simp only [hc] at h ⊢
      cases hi : c.impl_ with
      | EmptyImpl => simpa [hi] using h
      | TextImpl t => simpa [hi] using h
      | FormulaImpl f cache =>
        rw [hi] at h
        cases cache with
        | none => simp at h
        | some w0 =>
          simp only at h ⊢
          cases he : evaluateSettled X s (settledValue X n s) f with
          | none => simp [he] at h
          | some w =>
            rw [evaluateSettled_mono X s s (settledValue X n s) (pureValue X n s)
              (fun q hq => hq) (fun q hq => hq) (fun q u hq => ih s q u hq) f w he]
            rw [he] at h
            exact h

/-- What `Cell::GetValue` returns is the value read off the bodies of the sheet
it was called on. -/
theorem GetValue_pure (X : Externals D) (n : Nat) (s s1 : Sheet D) (p : Position)
    (v : CellValue D) (h : Cell.GetValue X n s p = .ok v s1) : pureValue X n s p = some v := by
  have hbod := GetValue_bodies X n s p s1 (by rw [h]; rfl)
  have h1 := settled_pure X n s1 p v (GetValue_after X n s p v s1 h)
  exact pureValue_mono X n n s1 s p v (SameImpls.from_bodies s s1 hbod).symm (le_refl _) h1

/-- On two sheets with the same bodies `Cell::GetValue` returns the same value,
whatever their caches, their edge sets and the fuel. -/
theorem GetValue_agree (X : Externals D) (n m : Nat) (a a1 b b1 : Sheet D) (p : Position)
    (v w : CellValue D) (hab : SameImpls a b) (ha : Cell.GetValue X n a p = .ok v a1)
    (hb : Cell.GetValue X m b p = .ok w b1) : v = w := by
  have h1 := pureValue_mono X n (max n m) a b p v hab (le_max_left _ _) (GetValue_pure X n a a1 p v ha)
  have h2 := pureValue_mono X m (max n m) b b p w (SameImpls.same_sheet b) (le_max_right _ _)
    (GetValue_pure X m b b1 p w hb)
  rw [h1] at h2
  simpa using h2

end PureValue

section PrintValuesLayout

variable {D : Type}

theorem Sheet.GetValue_present (X : Externals D) (s : Sheet D) (hs : Sound X s) (p : Position)
    (hp : (s.cellAt p).isSome) :
    ∃ v s1, Cell.GetValue X (evalFuel s + 1) s p = .ok v s1 ∧ Sheet.GetValue X s p = .ok v s1 ∧
      Sound X s1 ∧ s1.bodies = s.bodies := by
  obtain ⟨v, s1, h⟩ := Sheet.GetValue_total X s hs p hp
  have hg := GetValue_sound X s p hs s1 (by rw [h]; rfl)
  have hv : p.IsValid = true := by
    apply hs.wf.valid p
    intro hn
    have := (Sheet.cellAt_eq_none_iff s p).2 (Or.inl hn)
    simp [this] at hp
  have h1 : Cell.GetValue X (evalFuel s + 1) s p = .ok v s1 := by
    unfold Sheet.GetValue at h
    simpa [hv] using h
  exact ⟨v, s1, h1, h, hg, GetValue_bodies X _ s p s1 (by rw [h1]; rfl)⟩

/-- `PrintValues` on a sound sheet writes the layout of the specification, each
entry the rendering of the value `GetValue` of the cell returns, and changes
caches only. -/
theorem PrintValues_layout (X : Externals D) (showDouble : D → String)
    (showError : Category → String) (s : Sheet D) (hs : Sound X s) :
    ∃ s1, s.PrintValues X showDouble showError =
        .ok (specPrint s.GetPrintableSize.rows.toNat s.GetPrintableSize.cols.toNat
          (valueEntry X showDouble showError s)) s1 ∧
      Sound X s1 ∧ s1.bodies = s.bodies := by
  have hget : ∀ (t : Sheet D) (r c : Nat), (Sound X t ∧ t.bodies = s.bodies) →
      (t.cellAt { row := r, col := c }).isSome →
      ∃ t1, (Cell.GetValue X (evalFuel t + 1) t { row := r, col := c }).bind (fun value s2 =>
          Outcome.ok (renderValue showDouble showError value) s2) =
          .ok (valueEntry X showDouble showError s r c) t1 ∧ (Sound X t1 ∧ t1.bodies = s.bodies) := by
    intro t r c ht hp
    have hps : (s.cellAt { row := (r : Int), col := (c : Int) }).isSome := by
      rw [← present_of_bodies t s ht.2]; exact hp
    obtain ⟨v, t1, h1, _, hs1, hb1⟩ := Sheet.GetValue_present X t ht.1 _ hp
    obtain ⟨v0, s1, h0, h0s, _, _⟩ := Sheet.GetValue_present X s hs _ hps
    have hv : v = v0 := GetValue_agree X _ _ t t1 s s1 _ v v0
      (SameImpls.from_bodies s t ht.2).symm h1 h0
    refine ⟨t1, ?_, hs1, hb1.trans ht.2⟩
    rw [h1]
    cases hc : s.cellAt { row := (r : Int), col := (c : Int) } with
    | none => simp [hc] at hps
    | some cell =>
      unfold valueEntry
      rw [hc, h0s, hv]
      rfl
  exact Print_layout
    (fun s1 p => (Cell.GetValue X (evalFuel s1 + 1) s1 p).bind (fun value s2 =>
      Outcome.ok (renderValue showDouble showError value) s2))
    (fun t => Sound X t ∧ t.bodies = s.bodies) s (valueEntry X showDouble showError s)
    (fun t ht p => present_of_bodies t s ht.2 p)
    (fun r c h => by simp [valueEntry, h])
    hget ⟨hs, rfl⟩

end PrintValuesLayout

/-! ## Every body was built by `Cell::Set` -/

section BuiltBodies

variable {D : Type}

theorem Built.bodies_same (X : Externals D) (s t : Sheet D) (h : t.bodies = s.bodies)
    (hb : Built X s) : Built X t := by
  intro q
  rw [Sheet.implAt_of_bodies s t h q]
  exact hb q

theorem Built.at_empty (X : Externals D) : Built X (Sheet.empty : Sheet D) :=
  fun _ => ⟨"", rfl⟩

theorem Built.at_ensure (X : Externals D) (s : Sheet D) (pos : Position) (hb : Built X s) :
    Built X (s.ensure pos) := by
  intro q
  rw [Sheet.implAt_ensure]
  exact hb q

theorem Built.at_reset (X : Externals D) (s : Sheet D) (p : Position) (hb : Built X s) :
    Built X (s.reset p) := by
  intro q
  by_cases h : q = p
  · have : (s.reset p).cellAt q = none := by rw [Sheet.cellAt_reset]; simp [h]
    rw [Sheet.implAt_absent _ q this]
    exact ⟨"", rfl⟩
  · have : (s.reset p).implAt q = s.implAt q := by
      simp only [Sheet.implAt, Sheet.cellOrNew, Sheet.cellAt_reset, h, if_false]
    rw [this]
    exact hb q

theorem Cell.Set_built (X : Externals D)
    (setCell : Sheet D → Position → String → Outcome (Sheet D) Unit) (hsc : CreatesEmpty setCell)
    (s t : Sheet D) (self : Position) (text : String) (hb : Built X s)
    (hself : (s.cellAt self).isSome) (h : Cell.Set X setCell s self text = .ok () t) :
    Built X t := by
  obtain ⟨impl, s2, hbi, _, hrew, hupd⟩ := Cell.Set_ok X setCell hsc s t self text h
  apply Built.bodies_same X s2 t (UpdateDependencies_bodies _ _ _ _ _ hupd)
  intro q
  by_cases hq : q = self
  · subst hq
    have hp2 : (s2.cellAt q).isSome := hrew.stays_present q hself
    cases hc2 : s2.cellAt q with
    | none => simp [hc2] at hp2
    | some c2 =>
      rw [Sheet.implAt_of_cellAt s2 q c2 hc2, hrew.impl_self c2 hc2]
      rw [Impl.invalidate_of_spec X text impl (by rw [← buildImpl_eq_spec]; exact hbi)]
      exact ⟨text, hbi⟩
  · rw [hrew.implAt_ne q hq]
    exact hb q

theorem SetCell_built (X : Externals D) (s : Sheet D) (pos : Position) (text : String)
    (hb : Built X s) : (Sheet.SetCell X s pos text).StateSat (Built X) := by
  rcases SetCell_cases X s pos text with ⟨_, h⟩ | ⟨_, _, h⟩ | ⟨hv, _, hpres, h⟩
  · rw [h]; exact Outcome.StateSat_throws _ _ _ hb
  · rw [h]; intro s1 hs1; simp [Outcome.state] at hs1
  · rw [h]
    have hbe := Built.at_ensure X s pos hb
    intro t ht
    cases ho : Cell.Set X (SetCellFuel X 1) (s.ensure pos) pos text with
    | ok u s2 =>
      simp only [ho, Outcome.state, Option.some.injEq] at ht
      subst ht
      exact Cell.Set_built X _ (SetCellFuel_createsEmpty X 0) _ s2 pos text hbe hpres ho
    | throws e s2 =>
      simp only [ho, Outcome.state, Option.some.injEq] at ht
      subst ht
      rw [Cell.Set_throws X _ (SetCellFuel_createsEmpty X 0) _ s2 pos text e hpres ho]
      exact hbe
    | nullDeref => simp [ho, Outcome.state] at ht
    | outOfFuel => simp [ho, Outcome.state] at ht

theorem ClearCell_built (X : Externals D) (s : Sheet D) (pos : Position) (hw : WellFormed s)
    (hb : Built X s) : (Sheet.ClearCell X s pos).StateSat (Built X) := by
  by_cases hv : pos.IsValid = true
  · rcases ClearCell_steps X s pos hw hv with ⟨_, h⟩ | ⟨s1, hpres, hclear, hcase⟩
    · rw [h]; exact Outcome.StateSat_ok _ _ _ hb
    · have hb1 : Built X s1 :=
        Cell.Set_built X (Sheet.SetCell X) (SetCell_createsEmpty X) s s1 pos "" hb hpres hclear
      rcases hcase with ⟨_, h⟩ | ⟨_, h⟩
      · rw [h]; exact Outcome.StateSat_ok _ _ _ (Built.at_reset X s1 pos hb1)
      · rw [h]; exact Outcome.StateSat_ok _ _ _ hb1
  · have hv1 : pos.IsValid = false := by simpa using hv
    rw [ClearCell_invalid X s pos hv1]
    exact Outcome.StateSat_throws _ _ _ hb

theorem GetValue_built (X : Externals D) (s : Sheet D) (pos : Position) (hb : Built X s) :
    (Sheet.GetValue X s pos).StateSat (Built X) := by
  unfold Sheet.GetValue
  split
  · exact Outcome.StateSat_throws _ _ _ hb
  · intro s1 hs1
    exact Built.bodies_same X s s1 (GetValue_bodies X _ s pos s1 hs1) hb

/-- Every body of a sheet that a sequence of calls leaves behind was built by
`Cell::Set` from some text. -/
theorem runOps_built (X : Externals D) :
    ∀ (ops : List Op) (s s1 : Sheet D), WellFormed s → Built X s → runOps X ops s = some s1 →
      Built X s1 := by
  intro ops
  induction ops with
  | nil =>
    intro s s1 _ hb h
    simp only [runOps, Option.some.injEq] at h
    exact h ▸ hb
  | cons op rest ih =>
    intro s s1 hw hb h
    simp only [runOps] at h
    cases ha : op.apply X s with
    | none => simp [ha] at h
    | some s2 =>
      simp only [ha] at h
      have hb2 : Built X s2 := by
        cases op with
        | SetCell pos text => exact SetCell_built X s pos text hb s2 ha
        | ClearCell pos => exact ClearCell_built X s pos hw hb s2 ha
        | GetValue pos => exact GetValue_built X s pos hb s2 ha
      exact ih s2 s1 (Op.apply_wf X s s2 op hw ha) hb2 h

/-- In a sheet whose bodies were built by `Cell::Set`, a Text body is rebuilt
from its own text. -/
theorem Built.text (X : Externals D) (s : Sheet D) (hb : Built X s) (p : Position) (c : Cell D)
    (t : String) (hc : s.cellAt p = some c) (hi : c.impl_ = .TextImpl t) :
    buildImpl X t = .ok (.TextImpl t) := by
  obtain ⟨text, h⟩ := hb p
  rw [Sheet.implAt_of_cellAt s p c hc, hi] at h
  simp only [Impl.InvalidateCache] at h
  have h2 := h
  rw [buildImpl_eq_spec] at h2
  unfold specBuildImpl at h2
  split at h2
  · simp at h2
  · split at h2
    · split at h2 <;> simp at h2
    · simp only [Except.ok.injEq, Impl.TextImpl.injEq] at h2
      rw [← h2]
      rw [← h2] at h
      exact h

end BuiltBodies

/-! ## Setting a cell to its own text -/

section OwnText

variable {D : Type}

theorem SameImpls.chain {a b c : Sheet D} (h1 : SameImpls a b) (h2 : SameImpls b c) :
    SameImpls a c :=
  fun q => ⟨(h1 q).1.trans (h2 q).1, (h1 q).2.trans (h2 q).2⟩

/-- The body built from the text of a cell is the body of the cell without its
cache, when the text of a formula parses back to the formula. -/
theorem buildImpl_own_text (X : Externals D) (s : Sheet D) (hb : Built X s) (p : Position)
    (c : Cell D) (hc : s.cellAt p = some c)
    (hrt : ∀ f cache, c.impl_ = .FormulaImpl f cache →
      f.printed ≠ "" ∧ X.ParseFormulaAST f.printed = some f) :
    buildImpl X c.impl_.GetText = .ok c.impl_.InvalidateCache := by
  cases hi : c.impl_ with
  | EmptyImpl => rfl
  | TextImpl t => exact Built.text X s hb p c t hc hi
  | FormulaImpl f cache =>
    obtain ⟨hne, hparse⟩ := hrt f cache hi
    have hdata : f.printed.data ≠ [] := fun h => hne (String.ext h)
    have hmk : String.mk f.printed.data = f.printed := rfl
    simp only [Impl.GetText, FormulaAST.GetExpression, buildImpl, Impl.InvalidateCache]
    have hlen : f.printed.data.length + 1 > 1 := by
      cases hd : f.printed.data with
      | nil => exact absurd hd hdata
      | cons a l => simp
    simp only [hlen, decide_True, Bool.and_self, if_true, FormulaImpl.new, ne_eq,
      not_true_eq_false, if_false, ParseFormula, hmk, hparse]

/-- In a well-formed sheet whose bodies were built by `Cell::Set`,
`SetCell(p, GetText(p))` on a present cell returns and leaves every position
with the cell and the body it had, the caches apart. -/
theorem SetCell_own_text (X : Externals D) (s : Sheet D) (hw : WellFormed s) (hb : Built X s)
    (p : Position) (c : Cell D) (hc : s.cellAt p = some c)
    (hrt : ∀ f cache, c.impl_ = .FormulaImpl f cache →
      f.printed ≠ "" ∧ X.ParseFormulaAST f.printed = some f) :
    ∃ s1, Sheet.SetCell X s p c.impl_.GetText = .ok () s1 ∧ SameImpls s s1 := by
  have hbuild := buildImpl_own_text X s hb p c hc hrt
  have hfind : s.find p = some (some c) := (Sheet.cellAt_eq_some_iff s p c).1 hc
  have hv : p.IsValid = true := hw.valid p (by simp [hfind])
  have hens : s.ensure p = s := by simp [Sheet.ensure, hfind]
  have hself : (s.cellAt p).isSome := by simp [hc]
  have hrefs : ∀ q, q ∈ c.impl_.InvalidateCache.GetReferencedCells ↔ q ∈ s.references p := by
    intro q
    rw [Impl.refs_InvalidateCache]
    simp only [Sheet.references, hc]
    exact (hw.complete p c hc q).symm
  have hpresent : ∀ q ∈ c.impl_.InvalidateCache.GetReferencedCells, (s.cellAt q).isSome := by
    intro q hq
    exact present_of_dependents s q p ((hw.symm p q).1 ((hrefs q).1 hq))
  have hvalid : ∀ q ∈ c.impl_.InvalidateCache.GetReferencedCells, q.IsValid = true := by
    intro q hq
    apply hw.valid q
    intro hn
    have := (Sheet.cellAt_eq_none_iff s q).2 (Or.inl hn)
    have hp := hpresent q hq
    simp [this] at hp
  have hno : ¬ ∃ x ∈ c.impl_.InvalidateCache.GetReferencedCells, (s.cellAt x).isSome ∧
      Relation.ReflTransGen (DepEdge s) p x := by
    rintro ⟨x, hx, _, hpath⟩
    have h1 : RefEdge s p x := (hrefs x).1 hx
    have h2 := forward_path s hw.symm p x hpath
    exact hw.acyclic p (Relation.TransGen.head' h1 h2)
  obtain ⟨b, hcheck, hiff⟩ := CheckCyclicDependency_spec s p c.impl_.InvalidateCache hvalid
  have hbf : b = false := by
    cases b with
    | false => rfl
    | true => exact absurd (hiff.1 rfl) hno
  subst hbf
  have hsc := SetCellFuel_createsEmpty X 0
  rcases UpdateReferences_outcome (SetCellFuel X 1) hsc s p c.impl_.InvalidateCache hself hvalid with
    ⟨⟨s2, hu⟩, _⟩ | ⟨_, q, hq, hqn⟩
  · have hrew := UpdateReferences_ok (SetCellFuel X 1) hsc s s2 p _ hu
    have hw2 := WellFormed.rewired s s2 p _ hw hself hrew hno
    obtain ⟨s3, h3⟩ := UpdateDependencies_total s2 (WellFormed.depsFormula s2 hw2) p
    have hbod := UpdateDependencies_bodies _ _ _ _ _ h3
    refine ⟨s3, ?_, ?_⟩
    · rcases SetCell_cases X s p c.impl_.GetText with ⟨hv0, _⟩ | ⟨_, hf0, _⟩ | ⟨_, _, _, h⟩
      · rw [hv] at hv0; simp at hv0
      · rw [hfind] at hf0; simp at hf0
      · rw [h, hens]
        simp only [Cell.Set, hbuild, hcheck, Outcome.bind, Bool.false_eq_true, if_false, hu, h3]
    · apply SameImpls.chain _ (SameImpls.from_bodies s2 s3 hbod)
      intro q
      constructor
      · cases hcq : s.cellAt q with
        | some cq =>
          have := hrew.stays_present q (by simp [hcq])
          simp [this]
        | none =>
          cases hc2 : s2.cellAt q with
          | none => rfl
          | some c2 =>
            exfalso
            rcases (Sheet.cellAt_eq_none_iff s q).1 hcq with h1 | h1
            · by_cases hqr : q ∈ c.impl_.InvalidateCache.GetReferencedCells
              · have := hpresent q hqr
                simp [hcq] at this
              · have := (hrew.find_none q).2 ⟨h1, hqr⟩
                have h4 := (Sheet.cellAt_eq_none_iff s2 q).2 (Or.inl this)
                rw [hc2] at h4; simp at h4
            · have := (hrew.find_null q).2 h1
              have h4 := (Sheet.cellAt_eq_none_iff s2 q).2 (Or.inr this)
              rw [hc2] at h4; simp at h4
      · by_cases hq : q = p
        · subst hq
          have hp2 : (s2.cellAt q).isSome := hrew.stays_present q hself
          cases hc2 : s2.cellAt q with
          | none => simp [hc2] at hp2
          | some c2 =>
            rw [Sheet.implAt_of_cellAt s2 q c2 hc2, hrew.impl_self c2 hc2,
              Sheet.implAt_of_cellAt s q c hc, Impl.InvalidateCache_idem]
        · rw [hrew.implAt_ne q hq]
  · exfalso
    have := hpresent q hq
    rw [(Sheet.cellAt_eq_none_iff s q).2 (Or.inr hqn)] at this
    simp at this

end OwnText

/-! ## The claims about printing and about setting a cell to its own text -/

section PrintClaims

variable {D : Type}

theorem printable_size_nonneg (s : Sheet D) (hw : WellFormed s) :
    0 ≤ s.GetPrintableSize.rows ∧ 0 ≤ s.GetPrintableSize.cols := by
  obtain ⟨_, h2, h3⟩ := printable_size_wf s hw
  by_cases hex : ∃ p, (s.cellAt p).isSome
  · obtain ⟨⟨p, hp, hr⟩, ⟨q, hq, hc⟩⟩ := h2 hex
    have hvalid : ∀ x, (s.cellAt x).isSome → x.IsValid = true := by
      intro x hx
      apply hw.valid x
      intro hn
      have := (Sheet.cellAt_eq_none_iff s x).2 (Or.inl hn)
      simp [this] at hx
    have hpv := hvalid p hp
    have hqv := hvalid q hq
    simp only [Position.IsValid, Bool.and_eq_true, decide_eq_true_eq] at hpv hqv
    omega
  · have hall : ∀ p, s.cellAt p = none := by
      intro p
      cases hc : s.cellAt p with
      | none => rfl
      | some c => exact absurd ⟨p, by simp [hc]⟩ hex
    rw [h3 hall]
    simp

/-- The printable size is fixed by the set of present cells. -/
theorem printable_size_same (a b : Sheet D) (ha : WellFormed a) (hb : WellFormed b)
    (hpres : ∀ q, (a.cellAt q).isSome = (b.cellAt q).isSome) :
    a.GetPrintableSize = b.GetPrintableSize := by
  obtain ⟨a1, a2, a3⟩ := printable_size_wf a ha
  obtain ⟨b1, b2, b3⟩ := printable_size_wf b hb
  by_cases hex : ∃ p, (a.cellAt p).isSome
  · have hexb : ∃ p, (b.cellAt p).isSome := by
      obtain ⟨p, hp⟩ := hex
      exact ⟨p, by rw [← hpres]; exact hp⟩
    obtain ⟨⟨p, hp, hpr⟩, ⟨q, hq, hqc⟩⟩ := a2 hex
    obtain ⟨⟨p1, hp1, hpr1⟩, ⟨q1, hq1, hqc1⟩⟩ := b2 hexb
    have e1 := b1 p (by rw [← hpres]; exact hp)
    have e2 := b1 q (by rw [← hpres]; exact hq)
    have e3 := a1 p1 (by rw [hpres]; exact hp1)
    have e4 := a1 q1 (by rw [hpres]; exact hq1)
    have hr : a.GetPrintableSize.rows = b.GetPrintableSize.rows := by omega
    have hc : a.GetPrintableSize.cols = b.GetPrintableSize.cols := by omega
    cases hA : a.GetPrintableSize
    cases hB : b.GetPrintableSize
    rw [hA, hB] at hr hc
    simp only at hr hc
    rw [hr, hc]
  · have halla : ∀ p, a.cellAt p = none := by
      intro p
      cases hc : a.cellAt p with
      | none => rfl
      | some c => exact absurd ⟨p, by simp [hc]⟩ hex
    have hallb : ∀ p, b.cellAt p = none := by
      intro p
      have := hpres p
      rw [halla p] at this
      cases hc : b.cellAt p with
      | none => rfl
      | some c => simp [hc] at this
    rw [a3 halla, b3 hallb]

/-- C16: in every sheet reached from the empty one, with printable size
`(R, C)`, `PrintTexts` and `PrintValues` return, and what each writes is `R`
lines, every line the `C` entries of its row joined by single tabs and ended by
a newline; the entry of a present cell is its text, respectively the rendering
of the value `GetValue` returns, the entry of a missing cell is the empty
string; with `R = 0` nothing is written. -/
theorem C16_print_layout (X : Externals D) (hX : ListsItsCells X) (showDouble : D → String)
    (showError : Category → String) (ops : List Op) (s : Sheet D)
    (h : runOps X ops Sheet.empty = some s) :
    (0 ≤ s.GetPrintableSize.rows ∧ 0 ≤ s.GetPrintableSize.cols) ∧
    s.PrintTexts =
      .ok (specPrint s.GetPrintableSize.rows.toNat s.GetPrintableSize.cols.toNat (textEntry s)) s ∧
    (∃ s1, s.PrintValues X showDouble showError =
      .ok (specPrint s.GetPrintableSize.rows.toNat s.GetPrintableSize.cols.toNat
        (valueEntry X showDouble showError s)) s1) ∧
    (∀ (r c : Nat), s.cellAt { row := r, col := c } = none →
      textEntry s r c = "" ∧ valueEntry X showDouble showError s r c = "") ∧
    (∀ (r c : Nat) (cell : Cell D), s.cellAt { row := r, col := c } = some cell →
      textEntry s r c = cell.impl_.GetText ∧
      ∃ v s1, Sheet.GetValue X s { row := r, col := c } = .ok v s1 ∧
        valueEntry X showDouble showError s r c = renderValue showDouble showError v) ∧
    (s.GetPrintableSize.rows = 0 →
      s.PrintTexts = .ok "" s ∧ ∃ s1, s.PrintValues X showDouble showError = .ok "" s1) := by
  have hs := runOps_sound X hX ops Sheet.empty s (Sound.of_empty X) h
  obtain ⟨s1, hpv, _, _⟩ := PrintValues_layout X showDouble showError s hs
  refine ⟨printable_size_nonneg s hs.wf, PrintTexts_layout s, ⟨s1, hpv⟩, ?_, ?_, ?_⟩
  · intro r c hc
    simp [textEntry, valueEntry, hc]
  · intro r c cell hc
    refine ⟨by simp [textEntry, hc], ?_⟩
    obtain ⟨v, t, _, hg, _, _⟩ := Sheet.GetValue_present X s hs { row := r, col := c } (by simp [hc])
    refine ⟨v, t, hg, ?_⟩
    unfold valueEntry
    rw [hc, hg]
  · intro hr
    have e : specPrint 0 s.GetPrintableSize.cols.toNat (textEntry s) = "" := rfl
    have e2 : specPrint 0 s.GetPrintableSize.cols.toNat (valueEntry X showDouble showError s) = "" :=
      rfl
    refine ⟨?_, s1, ?_⟩
    · rw [PrintTexts_layout s, hr]
      simp only [Int.toNat_zero, e]
    · rw [hpv, hr]
      simp only [Int.toNat_zero, e2]

/-- C16 after `SetCell(A1, "=B1+5")` and `SetCell(A2, "x")`: two lines of two
entries each. -/
theorem C16_witness :
    (ListsItsCells sampleX ∧
      runOps sampleX [.SetCell A1 "=B1+5", .SetCell A2 "x"] Sheet.empty =
        some (sampleAfter [.SetCell A1 "=B1+5", .SetCell A2 "x"])) ∧
    (sampleAfter [.SetCell A1 "=B1+5", .SetCell A2 "x"]).PrintTexts =
      .ok (specPrint
          (sampleAfter [.SetCell A1 "=B1+5", .SetCell A2 "x"]).GetPrintableSize.rows.toNat
          (sampleAfter [.SetCell A1 "=B1+5", .SetCell A2 "x"]).GetPrintableSize.cols.toNat
          (textEntry (sampleAfter [.SetCell A1 "=B1+5", .SetCell A2 "x"])))
        (sampleAfter [.SetCell A1 "=B1+5", .SetCell A2 "x"]) ∧
    specPrint
        (sampleAfter [.SetCell A1 "=B1+5", .SetCell A2 "x"]).GetPrintableSize.rows.toNat
        (sampleAfter [.SetCell A1 "=B1+5", .SetCell A2 "x"]).GetPrintableSize.cols.toNat
        (textEntry (sampleAfter [.SetCell A1 "=B1+5", .SetCell A2 "x"])) = "=B1+5\t\nx\t\n" :=
  ⟨⟨sampleX_listsItsCells, by decide⟩,
    (C16_print_layout sampleX sampleX_listsItsCells sampleShowDouble sampleShowError
      [.SetCell A1 "=B1+5", .SetCell A2 "x"] _ (by decide)).2.1,
    by decide⟩

end PrintClaims

section OwnTextClaims

variable {D : Type}

theorem GetText_same (a b : Sheet D) (h : SameImpls a b) (q : Position) :
    b.GetText q = a.GetText q := by
  unfold Sheet.GetText
  cases hc : a.cellAt q with
  | none => rw [h.none q hc]
  | some c =>
    obtain ⟨cb, hcb, hinv⟩ := h.cell q c hc
    rw [hcb]
    simp only [Option.map_some', Option.some.injEq]
    exact Impl.getText_of_invalidate _ _ hinv

/-- On two sound sheets with the same bodies the `GetValue` of a client returns
or throws the same. -/
theorem GetValue_same (X : Externals D) (a b : Sheet D) (ha : Sound X a) (hb : Sound X b)
    (h : SameImpls a b) (q : Position) :
    (Sheet.GetValue X b q).forget = (Sheet.GetValue X a q).forget := by
  by_cases hv : q.IsValid = true
  · cases hc : a.cellAt q with
    | none =>
      have hcb := h.none q hc
      simp [Sheet.GetValue, hv, Cell.GetValue, hc, hcb]
    | some c =>
      obtain ⟨cb, hcb, _⟩ := h.cell q c hc
      obtain ⟨v, a1, h1, h1s, _, _⟩ := Sheet.GetValue_present X a ha q (by simp [hc])
      obtain ⟨w, b1, h2, h2s, _, _⟩ := Sheet.GetValue_present X b hb q (by simp [hcb])
      have hvw := GetValue_agree X _ _ a a1 b b1 q v w h h1 h2
      rw [h1s, h2s, hvw]
      rfl
  · have hv1 : q.IsValid = false := by simpa using hv
    simp [Sheet.GetValue, hv1, Outcome.forget]

theorem textEntry_same (a b : Sheet D) (h : SameImpls a b) : textEntry b = textEntry a := by
  funext r c
  have := GetText_same a b h { row := r, col := c }
  unfold Sheet.GetText at this
  unfold textEntry
  cases ha : a.cellAt { row := (r : Int), col := (c : Int) } with
  | none => rw [h.none _ ha]
  | some ca =>
    obtain ⟨cb, hcb, _⟩ := h.cell _ ca ha
    rw [ha, hcb] at this
    rw [hcb]
    simpa using this

theorem valueEntry_same (X : Externals D) (showDouble : D → String)
    (showError : Category → String) (a b : Sheet D) (ha : Sound X a) (hb : Sound X b)
    (h : SameImpls a b) :
    valueEntry X showDouble showError b = valueEntry X showDouble showError a := by
  funext r c
  unfold valueEntry
  cases hc : a.cellAt { row := (r : Int), col := (c : Int) } with
  | none => rw [h.none _ hc]
  | some ca =>
    obtain ⟨cb, hcb, _⟩ := h.cell _ ca hc
    obtain ⟨v, a1, h1, h1s, _, _⟩ := Sheet.GetValue_present X a ha
      { row := (r : Int), col := (c : Int) } (by simp [hc])
    obtain ⟨w, b1, h2, h2s, _, _⟩ := Sheet.GetValue_present X b hb
      { row := (r : Int), col := (c : Int) } (by simp [hcb])
    have hvw := GetValue_agree X _ _ a a1 b b1 _ v w h h1 h2
    rw [hcb, h1s, h2s, hvw]

/-- C17: in every sheet reached from the empty one and for every present cell,
`SetCell(p, GetText(p))` returns, provided that for a formula cell the printed
expression is not empty and parses back to the formula; afterwards `GetText`
and `GetValue` of every position, `GetPrintableSize` and what `PrintValues` and
`PrintTexts` write are what they were before. -/
theorem C17_set_own_text (X : Externals D) (hX : ListsItsCells X) (showDouble : D → String)
    (showError : Category → String) (ops : List Op) (s : Sheet D)
    (h : runOps X ops Sheet.empty = some s) (p : Position) (c : Cell D)
    (hc : s.cellAt p = some c)
    (hrt : ∀ f cache, c.impl_ = .FormulaImpl f cache →
      f.printed ≠ "" ∧ X.ParseFormulaAST f.printed = some f) :
    ∃ s1, Sheet.SetCell X s p c.impl_.GetText = .ok () s1 ∧
      (∀ q, s1.GetText q = s.GetText q) ∧
      (∀ q, (Sheet.GetValue X s1 q).forget = (Sheet.GetValue X s q).forget) ∧
      s1.GetPrintableSize = s.GetPrintableSize ∧
      (s1.PrintValues X showDouble showError).forget =
        (s.PrintValues X showDouble showError).forget ∧
      s1.PrintTexts.forget = s.PrintTexts.forget := by
  have hs := runOps_sound X hX ops Sheet.empty s (Sound.of_empty X) h
  have hb := runOps_built X ops Sheet.empty s WellFormed.empty (Built.at_empty X) h
  obtain ⟨s1, hset, hsame⟩ := SetCell_own_text X s hs.wf hb p c hc hrt
  have hs1 : Sound X s1 := SetCell_sound X hX s p _ hs s1 (by rw [hset]; rfl)
  have hsize : s1.GetPrintableSize = s.GetPrintableSize :=
    printable_size_same s1 s hs1.wf hs.wf (fun q => (hsame q).1.symm)
  refine ⟨s1, hset, GetText_same s s1 hsame, GetValue_same X s s1 hs hs1 hsame, hsize, ?_, ?_⟩
  · obtain ⟨t, ht, _, _⟩ := PrintValues_layout X showDouble showError s hs
    obtain ⟨t1, ht1, _, _⟩ := PrintValues_layout X showDouble showError s1 hs1
    rw [ht, ht1, hsize, valueEntry_same X showDouble showError s s1 hs hs1 hsame]
    rfl
  · rw [PrintTexts_layout s, PrintTexts_layout s1, hsize, textEntry_same s s1 hsame]
    rfl

/-- C17 after `SetCell(A1, "=B1+5")`, `SetCell(B1, "2")` and `GetValue(A1)`, for
the formula cell A1. -/
theorem C17_witness :
    (ListsItsCells sampleX ∧
      runOps sampleX [.SetCell A1 "=B1+5", .SetCell B1 "2", .GetValue A1] Sheet.empty =
        some (sampleAfter [.SetCell A1 "=B1+5", .SetCell B1 "2", .GetValue A1]) ∧
      (sampleAfter [.SetCell A1 "=B1+5", .SetCell B1 "2", .GetValue A1]).cellAt A1 =
        some { impl_ := .FormulaImpl
                 { root := .binary .Add (.cell B1) (.number 5), cells := [B1], printed := "B1+5" }
                 (some (.number 7)),
               dependent_cells_ := [], referenced_cells_ := [B1] } ∧
      sampleX.ParseFormulaAST "B1+5" =
        some { root := .binary .Add (.cell B1) (.number 5), cells := [B1], printed := "B1+5" }) ∧
    ∃ s1, Sheet.SetCell sampleX (sampleAfter [.SetCell A1 "=B1+5", .SetCell B1 "2", .GetValue A1])
        A1 "=B1+5" = .ok () s1 ∧
      (∀ q, s1.GetText q =
        (sampleAfter [.SetCell A1 "=B1+5", .SetCell B1 "2", .GetValue A1]).GetText q) ∧
      (∀ q, (Sheet.GetValue sampleX s1 q).forget =
        (Sheet.GetValue sampleX
          (sampleAfter [.SetCell A1 "=B1+5", .SetCell B1 "2", .GetValue A1]) q).forget) ∧
      s1.GetPrintableSize =
        (sampleAfter [.SetCell A1 "=B1+5", .SetCell B1 "2", .GetValue A1]).GetPrintableSize ∧
      (s1.PrintValues sampleX sampleShowDouble sampleShowError).forget =
        ((sampleAfter [.SetCell A1 "=B1+5", .SetCell B1 "2", .GetValue A1]).PrintValues sampleX
          sampleShowDouble sampleShowError).forget ∧
      s1.PrintTexts.forget =
        (sampleAfter [.SetCell A1 "=B1+5", .SetCell B1 "2", .GetValue A1]).PrintTexts.forget :=
  ⟨⟨sampleX_listsItsCells, by decide, by decide, by decide⟩,
    C17_set_own_text sampleX sampleX_listsItsCells sampleShowDouble sampleShowError
      [.SetCell A1 "=B1+5", .SetCell B1 "2", .GetValue A1] _ (by decide) A1
      { impl_ := .FormulaImpl
          { root := .binary .Add (.cell B1) (.number 5), cells := [B1], printed := "B1+5" }
          (some (.number 7)),
        dependent_cells_ := [], referenced_cells_ := [B1] }
      (by decide)
      (fun f cache hf => by
        cases hf
        exact ⟨by decide, by decide⟩)⟩

end OwnTextClaims

end Spreadsheet
